import Mathlib

/-!
# Cryptographic envelope service: a shallow embedding

The development follows the Go sources

* `encoding/base64.go`  : `Base64Codec.Encrypt`, `Base64Codec.Decrypt`
* `crypto/aesgcm.go`    : `NewAESGCMCipher`, `AESGCMCipher.Encrypt`, `AESGCMCipher.Decrypt`
* `crypto/hmac.go`      : `HMACSigner.Sign`, `HMACSigner.Verify`
* `http/crypto.go`      : `CryptoAPI.PostEncrypt`, `PostDecrypt`, `PostSign`, `PostVerify`

A Go `string` or `[]byte` is a list of bytes.  The standard-library routines
the sources call (`base64.StdEncoding`, `hex`, `encoding/json`, `unicode/utf8`)
are written out as executable functions; the block cipher mode, the keyed hash
and the float formatter are parameters of the development.
-/

namespace CryptoEnvelope

/-! ## Bytes -/

/-- One byte. -/
abbrev Byte := Fin 256

/-- A Go `[]byte`; also a Go `string`, which is an arbitrary byte sequence. -/
abbrev Bytes := List Byte

/-- The bytes of an ASCII literal. -/
def ascii (s : String) : Bytes := s.toList.map (fun c => Fin.ofNat c.toNat)

/-! ## `encoding/base64`, `StdEncoding` -/

namespace Base64

/-- The padding character `=`. -/
def padChar : Byte := 61

/-- The standard alphabet `A-Z a-z 0-9 + /`, indexed by a sextet. -/
def encodeStd (n : Nat) : Byte :=
  if n < 26 then Fin.ofNat (65 + n)
  else if n < 52 then Fin.ofNat (97 + (n - 26))
  else if n < 62 then Fin.ofNat (48 + (n - 52))
  else if n = 62 then 43
  else 47

/-- The `decodeMap` of `StdEncoding`: the sextet of an alphabet character,
`none` where Go's table holds `0xff`. -/
def decodeMap (c : Byte) : Option Nat :=
  if 65 ≤ c.val ∧ c.val ≤ 90 then some (c.val - 65)
  else if 97 ≤ c.val ∧ c.val ≤ 122 then some (c.val - 97 + 26)
  else if 48 ≤ c.val ∧ c.val ≤ 57 then some (c.val - 48 + 52)
  else if c.val = 43 then some 62
  else if c.val = 47 then some 63
  else none

/-- `EncodeToString`: three bytes become four characters, a final group of one
or two bytes is padded with `=`. -/
def EncodeToString : Bytes → Bytes
  | [] => []
  | [a] => [encodeStd (a.val / 4), encodeStd (a.val % 4 * 16), padChar, padChar]
  | [a, b] =>
    [encodeStd (a.val / 4), encodeStd (a.val % 4 * 16 + b.val / 16),
     encodeStd (b.val % 16 * 4), padChar]
  | a :: b :: c :: rest =>
    encodeStd (a.val / 4) :: encodeStd (a.val % 4 * 16 + b.val / 16) ::
    encodeStd (b.val % 16 * 4 + c.val / 64) :: encodeStd (c.val % 64) ::
    EncodeToString rest

/-- Whether a byte is `\n` or `\r`, which the decoder ignores. -/
def isNewline (c : Byte) : Bool := c.val = 10 ∨ c.val = 13

/-- Drop leading `\r` and `\n`. -/
def skipNewlines : Bytes → Bytes
  | [] => []
  | c :: rest => if isNewline c then skipNewlines rest else c :: rest

/-- The loop of `decodeQuantum`: `dbuf` holds the sextets read so far (its
length is Go's `j`).  The result is the sextets of this quantum and the input
that is left; `none` is a `CorruptInputError`.  An empty quantum means the
input was exhausted at `j = 0`. -/
def decodeQuantum : List Nat → Bytes → Option (List Nat × Bytes)
  | dbuf, [] => if dbuf.length = 0 then some ([], []) else none
  | dbuf, c :: rest =>
    match decodeMap c with
    | some out =>
      if dbuf.length = 3 then some (dbuf ++ [out], rest)
      else decodeQuantum (dbuf ++ [out]) rest
    | none =>
      if isNewline c then decodeQuantum dbuf rest
      else if c ≠ padChar then none
      else if dbuf.length < 2 then none
      else if dbuf.length = 2 then
        match skipNewlines rest with
        | [] => none
        | d :: rest2 =>
          if d ≠ padChar then none
          else if skipNewlines rest2 = [] then some (dbuf, []) else none
      else if skipNewlines rest = [] then some (dbuf, []) else none

/-- The bytes of a quantum of two, three or four sextets (`dlen - 1` bytes);
the encoding is not strict, so left-over bits are dropped. -/
def quantumBytes : List Nat → Bytes
  | [d0, d1] => [Fin.ofNat (d0 * 4 + d1 / 16)]
  | [d0, d1, d2] => [Fin.ofNat (d0 * 4 + d1 / 16), Fin.ofNat (d1 % 16 * 16 + d2 / 4)]
  | [d0, d1, d2, d3] =>
    [Fin.ofNat (d0 * 4 + d1 / 16), Fin.ofNat (d1 % 16 * 16 + d2 / 4),
     Fin.ofNat (d2 % 4 * 64 + d3)]
  | _ => []

/-- The loop of `Decode`: quantum after quantum until the input is used up.
The fuel bounds the number of quanta. -/
def decodeLoop : Nat → Bytes → Option Bytes
  | 0, _ => none
  | fuel + 1, src =>
    match decodeQuantum [] src with
    | none => none
    | some ([], _) => some []
    | some (dbuf, rest) =>
      match decodeLoop fuel rest with
      | none => none
      | some out => some (quantumBytes dbuf ++ out)

/-- `DecodeString`; `none` when Go returns an error. -/
def DecodeString (s : Bytes) : Option Bytes := decodeLoop (s.length + 1) s

end Base64

/-! ## `encoding/hex` -/

namespace Hex

/-- The table `0123456789abcdef`. -/
def hextable (n : Nat) : Byte :=
  if n < 10 then Fin.ofNat (48 + n) else Fin.ofNat (97 + (n - 10))

/-- The `reverseHexTable`: the value of a hexadecimal digit of either case. -/
def fromHexChar (c : Byte) : Option Nat :=
  if 48 ≤ c.val ∧ c.val ≤ 57 then some (c.val - 48)
  else if 97 ≤ c.val ∧ c.val ≤ 102 then some (c.val - 97 + 10)
  else if 65 ≤ c.val ∧ c.val ≤ 70 then some (c.val - 65 + 10)
  else none

/-- `EncodeToString`. -/
def EncodeToString : Bytes → Bytes
  | [] => []
  | b :: rest => hextable (b.val / 16) :: hextable (b.val % 16) :: EncodeToString rest

/-- The two errors of `hex.Decode`. -/
inductive DecodeError where
  | InvalidByteError (b : Byte)
  | ErrLength
  deriving DecidableEq, Repr

/-- `DecodeString`: pairs of digits; an odd trailing character is reported as
an invalid byte if it is one, as a length error otherwise. -/
def DecodeString : Bytes → Except DecodeError Bytes
  | [] => .ok []
  | [p] =>
    match fromHexChar p with
    | none => .error (.InvalidByteError p)
    | some _ => .error .ErrLength
  | p :: q :: rest =>
    match fromHexChar p, fromHexChar q with
    | none, _ => .error (.InvalidByteError p)
    | some _, none => .error (.InvalidByteError q)
    | some a, some b =>
      match DecodeString rest with
      | .error e => .error e
      | .ok out => .ok (Fin.ofNat (a * 16 + b) :: out)

/-- A hexadecimal digit of either case. -/
def isHexDigit (c : Byte) : Bool :=
  (48 ≤ c.val ∧ c.val ≤ 57) ∨ (97 ≤ c.val ∧ c.val ≤ 102) ∨ (65 ≤ c.val ∧ c.val ≤ 70)

/-- A valid hex string: an even number of characters, all hexadecimal digits. -/
def IsValid (s : Bytes) : Prop := s.length % 2 = 0 ∧ ∀ c ∈ s, isHexDigit c = true

end Hex

/-! ## `unicode/utf8` and `unicode/utf16` -/

namespace UTF8

/-- The replacement rune `U+FFFD`. -/
def RuneError : Nat := 0xFFFD

/-- The table `first` joined with `acceptRanges`: for the leading byte of a
multi-byte sequence, its size and the range the second byte must lie in. -/
def first (p0 : Byte) : Option (Nat × Nat × Nat) :=
  if p0.val < 0xC2 then none
  else if p0.val ≤ 0xDF then some (2, 0x80, 0xBF)
  else if p0.val = 0xE0 then some (3, 0xA0, 0xBF)
  else if p0.val ≤ 0xEC then some (3, 0x80, 0xBF)
  else if p0.val = 0xED then some (3, 0x80, 0x9F)
  else if p0.val ≤ 0xEF then some (3, 0x80, 0xBF)
  else if p0.val = 0xF0 then some (4, 0x90, 0xBF)
  else if p0.val ≤ 0xF3 then some (4, 0x80, 0xBF)
  else if p0.val = 0xF4 then some (4, 0x80, 0x8F)
  else none

/-- Whether a byte is a continuation byte `0x80..0xBF`. -/
def isCont (b : Byte) : Bool := 0x80 ≤ b.val ∧ b.val ≤ 0xBF

/-- `DecodeRune`: the rune at the head of `p` and its width.  An invalid or
truncated sequence gives `(RuneError, 1)`, empty input `(RuneError, 0)`. -/
def DecodeRune (p : Bytes) : Nat × Nat :=
  match p with
  | [] => (RuneError, 0)
  | p0 :: t =>
    if p0.val < 0x80 then (p0.val, 1)
    else
      match first p0 with
      | none => (RuneError, 1)
      | some (sz, lo, hi) =>
        match t with
        | [] => (RuneError, 1)
        | b1 :: t1 =>
          if b1.val < lo ∨ hi < b1.val then (RuneError, 1)
          else if sz ≤ 2 then (p0.val % 32 * 64 + b1.val % 64, 2)
          else
            match t1 with
            | [] => (RuneError, 1)
            | b2 :: t2 =>
              if !isCont b2 then (RuneError, 1)
              else if sz ≤ 3 then (p0.val % 16 * 4096 + b1.val % 64 * 64 + b2.val % 64, 3)
              else
                match t2 with
                | [] => (RuneError, 1)
                | b3 :: _ =>
                  if !isCont b3 then (RuneError, 1)
                  else (p0.val % 8 * 262144 + b1.val % 64 * 4096 + b2.val % 64 * 64
                          + b3.val % 64, 4)

/-- `EncodeRune`; surrogates and out-of-range runes are written as `U+FFFD`. -/
def EncodeRune (r : Nat) : Bytes :=
  if r ≤ 0x7F then [Fin.ofNat r]
  else if r ≤ 0x7FF then [Fin.ofNat (0xC0 + r / 64), Fin.ofNat (0x80 + r % 64)]
  else if r > 0x10FFFF ∨ (0xD800 ≤ r ∧ r ≤ 0xDFFF) then [0xEF, 0xBF, 0xBD]
  else if r ≤ 0xFFFF then
    [Fin.ofNat (0xE0 + r / 4096), Fin.ofNat (0x80 + r / 64 % 64), Fin.ofNat (0x80 + r % 64)]
  else
    [Fin.ofNat (0xF0 + r / 262144), Fin.ofNat (0x80 + r / 4096 % 64),
     Fin.ofNat (0x80 + r / 64 % 64), Fin.ofNat (0x80 + r % 64)]

/-- `utf16.IsSurrogate`. -/
def IsSurrogate (r : Nat) : Bool := 0xD800 ≤ r ∧ r < 0xE000

/-- `utf16.DecodeRune`: the rune of a surrogate pair, `U+FFFD` if the pair is
not valid.  A missing second half is `none` (Go passes `-1`). -/
def DecodeSurrogates (r1 : Nat) (r2 : Option Nat) : Nat :=
  match r2 with
  | none => RuneError
  | some r2 =>
    if 0xD800 ≤ r1 ∧ r1 < 0xDC00 ∧ 0xDC00 ≤ r2 ∧ r2 < 0xE000 then
      (r1 - 0xD800) * 1024 + (r2 - 0xDC00) + 0x10000
    else RuneError

/-- A string is valid UTF-8 when `DecodeRune` never reports an error on it.
The fuel bounds the number of runes. -/
def validLoop : Nat → Bytes → Bool
  | _, [] => true
  | 0, _ :: _ => false
  | fuel + 1, b :: rest =>
    let (c, size) := DecodeRune (b :: rest)
    if c = RuneError ∧ size = 1 then false
    else validLoop fuel ((b :: rest).drop size)

/-- `utf8.Valid`. -/
def Valid (s : Bytes) : Bool := validLoop s.length s

/-- The shape of a valid two-byte sequence. -/
def Seq2 (p0 b1 : Byte) : Prop :=
  0xC2 ≤ p0.val ∧ p0.val ≤ 0xDF ∧ 0x80 ≤ b1.val ∧ b1.val ≤ 0xBF

/-- The shape of a valid three-byte sequence. -/
def Seq3 (p0 b1 b2 : Byte) : Prop :=
  0xE0 ≤ p0.val ∧ p0.val ≤ 0xEF ∧ 0x80 ≤ b1.val ∧ b1.val ≤ 0xBF ∧
  (p0.val = 0xE0 → 0xA0 ≤ b1.val) ∧ (p0.val = 0xED → b1.val ≤ 0x9F) ∧
  0x80 ≤ b2.val ∧ b2.val ≤ 0xBF

/-- The shape of a valid four-byte sequence. -/
def Seq4 (p0 b1 b2 b3 : Byte) : Prop :=
  0xF0 ≤ p0.val ∧ p0.val ≤ 0xF4 ∧ 0x80 ≤ b1.val ∧ b1.val ≤ 0xBF ∧
  (p0.val = 0xF0 → 0x90 ≤ b1.val) ∧ (p0.val = 0xF4 → b1.val ≤ 0x8F) ∧
  0x80 ≤ b2.val ∧ b2.val ≤ 0xBF ∧ 0x80 ≤ b3.val ∧ b3.val ≤ 0xBF

end UTF8

/-! ## JSON values -/

/-- What `encoding/json` stores in an `any`: `nil`, `bool`, `float64`, `string`,
`[]any` and `map[string]any`.  `F` is the type of `float64` numbers.  The list
of an `obj` holds the entries of the Go map; `Canonical` below fixes the order
in which a map is represented. -/
inductive Value (F : Type) where
  | null : Value F
  | bool (b : Bool) : Value F
  | num (f : F) : Value F
  | str (s : Bytes) : Value F
  | arr (xs : List (Value F)) : Value F
  | obj (kvs : List (Bytes × Value F)) : Value F

/-- The entries of a `map[string]any`. -/
abbrev Fields (F : Type) := List (Bytes × Value F)

/-- The order of `strings.Compare`: bytewise lexicographic. -/
def keyLt : Bytes → Bytes → Bool
  | [], [] => false
  | [], _ :: _ => true
  | _ :: _, [] => false
  | a :: s, b :: t => if a.val < b.val then true else if b.val < a.val then false else keyLt s t

namespace Fields

/-- The map read `m[k]`. -/
def get {α : Type} (k : Bytes) : List (Bytes × α) → Option α
  | [] => none
  | (k1, v1) :: rest => if k = k1 then some v1 else get k rest

/-- The map assignment `m[k] = v`: an existing entry is replaced, a new one is
placed so that increasing key order is kept. -/
def set {α : Type} (k : Bytes) (v : α) : List (Bytes × α) → List (Bytes × α)
  | [] => [(k, v)]
  | (k1, v1) :: rest =>
    if k = k1 then (k, v) :: rest
    else if keyLt k k1 then (k, v) :: (k1, v1) :: rest
    else (k1, v1) :: set k v rest

/-- The keys of a map. -/
def keys {α : Type} (m : List (Bytes × α)) : List Bytes := m.map Prod.fst

/-- Keys strictly increasing: the representation of a map that `set` builds. -/
def Sorted {α : Type} : List (Bytes × α) → Prop
  | [] => True
  | [_] => True
  | (k1, _) :: (k2, v2) :: rest => keyLt k1 k2 = true ∧ Sorted ((k2, v2) :: rest)

/-- Every key of `m` is below `k`. -/
def AllBelow (k : Bytes) {α : Type} (m : List (Bytes × α)) : Prop := ∀ p ∈ m, keyLt p.1 k = true

end Fields

/-! ## `strconv`, as far as `encoding/json` uses it -/

/-- The float routines `encoding/json` calls, for a type `F` of `float64`
numbers: `isFinite f` is `!math.IsInf(f, 0) && !math.IsNaN(f)`, `FormatFloat` is
the literal the encoder writes for a finite number, and `ParseFloat` converts a
literal the scanner accepted (`none` is a range error). -/
structure Strconv (F : Type) where
  isFinite : F → Bool
  FormatFloat : F → Bytes
  ParseFloat : Bytes → Option F

/-! ## `encoding/json`: `Marshal` -/

namespace JSON

/-- The escape the encoder writes for an ASCII byte that is not in
`htmlSafeSet` (control characters, `"`, `\`, `<`, `>`, `&`); a safe byte is
written as it is. -/
def escapeASCII (b : Byte) : Bytes :=
  if 0x20 ≤ b.val ∧ b.val ≠ 34 ∧ b.val ≠ 38 ∧ b.val ≠ 60 ∧ b.val ≠ 62 ∧ b.val ≠ 92 then [b]
  else if b.val = 92 ∨ b.val = 34 then [92, b]
  else if b.val = 8 then [92, 98]
  else if b.val = 12 then [92, 102]
  else if b.val = 10 then [92, 110]
  else if b.val = 13 then [92, 114]
  else if b.val = 9 then [92, 116]
  else [92, 117, 48, 48, Hex.hextable (b.val / 16), Hex.hextable (b.val % 16)]

/-- The loop of `appendString` with `escapeHTML` set: ASCII bytes are escaped
by `escapeASCII`, an invalid UTF-8 byte is written as the escape of `U+FFFD`,
`U+2028` and `U+2029` as their escapes, every other rune is copied. -/
def appendStringLoop : Nat → Bytes → Bytes
  | _, [] => []
  | 0, _ :: _ => []
  | fuel + 1, b :: rest =>
    if b.val < 0x80 then escapeASCII b ++ appendStringLoop fuel rest
    else
      let (c, size) := UTF8.DecodeRune (b :: rest)
      if c = UTF8.RuneError ∧ size = 1 then
        [92, 117, 102, 102, 102, 100] ++ appendStringLoop fuel rest
      else if c = 0x2028 ∨ c = 0x2029 then
        [92, 117, 50, 48, 50, Hex.hextable (c % 16)]
          ++ appendStringLoop fuel ((b :: rest).drop size)
      else (b :: rest).take size ++ appendStringLoop fuel ((b :: rest).drop size)

/-- `appendString`: the quoted JSON string literal of `s`. -/
def appendString (s : Bytes) : Bytes := 34 :: (appendStringLoop s.length s ++ [34])

/-- Elements separated by commas. -/
def joinComma : List Bytes → Bytes
  | [] => []
  | x :: xs => match xs with
    | [] => x
    | _ :: _ => x ++ 44 :: joinComma xs

/-- One step of sorting by key. -/
def insertByKey {α : Type} (p : Bytes × α) : List (Bytes × α) → List (Bytes × α)
  | [] => [p]
  | q :: rest => if keyLt q.1 p.1 then q :: insertByKey p rest else p :: q :: rest

/-- The sort of the `mapEncoder`: entries by increasing key. -/
def sortByKey {α : Type} (l : List (Bytes × α)) : List (Bytes × α) := l.foldr insertByKey []

/-- One member `"key":value`. -/
def encodeMember (p : Bytes × Bytes) : Bytes := appendString p.1 ++ 58 :: p.2

mutual
/-- The encoder of an `any`; `none` is an `UnsupportedValueError`. -/
def encodeValue {F : Type} (N : Strconv F) : Value F → Option Bytes
  | .null => some (ascii "null")
  | .bool b => some (if b then ascii "true" else ascii "false")
  | .num f => if N.isFinite f then some (N.FormatFloat f) else none
  | .str s => some (appendString s)
  | .arr xs =>
    match encodeElems N xs with
    | none => none
    | some es => some (91 :: (joinComma es ++ [93]))
  | .obj kvs =>
    match encodeMembers N kvs with
    | none => none
    | some ms => some (123 :: (joinComma ((sortByKey ms).map encodeMember) ++ [125]))
/-- The encoded elements of an array. -/
def encodeElems {F : Type} (N : Strconv F) : List (Value F) → Option (List Bytes)
  | [] => some []
  | x :: xs =>
    match encodeValue N x, encodeElems N xs with
    | some e, some es => some (e :: es)
    | _, _ => none
/-- The keys of a map with their encoded values. -/
def encodeMembers {F : Type} (N : Strconv F) :
    List (Bytes × Value F) → Option (List (Bytes × Bytes))
  | [] => some []
  | (k, x) :: kvs =>
    match encodeValue N x, encodeMembers N kvs with
    | some e, some ms => some ((k, e) :: ms)
    | _, _ => none
end

/-- `json.Marshal` of an `any`. -/
def Marshal {F : Type} (N : Strconv F) (v : Value F) : Option Bytes := encodeValue N v

/-! ## `encoding/json`: `Unmarshal` -/

/-- The scanner's `isSpace`. -/
def isSpace (c : Byte) : Bool := c.val = 32 ∨ c.val = 9 ∨ c.val = 13 ∨ c.val = 10

/-- Drop leading white space. -/
def skipSpace : Bytes → Bytes
  | [] => []
  | c :: rest => if isSpace c then skipSpace rest else c :: rest

/-- Whether a byte is a decimal digit. -/
def isDigit (c : Byte) : Bool := 48 ≤ c.val ∧ c.val ≤ 57

/-- The scanner states inside a number: `begin` is `stateBeginValue`, the
others are `stateNeg`, `state0`, `state1`, `stateDot`, `stateDot0`, `stateE`,
`stateESign` and `stateE0`. -/
inductive NumState where
  | begin | neg | zero | int | dot | dot0 | e | esign | e0
  deriving DecidableEq, Repr

/-- The states in which a number may end. -/
def NumState.accepting : NumState → Bool
  | .zero | .int | .dot0 | .e0 => true
  | _ => false

/-- One scanner step inside a number; `none` when the byte does not continue
the number. -/
def NumState.step (st : NumState) (c : Byte) : Option NumState :=
  let dotOrE : Option NumState :=
    if c.val = 46 then some .dot else if c.val = 101 ∨ c.val = 69 then some .e else none
  match st with
  | .begin =>
    if c.val = 45 then some .neg else if c.val = 48 then some .zero
    else if isDigit c then some .int else none
  | .neg => if c.val = 48 then some .zero else if isDigit c then some .int else none
  | .zero => dotOrE
  | .int => if isDigit c then some .int else dotOrE
  | .dot => if isDigit c then some .dot0 else none
  | .dot0 => if isDigit c then some .dot0 else if c.val = 101 ∨ c.val = 69 then some .e else none
  | .e => if c.val = 43 ∨ c.val = 45 then some .esign else if isDigit c then some .e0 else none
  | .esign => if isDigit c then some .e0 else none
  | .e0 => if isDigit c then some .e0 else none

/-- Put `out` in front of the text of a scan result. -/
def prepend (out : Bytes) : Option (Bytes × Bytes) → Option (Bytes × Bytes)
  | none => none
  | some (s, rest) => some (out ++ s, rest)

/-- Scan the longest number literal from state `st`: the literal and the input
after it, `none` when the number is cut short. -/
def scanNum : NumState → Bytes → Option (Bytes × Bytes)
  | st, [] => if st.accepting then some ([], []) else none
  | st, c :: rest =>
    match st.step c with
    | some st1 => prepend [c] (scanNum st1 rest)
    | none => if st.accepting then some ([], c :: rest) else none

/-- The number literal at the head of the input. -/
def scanNumber (bs : Bytes) : Option (Bytes × Bytes) := scanNum .begin bs

/-- Four hexadecimal digits. -/
def hex4 : Bytes → Option (Nat × Bytes)
  | a :: b :: c :: d :: rest =>
    match Hex.fromHexChar a, Hex.fromHexChar b, Hex.fromHexChar c, Hex.fromHexChar d with
    | some x, some y, some z, some w => some (x * 4096 + y * 256 + z * 16 + w, rest)
    | _, _, _, _ => none
  | _ => none

/-- The decoder's `getu4`: the code unit of a `\uXXXX` at the head of the input. -/
def getu4 : Bytes → Option (Nat × Bytes)
  | a :: b :: rest => if a.val = 92 ∧ b.val = 117 then hex4 rest else none
  | _ => none

/-- The byte a one-letter escape stands for. -/
def unescape (e : Byte) : Option Byte :=
  if e.val = 34 ∨ e.val = 92 ∨ e.val = 47 then some e
  else if e.val = 98 then some 8
  else if e.val = 102 then some 12
  else if e.val = 110 then some 10
  else if e.val = 114 then some 13
  else if e.val = 116 then some 9
  else none

/-- The body of a string literal, after the opening quote: the scanner's
string states together with `unquoteBytes`.  The result is the decoded string
and the input after the closing quote.  Control characters and unknown escapes
are syntax errors; invalid UTF-8 and unpaired surrogates become `U+FFFD`. -/
def unquoteLoop : Nat → Bytes → Option (Bytes × Bytes)
  | 0, _ => none
  | _ + 1, [] => none
  | fuel + 1, c :: rest =>
    let cont (out : Bytes) (r : Bytes) : Option (Bytes × Bytes) :=
      prepend out (unquoteLoop fuel r)
    if c.val = 34 then some ([], rest)
    else if c.val = 92 then
      match rest with
      | [] => none
      | e :: r2 =>
        if e.val = 117 then
          match hex4 r2 with
          | none => none
          | some (rr, r3) =>
            if UTF8.IsSurrogate rr then
              match getu4 r3 with
              | some (rr1, r4) =>
                let dec := UTF8.DecodeSurrogates rr (some rr1)
                if dec ≠ UTF8.RuneError then cont (UTF8.EncodeRune dec) r4
                else cont (UTF8.EncodeRune UTF8.RuneError) r3
              | none => cont (UTF8.EncodeRune UTF8.RuneError) r3
            else cont (UTF8.EncodeRune rr) r3
        else
          match unescape e with
          | none => none
          | some b => cont [b] r2
    else if c.val < 0x20 then none
    else if c.val < 0x80 then cont [c] rest
    else
      let (rr, size) := UTF8.DecodeRune (c :: rest)
      cont (UTF8.EncodeRune rr) ((c :: rest).drop size)

/-- A string literal after its opening quote. -/
def parseString (bs : Bytes) : Option (Bytes × Bytes) := unquoteLoop (bs.length + 1) bs

/-- The scanner's `maxNestingDepth`. -/
def maxNestingDepth : Nat := 10000

/-- Strip an expected literal from the head of the input. -/
def expect : Bytes → Bytes → Option Bytes
  | [], bs => some bs
  | _ :: _, [] => none
  | c :: lit, b :: bs => if c = b then expect lit bs else none

mutual
/-- One JSON value at the head of the input, after optional white space:
the value as `valueInterface` builds it, and the input that follows.  `depth`
is the number of enclosing arrays and objects. -/
def parseValue {F : Type} (N : Strconv F) : Nat → Nat → Bytes → Option (Value F × Bytes)
  | 0, _, _ => none
  | fuel + 1, depth, bs =>
    match skipSpace bs with
    | [] => none
    | c :: rest =>
      if c.val = 123 then
        if maxNestingDepth ≤ depth then none
        else
          match skipSpace rest with
          | [] => none
          | d :: rest1 =>
            if d.val = 125 then some (.obj [], rest1)
            else parseMembers N fuel (depth + 1) [] (d :: rest1)
      else if c.val = 91 then
        if maxNestingDepth ≤ depth then none
        else
          match skipSpace rest with
          | [] => none
          | d :: rest1 =>
            if d.val = 93 then some (.arr [], rest1)
            else parseElems N fuel (depth + 1) [] (d :: rest1)
      else if c.val = 34 then
        match parseString rest with
        | none => none
        | some (s, rest1) => some (.str s, rest1)
      else if c.val = 116 then
        match expect (ascii "rue") rest with
        | none => none
        | some rest1 => some (.bool true, rest1)
      else if c.val = 102 then
        match expect (ascii "alse") rest with
        | none => none
        | some rest1 => some (.bool false, rest1)
      else if c.val = 110 then
        match expect (ascii "ull") rest with
        | none => none
        | some rest1 => some (.null, rest1)
      else
        match scanNumber (c :: rest) with
        | none => none
        | some (lit, rest1) =>
          match N.ParseFloat lit with
          | none => none
          | some f => some (.num f, rest1)
/-- The elements of an array from the next element on; `acc` holds the
elements read so far, in reverse. -/
def parseElems {F : Type} (N : Strconv F) :
    Nat → Nat → List (Value F) → Bytes → Option (Value F × Bytes)
  | 0, _, _, _ => none
  | fuel + 1, depth, acc, bs =>
    match parseValue N fuel depth bs with
    | none => none
    | some (v, rest) =>
      match skipSpace rest with
      | [] => none
      | c :: rest1 =>
        if c.val = 44 then parseElems N fuel depth (v :: acc) rest1
        else if c.val = 93 then some (.arr (v :: acc).reverse, rest1)
        else none
/-- The members of an object from the next key on; `acc` is the map built so
far, each member is stored with a map assignment. -/
def parseMembers {F : Type} (N : Strconv F) :
    Nat → Nat → Fields F → Bytes → Option (Value F × Bytes)
  | 0, _, _, _ => none
  | fuel + 1, depth, acc, bs =>
    match skipSpace bs with
    | [] => none
    | q :: rest =>
      if q.val ≠ 34 then none
      else
        match parseString rest with
        | none => none
        | some (k, rest1) =>
          match skipSpace rest1 with
          | [] => none
          | c :: rest2 =>
            if c.val ≠ 58 then none
            else
              match parseValue N fuel depth rest2 with
              | none => none
              | some (v, rest3) =>
                match skipSpace rest3 with
                | [] => none
                | d :: rest4 =>
                  if d.val = 44 then parseMembers N fuel depth (Fields.set k v acc) rest4
                  else if d.val = 125 then some (.obj (Fields.set k v acc), rest4)
                  else none
end

/-- `json.Unmarshal` into an `any`: one value, then nothing but white space;
`none` when Go returns an error. -/
def Unmarshal {F : Type} (N : Strconv F) (data : Bytes) : Option (Value F) :=
  match parseValue N (data.length + 1) 0 data with
  | none => none
  | some (v, rest) => if skipSpace rest = [] then some v else none

end JSON

/-! ## The cipher and signer interfaces of `http/crypto.go` -/

/-- The failures of a cipher, named as in the error taxonomy.  In the sources
they are the wrapped errors `aes:`/`gcm:` (`InvalidKeyLength`), `marshal:`
(`SerializationError`), `nonce:` (`NonceError`), `base64:` and `decode base64:`
(`DecodeError`), `ciphertext too short` (`Truncated`), `decrypt:`
(`AuthenticationFailed`) and `unmarshal:` (`MalformedPlaintext`). -/
inductive CipherError where
  | InvalidKeyLength
  | SerializationError
  | NonceError
  | DecodeError
  | Truncated
  | AuthenticationFailed
  | MalformedPlaintext
  deriving DecidableEq, Repr

/-- The interface `Cipher`.  `Encrypt` takes, besides the value, the bytes
that `crypto/rand` yields during the call. -/
structure Cipher (F : Type) where
  Encrypt : Bytes → Value F → Except CipherError Bytes
  Decrypt : Bytes → Except CipherError (Value F)

/-- The failure of `Verify`: the error of `hex.DecodeString`. -/
inductive SignError where
  | MalformedSignature (e : Hex.DecodeError)
  deriving DecidableEq, Repr

/-- The interface `Signer`. -/
structure Signer where
  Sign : Bytes → Except SignError Bytes
  Verify : Bytes → Bytes → Except SignError Bool

/-! ## `encoding/base64.go` -/

/-- The type `Base64Codec`. -/
structure Base64Codec where
  deriving DecidableEq, Repr

/-- The constructor `NewBase64Codec`. -/
def NewBase64Codec : Base64Codec := {}

/-- The quote stripping of `Encrypt`: `str[1 : len(str)-1]` when the text has
at least two bytes and starts and ends with `"`. -/
def stripQuotes (str : Bytes) : Bytes :=
  if 2 ≤ str.length ∧ str.head? = some 34 ∧ str.getLast? = some 34 then
    (str.drop 1).take (str.length - 2)
  else str

/-- The method `Base64Codec.Encrypt`. -/
def Base64Codec.Encrypt {F : Type} (_b : Base64Codec) (N : Strconv F) (v : Value F) :
    Except CipherError Bytes :=
  match JSON.Marshal N v with
  | none => .error .SerializationError
  | some data => .ok (Base64.EncodeToString (stripQuotes data))

/-- The method `Base64Codec.Decrypt`. -/
def Base64Codec.Decrypt {F : Type} (_b : Base64Codec) (N : Strconv F) (s : Bytes) :
    Except CipherError (Value F) :=
  match Base64.DecodeString s with
  | none => .error .DecodeError
  | some decodedBytes =>
    match JSON.Unmarshal N decodedBytes with
    | some result => .ok result
    | none => .ok (.str decodedBytes)

/-- The codec as a `Cipher`; it draws no random bytes. -/
def Base64Codec.toCipher {F : Type} (b : Base64Codec) (N : Strconv F) : Cipher F where
  Encrypt := fun _ v => b.Encrypt N v
  Decrypt := fun s => b.Decrypt N s

/-! ## `crypto/aesgcm.go` -/

/-- The interface `cipher.AEAD` with no additional data: `Seal nonce plaintext`
is the ciphertext with its tag, `Open nonce ciphertext` is `none` when
authentication fails. -/
structure AEAD where
  NonceSize : Nat
  Seal : Bytes → Bytes → Bytes
  Open : Bytes → Bytes → Option Bytes

/-- The type `AESGCMCipher`. -/
structure AESGCMCipher where
  aead : AEAD

/-- The constructor `NewAESGCMCipher`; `gcm key` is the AEAD that
`cipher.NewGCM(aes.NewCipher(key))` builds.  `aes.NewCipher` accepts keys of
16, 24 and 32 bytes. -/
def NewAESGCMCipher (gcm : Bytes → AEAD) (key : Bytes) : Except CipherError AESGCMCipher :=
  if key.length = 16 ∨ key.length = 24 ∨ key.length = 32 then .ok { aead := gcm key }
  else .error .InvalidKeyLength

/-- The method `AESGCMCipher.Encrypt`.  `entropy` is what `rand.Reader` can
deliver; `io.ReadFull` fails when it is shorter than the nonce. -/
def AESGCMCipher.Encrypt {F : Type} (c : AESGCMCipher) (N : Strconv F) (entropy : Bytes)
    (v : Value F) : Except CipherError Bytes :=
  match JSON.Marshal N v with
  | none => .error .SerializationError
  | some plaintext =>
    if entropy.length < c.aead.NonceSize then .error .NonceError
    else
      let nonce := entropy.take c.aead.NonceSize
      let ciphertext := c.aead.Seal nonce plaintext
      .ok (Base64.EncodeToString (nonce ++ ciphertext))

/-- The method `AESGCMCipher.Decrypt`. -/
def AESGCMCipher.Decrypt {F : Type} (c : AESGCMCipher) (N : Strconv F) (s : Bytes) :
    Except CipherError (Value F) :=
  match Base64.DecodeString s with
  | none => .error .DecodeError
  | some raw =>
    if raw.length < c.aead.NonceSize then .error .Truncated
    else
      let nonce := raw.take c.aead.NonceSize
      let ciphertext := raw.drop c.aead.NonceSize
      match c.aead.Open nonce ciphertext with
      | none => .error .AuthenticationFailed
      | some plaintext =>
        match JSON.Unmarshal N plaintext with
        | none => .error .MalformedPlaintext
        | some v => .ok v

/-- The cipher as a `Cipher`. -/
def AESGCMCipher.toCipher {F : Type} (c : AESGCMCipher) (N : Strconv F) : Cipher F where
  Encrypt := fun entropy v => c.Encrypt N entropy v
  Decrypt := fun s => c.Decrypt N s

/-! ## `crypto/hmac.go` -/

/-- The type `HMACSigner`. -/
structure HMACSigner where
  key : Bytes

/-- The constructor `NewHMACSigner`. -/
def NewHMACSigner (key : Bytes) : HMACSigner := { key := key }

/-- `hmac.Equal`: true exactly when the two slices are equal. -/
def hmacEqual (mac1 mac2 : Bytes) : Bool := decide (mac1 = mac2)

/-- The method `HMACSigner.Sign`; `H key data` is the sum of the HMAC-SHA256
of `data` under `key`. -/
def HMACSigner.Sign (H : Bytes → Bytes → Bytes) (h : HMACSigner) (data : Bytes) :
    Except SignError Bytes :=
  let sig := H h.key data
  .ok (Hex.EncodeToString sig)

/-- The method `HMACSigner.Verify`. -/
def HMACSigner.Verify (H : Bytes → Bytes → Bytes) (h : HMACSigner) (data : Bytes)
    (signature : Bytes) : Except SignError Bool :=
  let expectedMac := H h.key data
  match Hex.DecodeString signature with
  | .error err => .error (.MalformedSignature err)
  | .ok mac => .ok (hmacEqual expectedMac mac)

/-- The signer as a `Signer`. -/
def HMACSigner.toSigner (H : Bytes → Bytes → Bytes) (h : HMACSigner) : Signer where
  Sign := h.Sign H
  Verify := h.Verify H

/-! ## `http/crypto.go` -/

/-- What a handler writes: a JSON object with status 200, an
`api.SignResponse` with status 200, status 204 without a body, or an
`api.Error` with its status.  The two `api` types are used by the handlers
with one field each, the signature and the message. -/
inductive Response (F : Type) where
  | ok (body : Fields F)
  | signature (sig : Bytes)
  | noContent
  | error (code : Nat) (msg : String)

/-- The type `CryptoAPI`. -/
structure CryptoAPI (F : Type) where
  cipher : Cipher F
  signer : Signer

/-- The constructor `NewCryptoAPI`. -/
def NewCryptoAPI {F : Type} (cipher : Cipher F) (signer : Signer) : CryptoAPI F :=
  { cipher := cipher, signer := signer }

/-- The entries a `range` over the payload visits: none for the `nil` map. -/
def Value.fields {F : Type} : Value F → Fields F
  | .obj kvs => kvs
  | _ => []

/-- The call `json.NewDecoder(r.Body).Decode(&payload)` for a payload of type
`map[string]any`: the first JSON value of the body must be an object, or
`null`, which leaves the map `nil`; what follows the value is not read. -/
def decodePayload {F : Type} (N : Strconv F) (body : Bytes) : Option (Value F) :=
  match JSON.parseValue N (body.length + 1) 0 body with
  | some (.obj kvs, _) => some (.obj kvs)
  | some (.null, _) => some .null
  | _ => none

/-- The loop of `PostEncrypt` over the entries still to visit; `result` is the
map built so far, `rand k` the random bytes at hand while field `k` is
encrypted.  `none` is the early return on a failed field. -/
def encryptAll {F : Type} (c : Cipher F) (rand : Bytes → Bytes) :
    Fields F → Fields F → Option (Fields F)
  | [], result => some result
  | (k, v) :: rest, result =>
    match c.Encrypt (rand k) v with
    | .error _ => none
    | .ok encrypted => encryptAll c rand rest (Fields.set k (.str encrypted) result)

/-- The handler `PostEncrypt`. -/
def CryptoAPI.PostEncrypt {F : Type} (cs : CryptoAPI F) (N : Strconv F) (rand : Bytes → Bytes)
    (body : Bytes) : Response F :=
  match decodePayload N body with
  | none => .error 400 "Invalid JSON payload"
  | some payload =>
    match encryptAll cs.cipher rand payload.fields [] with
    | none => .error 500 "Encryption failed"
    | some result => .ok result

/-- The body of the loop of `PostDecrypt`: the value stored for a field. -/
def decryptField {F : Type} (c : Cipher F) (v : Value F) : Value F :=
  match v with
  | .str strVal =>
    match c.Decrypt strVal with
    | .error _ => v
    | .ok dec => dec
  | _ => v

/-- The loop of `PostDecrypt` over the entries still to visit. -/
def decryptAll {F : Type} (c : Cipher F) : Fields F → Fields F → Fields F
  | [], result => result
  | (k, v) :: rest, result => decryptAll c rest (Fields.set k (decryptField c v) result)

/-- The handler `PostDecrypt`. -/
def CryptoAPI.PostDecrypt {F : Type} (cs : CryptoAPI F) (N : Strconv F) (body : Bytes) :
    Response F :=
  match decodePayload N body with
  | none => .error 400 "Invalid JSON payload"
  | some payload => .ok (decryptAll cs.cipher payload.fields [])

/-- The part of `PostSign` after the body is decoded: canonicalise by
marshalling again, then sign. -/
def CryptoAPI.signPayload {F : Type} (cs : CryptoAPI F) (N : Strconv F) (payload : Value F) :
    Response F :=
  match JSON.Marshal N payload with
  | none => .error 400 "Invalid JSON payload"
  | some canon =>
    match cs.signer.Sign canon with
    | .error _ => .error 500 "Failed to sign the given payload"
    | .ok signature => .signature signature

/-- The handler `PostSign`. -/
def CryptoAPI.PostSign {F : Type} (cs : CryptoAPI F) (N : Strconv F) (body : Bytes) :
    Response F :=
  match decodePayload N body with
  | none => .error 400 "Invalid JSON payload"
  | some payload => cs.signPayload N payload

/-- Modelled from the spec: the request type `api.VerifyRequest`, declared in
the package `api`.  The Verify endpoint receives `{data: Value, signature: hex
string}`; the handler reads the two fields `Data` and `Signature`. -/
structure VerifyRequest (F : Type) where
  Data : Value F
  Signature : Bytes

/-- The part of `PostVerify` after the body is decoded into `input`. -/
def CryptoAPI.verifyInput {F : Type} (cs : CryptoAPI F) (N : Strconv F)
    (input : VerifyRequest F) : Response F :=
  match JSON.Marshal N input.Data with
  | none => .error 400 "\"data\" is an invalid JSON payload"
  | some canon =>
    match cs.signer.Verify canon input.Signature with
    | .error _ => .error 500 "Verification failed"
    | .ok valid => if valid then .noContent else .error 400 "Payload/signature mismatch"

/-! ## Instances for evaluation -/

/-- Decimal digits of a number, most significant first. -/
def natDigits : Nat → Nat → Bytes → Bytes
  | 0, _, acc => acc
  | fuel + 1, n, acc =>
    if n < 10 then Fin.ofNat (48 + n) :: acc
    else natDigits fuel (n / 10) (Fin.ofNat (48 + n % 10) :: acc)

/-- The value of a string of decimal digits; `none` if a byte is no digit. -/
def parseDigits : Nat → Bytes → Option Nat
  | acc, [] => some acc
  | acc, c :: rest =>
    if JSON.isDigit c then parseDigits (acc * 10 + (c.val - 48)) rest else none

/-- A stand-in `Strconv` for integral numbers, used to evaluate examples; it
is not `strconv`.  `F` is `Int` and every number is finite.  `FormatFloat`
writes plain decimal digits, as `encoding/json` does for an integral `float64`
of magnitude below `1e21`; from `1e21` on Go writes an exponent and this
function does not.  `ParseFloat` reads integer literals only: a literal with a
fraction or an exponent, which Go accepts, is reported as an error here. -/
def Strconv.integral : Strconv Int where
  isFinite := fun _ => true
  FormatFloat := fun i =>
    if i < 0 then 45 :: natDigits (i.natAbs + 1) i.natAbs [] else natDigits (i.natAbs + 1) i.natAbs []
  ParseFloat := fun lit =>
    match lit with
    | [] => none
    | c :: rest =>
      if c.val = 45 then
        match rest with
        | [] => none
        | _ :: _ =>
          match parseDigits 0 rest with
          | none => none
          | some n => some (- Int.ofNat n)
      else
        match parseDigits 0 (c :: rest) with
        | none => none
        | some n => some (Int.ofNat n)

/-- A stand-in AEAD with a one-byte tag, the sum of the key, nonce and
plaintext bytes; the plaintext is not hidden. -/
def AEAD.checksum (key : Bytes) : AEAD where
  NonceSize := 12
  Seal := fun nonce plaintext => plaintext ++ [(key ++ nonce ++ plaintext).sum]
  Open := fun nonce ciphertext =>
    match ciphertext.getLast? with
    | none => none
    | some tag =>
      if tag = (key ++ nonce ++ ciphertext.dropLast).sum then some ciphertext.dropLast else none

/-- A stand-in keyed hash: the sum of the key and data bytes, as one byte. -/
def sumMAC (key data : Bytes) : Bytes := [(key ++ data).sum]

/-- The payload `{"age": "MzA=", "n": 7, "x": "not-valid-base64!!"}`. -/
def samplePayload : Fields Int :=
  [(ascii "age", .str (ascii "MzA=")), (ascii "n", .num 7),
   (ascii "x", .str (ascii "not-valid-base64!!"))]


/-- A field that the fallback codec cannot decode: a number, or a string that
is not standard base64. -/
def isPlain {F : Type} : Value F → Prop
  | .num _ => True
  | .str s => Base64.DecodeString s = none
  | _ => False

/-- The payload `{"bar": 2, "baz": "Hello world!", "foo": 1}`. -/
def plainPayload : Fields Int :=
  [(ascii "bar", .num 2), (ascii "baz", .str (ascii "Hello world!")), (ascii "foo", .num 1)]

/-- The AEAD notices every change of one byte: when a byte of `nonce ‖ Seal
nonce plaintext` is replaced by a different one, `Open` rejects the result
split at the nonce size. -/
def AEAD.DetectsTampering (a : AEAD) : Prop :=
  ∀ (nonce plaintext pre post : Bytes) (b b2 : Byte),
    nonce.length = a.NonceSize → nonce ++ a.Seal nonce plaintext = pre ++ b :: post → b2 ≠ b →
    a.Open ((pre ++ b2 :: post).take a.NonceSize) ((pre ++ b2 :: post).drop a.NonceSize) = none

/-- `Open` inverts `Seal` under the same nonce. -/
def AEAD.OpensSealed (a : AEAD) : Prop :=
  ∀ (nonce plaintext : Bytes), nonce.length = a.NonceSize →
    a.Open nonce (a.Seal nonce plaintext) = some plaintext

/-! ## Maps written in different key orders -/

/-- Two values that differ only in the order in which the entries of their
maps are listed, at any depth: `perm` reorders the entries of one map, `arr`
and `obj` pass to an element of an array and to the value of a map entry. -/
inductive Reorder {F : Type} : Value F → Value F → Prop where
  | refl (v : Value F) : Reorder v v
  | trans {a b c : Value F} : Reorder a b → Reorder b c → Reorder a c
  | perm {m1 m2 : Fields F} : m1.Perm m2 → Reorder (.obj m1) (.obj m2)
  | arr (pre post : List (Value F)) {x y : Value F} :
      Reorder x y → Reorder (.arr (pre ++ x :: post)) (.arr (pre ++ y :: post))
  | obj (pre post : Fields F) (k : Bytes) {x y : Value F} :
      Reorder x y → Reorder (.obj (pre ++ (k, x) :: post)) (.obj (pre ++ (k, y) :: post))

mutual
/-- Every map inside the value has distinct keys, as a Go map has. -/
def Value.DistinctKeys {F : Type} : Value F → Prop
  | .arr xs => Value.DistinctKeysList xs
  | .obj kvs => (Fields.keys kvs).Nodup ∧ Value.DistinctKeysFields kvs
  | _ => True
/-- `DistinctKeys` for the elements of an array. -/
def Value.DistinctKeysList {F : Type} : List (Value F) → Prop
  | [] => True
  | x :: xs => Value.DistinctKeys x ∧ Value.DistinctKeysList xs
/-- `DistinctKeys` for the values of a map. -/
def Value.DistinctKeysFields {F : Type} : List (Bytes × Value F) → Prop
  | [] => True
  | (_, x) :: kvs => Value.DistinctKeys x ∧ Value.DistinctKeysFields kvs
end

/-- The payload of the test `same payload`. -/
def signedPayload : Value Int :=
  .obj [(ascii "message", .str (ascii "Hello World")), (ascii "timestamp", .num 1616161616)]

/-- The payload of the test `different key order`. -/
def reorderedPayload : Value Int :=
  .obj [(ascii "timestamp", .num 1616161616), (ascii "message", .str (ascii "Hello World"))]

/-! ## Well-formed values -/

/-- What the development assumes of `strconv`: for a finite number,
`FormatFloat` writes a literal of the JSON number grammar, and `ParseFloat`
reads that literal back as the same number. -/
def Strconv.Lawful {F : Type} (N : Strconv F) : Prop :=
  ∀ f, N.isFinite f = true →
    JSON.scanNumber (N.FormatFloat f) = some (N.FormatFloat f, []) ∧
    N.ParseFloat (N.FormatFloat f) = some f

mutual
/-- The nesting depth of a value: 0 for a scalar, one more than the deepest
element for an array or a map. -/
def Value.depth {F : Type} : Value F → Nat
  | .arr xs => Value.depthList xs + 1
  | .obj kvs => Value.depthFields kvs + 1
  | _ => 0
/-- The largest depth among the elements of an array. -/
def Value.depthList {F : Type} : List (Value F) → Nat
  | [] => 0
  | x :: xs => max (Value.depth x) (Value.depthList xs)
/-- The largest depth among the values of a map. -/
def Value.depthFields {F : Type} : List (Bytes × Value F) → Nat
  | [] => 0
  | (_, x) :: kvs => max (Value.depth x) (Value.depthFields kvs)
end

mutual
/-- A well-formed value, as the JSON decoder builds it: numbers are finite,
strings and keys are valid UTF-8, and the entries of every map are listed by
strictly increasing key. -/
def Value.WellFormed {F : Type} (N : Strconv F) : Value F → Prop
  | .null => True
  | .bool _ => True
  | .num f => N.isFinite f = true
  | .str s => UTF8.Valid s = true
  | .arr xs => Value.WellFormedList N xs
  | .obj kvs => Fields.Sorted kvs ∧ Value.WellFormedFields N kvs
/-- `WellFormed` for the elements of an array. -/
def Value.WellFormedList {F : Type} (N : Strconv F) : List (Value F) → Prop
  | [] => True
  | x :: xs => Value.WellFormed N x ∧ Value.WellFormedList N xs
/-- `WellFormed` for the entries of a map. -/
def Value.WellFormedFields {F : Type} (N : Strconv F) : List (Bytes × Value F) → Prop
  | [] => True
  | (k, x) :: kvs => UTF8.Valid k = true ∧ Value.WellFormed N x ∧ Value.WellFormedFields N kvs
end

namespace JSON

/-- The input after a value inside an array or a map, or at the end of the
text: nothing, or a comma or a closing bracket first. -/
def EndsValue (rest : Bytes) : Prop :=
  rest = [] ∨ ∃ c r, rest = c :: r ∧ (c.val = 44 ∨ c.val = 93 ∨ c.val = 125)

/-- The bytes a JSON value can start with. -/
def ValueStart (c : Byte) : Prop :=
  c.val = 110 ∨ c.val = 116 ∨ c.val = 102 ∨ c.val = 34 ∨ c.val = 91 ∨ c.val = 123 ∨
  c.val = 45 ∨ (48 ≤ c.val ∧ c.val ≤ 57)

end JSON

/-- The value `{"foo": "bar", "num": 42}` of the round-trip tests. -/
def sampleObject : Value Int :=
  .obj [(ascii "foo", .str (ascii "bar")), (ascii "num", .num 42)]

namespace Base64

/-- A character of the standard alphabet `A-Z a-z 0-9 + /`. -/
def isAlphabet (c : Byte) : Bool :=
  (65 ≤ c.val ∧ c.val ≤ 90) ∨ (97 ≤ c.val ∧ c.val ≤ 122) ∨ (48 ≤ c.val ∧ c.val ≤ 57) ∨
  c.val = 43 ∨ c.val = 47

/-- The text without the characters `\r` and `\n`. -/
def stripNewlines (s : Bytes) : Bytes := s.filter (fun c => !isNewline c)

/-- Groups of four characters of the alphabet; the last group may end in one
or two `=`. -/
def validGroups : Bytes → Bool
  | [] => true
  | a :: b :: c :: d :: rest =>
    if isAlphabet a ∧ isAlphabet b ∧ isAlphabet c ∧ isAlphabet d then validGroups rest
    else
      decide (rest = [] ∧ isAlphabet a = true ∧ isAlphabet b = true ∧
        ((isAlphabet c = true ∧ d = padChar) ∨ (c = padChar ∧ d = padChar)))
  | _ => false

/-- Valid standard base64, as `StdEncoding` reads a text: `\r` and `\n` are
ignored, and what is left is groups of four characters of the alphabet, the
last one possibly padded with `=`.  The encoding is not strict, so the unused
bits of a padded group are not looked at. -/
def IsValid (s : Bytes) : Prop := validGroups (stripNewlines s) = true

end Base64

/-! # Theorems -/

/-! ## Facts about `encoding/hex` -/

namespace Hex

theorem fromHexChar_hextable (n : Nat) (h : n < 16) : fromHexChar (hextable n) = some n := by
  interval_cases n <;> rfl

theorem ofNat_div_mod (b : Byte) : (Fin.ofNat (b.val / 16 * 16 + b.val % 16) : Byte) = b := by
  apply Fin.ext
  simp only [Fin.ofNat, Fin.val_mk]
  have := b.isLt
  omega

theorem hex_decode_encode (bs : Bytes) : DecodeString (EncodeToString bs) = .ok bs := by
  induction bs with
  | nil => rfl
  | cons b rest ih =>
    have h1 : b.val / 16 < 16 := by have := b.isLt; omega
    have h2 : b.val % 16 < 16 := by omega
    simp only [EncodeToString, DecodeString, fromHexChar_hextable _ h1, fromHexChar_hextable _ h2,
      ih, ofNat_div_mod]

theorem fromHexChar_isSome (c : Byte) : (fromHexChar c).isSome = isHexDigit c := by
  unfold fromHexChar isHexDigit
  split_ifs <;> simp_all

theorem fromHexChar_eq_none (c : Byte) : fromHexChar c = none ↔ isHexDigit c = false := by
  rw [← fromHexChar_isSome]; cases fromHexChar c <;> simp

theorem hex_decode_ok_iff : ∀ s : Bytes, (∃ out, DecodeString s = .ok out) ↔ IsValid s
  | [] => by simp [DecodeString, IsValid]
  | [p] => by
    have : ¬ IsValid [p] := by simp [IsValid]
    simp only [this, iff_false, not_exists]
    intro out
    unfold DecodeString
    cases fromHexChar p <;> simp
  | p :: q :: rest => by
    have ih := hex_decode_ok_iff rest
    have hv : IsValid (p :: q :: rest) ↔ isHexDigit p = true ∧ isHexDigit q = true ∧ IsValid rest := by
      simp only [IsValid, List.length_cons, List.mem_cons, forall_eq_or_imp]
      constructor
      · rintro ⟨h1, h2, h3, h4⟩; exact ⟨h2, h3, by omega, h4⟩
      · rintro ⟨h2, h3, h1, h4⟩; exact ⟨by omega, h2, h3, h4⟩
    rw [hv, ← ih, ← fromHexChar_isSome, ← fromHexChar_isSome]
    simp only [DecodeString]
    cases hp : fromHexChar p <;> cases hq : fromHexChar q <;> simp
    cases hr : DecodeString rest <;> simp

end Hex


namespace Base64

theorem decodeMap_encodeStd (n : Nat) (h : n < 64) : decodeMap (encodeStd n) = some n := by
  interval_cases n <;> rfl

theorem quantumBytes_one (a : Byte) : quantumBytes [a.val / 4, a.val % 4 * 16] = [a] := by
  simp only [quantumBytes, List.cons.injEq, and_true]
  apply Fin.ext
  simp only [Fin.ofNat, Fin.val_mk]
  have := a.isLt
  omega

theorem quantumBytes_two (a b : Byte) :
    quantumBytes [a.val / 4, a.val % 4 * 16 + b.val / 16, b.val % 16 * 4] = [a, b] := by
  simp only [quantumBytes, List.cons.injEq, and_true]
  have := a.isLt
  have := b.isLt
  constructor <;> apply Fin.ext <;> simp only [Fin.ofNat, Fin.val_mk] <;> omega

theorem quantumBytes_three (a b c : Byte) :
    quantumBytes [a.val / 4, a.val % 4 * 16 + b.val / 16, b.val % 16 * 4 + c.val / 64,
      c.val % 64] = [a, b, c] := by
  simp only [quantumBytes, List.cons.injEq, and_true]
  have := a.isLt
  have := b.isLt
  have := c.isLt
  refine ⟨?_, ?_, ?_⟩ <;> apply Fin.ext <;> simp only [Fin.ofNat, Fin.val_mk] <;> omega

theorem decodeMap_padChar : decodeMap 61 = none := by rfl

theorem val_padChar : ((61 : Byte) : Nat) = 61 := rfl

theorem decodeLoop_encode : ∀ (fuel : Nat) (bs : Bytes), bs.length < fuel →
    decodeLoop fuel (EncodeToString bs) = some bs
  | 0, _, h => by omega
  | fuel + 1, [], _ => by simp [EncodeToString, decodeLoop, decodeQuantum]
  | fuel + 1, [a], h => by
    have h1 : a.val / 4 < 64 := by have := a.isLt; omega
    have h2 : a.val % 4 * 16 < 64 := by omega
    obtain ⟨f, rfl⟩ : ∃ f, fuel = f + 1 := ⟨fuel - 1, by simp at h; omega⟩
    simp [EncodeToString, decodeLoop, decodeQuantum, decodeMap_encodeStd _ h1,
      decodeMap_encodeStd _ h2, decodeMap_padChar, val_padChar, isNewline, padChar, skipNewlines,
      quantumBytes_one]
  | fuel + 1, [a, b], h => by
    have h1 : a.val / 4 < 64 := by have := a.isLt; omega
    have h2 : a.val % 4 * 16 + b.val / 16 < 64 := by have := b.isLt; omega
    have h3 : b.val % 16 * 4 < 64 := by omega
    obtain ⟨f, rfl⟩ : ∃ f, fuel = f + 1 := ⟨fuel - 1, by simp at h; omega⟩
    simp [EncodeToString, decodeLoop, decodeQuantum, decodeMap_encodeStd _ h1,
      decodeMap_encodeStd _ h2, decodeMap_encodeStd _ h3, decodeMap_padChar, val_padChar, isNewline, padChar,
      skipNewlines, quantumBytes_two]
  | fuel + 1, a :: b :: c :: rest, h => by
    have h1 : a.val / 4 < 64 := by have := a.isLt; omega
    have h2 : a.val % 4 * 16 + b.val / 16 < 64 := by have := b.isLt; omega
    have h3 : b.val % 16 * 4 + c.val / 64 < 64 := by have := c.isLt; omega
    have h4 : c.val % 64 < 64 := by omega
    have ih := decodeLoop_encode fuel rest (by simp at h; omega)
    simp [EncodeToString, decodeLoop, decodeQuantum, decodeMap_encodeStd _ h1,
      decodeMap_encodeStd _ h2, decodeMap_encodeStd _ h3, decodeMap_encodeStd _ h4, ih,
      quantumBytes_three]

theorem length_le_encode : ∀ bs : Bytes, bs.length ≤ (EncodeToString bs).length
  | [] => by simp [EncodeToString]
  | [_] => by simp [EncodeToString]
  | [_, _] => by simp [EncodeToString]
  | _ :: _ :: _ :: rest => by
    have := length_le_encode rest
    simp [EncodeToString]; omega

/-- Decoding inverts encoding. -/
theorem b64_decode_encode (bs : Bytes) : DecodeString (EncodeToString bs) = some bs :=
  decodeLoop_encode _ bs (by have := length_le_encode bs; omega)

end Base64


/-! ## Facts about the key order and map assignment -/

theorem keyLt_irrefl : ∀ a : Bytes, keyLt a a = false
  | [] => rfl
  | a :: s => by simp [keyLt, keyLt_irrefl s]

theorem keyLt_trans : ∀ a b c : Bytes, keyLt a b = true → keyLt b c = true → keyLt a c = true
  | [], [], _, h, _ => by simp [keyLt] at h
  | [], _ :: _, [], _, h => by simp [keyLt] at h
  | [], _ :: _, _ :: _, _, _ => by simp [keyLt]
  | _ :: _, [], _, h, _ => by simp [keyLt] at h
  | _ :: _, _ :: _, [], _, h => by simp [keyLt] at h
  | x :: s, y :: t, z :: u, h1, h2 => by
    simp only [keyLt] at h1 h2 ⊢
    have ih := keyLt_trans s t u
    split_ifs at h1 h2 ⊢ <;> first | rfl | omega | exact ih h1 h2

theorem keyLt_total : ∀ a b : Bytes, a ≠ b → keyLt a b = false → keyLt b a = true
  | [], [], h, _ => by simp at h
  | [], _ :: _, _, h => by simp [keyLt] at h
  | _ :: _, [], _, _ => by simp [keyLt]
  | x :: s, y :: t, hne, h => by
    simp only [keyLt] at h ⊢
    have ih := keyLt_total s t
    split_ifs at h ⊢ <;> first | rfl | omega | skip
    have hxy : x = y := Fin.ext (by omega)
    subst hxy
    exact ih (fun e => hne (by rw [e])) h

theorem keyLt_asymm (a b : Bytes) (h : keyLt a b = true) : keyLt b a = false := by
  cases hba : keyLt b a with
  | false => rfl
  | true => have := keyLt_trans a b a h hba; rw [keyLt_irrefl] at this; exact absurd this (by simp)

theorem keyLt_ne (a b : Bytes) (h : keyLt a b = true) : a ≠ b := by
  rintro rfl; rw [keyLt_irrefl] at h; exact absurd h (by simp)

namespace Fields

variable {α : Type}

theorem get_set_self (k : Bytes) (v : α) : ∀ m : List (Bytes × α), get k (set k v m) = some v
  | [] => by simp [set, get]
  | (k1, v1) :: rest => by
    simp only [set]
    split_ifs with h1 h2
    · simp [get]
    · simp [get]
    · simp [get, h1, get_set_self k v rest]

theorem get_set_ne (k k2 : Bytes) (v : α) (h : k2 ≠ k) :
    ∀ m : List (Bytes × α), get k2 (set k v m) = get k2 m
  | [] => by simp [set, get, h]
  | (k1, v1) :: rest => by
    simp only [set]
    split_ifs with h1 h2
    · subst h1; simp [get, h]
    · simp [get, h]
    · simp [get, get_set_ne k k2 v h rest]

theorem mem_keys_iff_get (k : Bytes) : ∀ m : List (Bytes × α), k ∈ keys m ↔ (get k m).isSome
  | [] => by simp [keys, get]
  | (k1, v1) :: rest => by
    have ih := mem_keys_iff_get k rest
    simp only [keys, List.map_cons, List.mem_cons, get] at ih ⊢
    split_ifs with h
    · simp [h]
    · simp [h, ih]

theorem get_of_mem : ∀ (m : List (Bytes × α)) (k : Bytes) (v : α), (keys m).Nodup →
    (k, v) ∈ m → get k m = some v
  | [], _, _, _, h => by simp at h
  | (k1, v1) :: rest, k, v, hn, h => by
    simp only [keys, List.map_cons, List.nodup_cons] at hn
    simp only [List.mem_cons, Prod.mk.injEq] at h
    simp only [get]
    rcases h with ⟨rfl, rfl⟩ | h
    · simp
    · have hk : k ≠ k1 := by
        rintro rfl
        exact hn.1 (List.mem_map.mpr ⟨(k, v), h, rfl⟩)
      simp [hk, get_of_mem rest k v hn.2 h]

theorem mem_of_get : ∀ (m : List (Bytes × α)) (k : Bytes) (v : α), get k m = some v → (k, v) ∈ m
  | [], _, _, h => by simp [get] at h
  | (k1, v1) :: rest, k, v, h => by
    simp only [get] at h
    split_ifs at h with hk
    · simp at h; simp [hk, h]
    · exact List.mem_cons_of_mem _ (mem_of_get rest k v h)

theorem set_of_allBelow (k : Bytes) (v : α) :
    ∀ m : List (Bytes × α), AllBelow k m → set k v m = m ++ [(k, v)]
  | [], _ => rfl
  | (k1, v1) :: rest, h => by
    have h1 : keyLt k1 k = true := h (k1, v1) (List.mem_cons_self _ _)
    have hne : k ≠ k1 := (keyLt_ne _ _ h1).symm
    have h2 : keyLt k k1 = false := keyLt_asymm _ _ h1
    simp only [set, hne, h2, if_false, List.cons_append, Bool.false_eq_true]
    rw [set_of_allBelow k v rest (fun p hp => h p (List.mem_cons_of_mem _ hp))]

theorem sorted_cons (k : Bytes) (v : α) (m : List (Bytes × α)) :
    Sorted ((k, v) :: m) ↔ (∀ p ∈ m, keyLt k p.1 = true) ∧ Sorted m := by
  induction m generalizing k v with
  | nil => simp [Sorted]
  | cons p rest ih =>
    obtain ⟨k2, v2⟩ := p
    simp only [Sorted, List.mem_cons, forall_eq_or_imp]
    rw [ih k2 v2]
    constructor
    · rintro ⟨h1, h2, h3⟩
      exact ⟨⟨h1, fun p hp => keyLt_trans _ _ _ h1 (h2 p hp)⟩, h2, h3⟩
    · rintro ⟨⟨h1, _⟩, h2, h3⟩
      exact ⟨h1, h2, h3⟩

theorem sorted_set (k : Bytes) (v : α) : ∀ m : List (Bytes × α), Sorted m → Sorted (set k v m)
  | [], _ => by simp [set, Sorted]
  | (k1, v1) :: rest, h => by
    rw [sorted_cons] at h
    simp only [set]
    split_ifs with h1 h2
    · subst h1; rw [sorted_cons]; exact h
    · rw [sorted_cons, sorted_cons]
      refine ⟨?_, h⟩
      intro p hp
      rcases List.mem_cons.mp hp with rfl | hp
      · exact h2
      · exact keyLt_trans _ _ _ h2 (h.1 p hp)
    · have h3 : keyLt k1 k = true := keyLt_total k k1 h1 (by simpa using h2)
      rw [sorted_cons]
      refine ⟨?_, sorted_set k v rest h.2⟩
      intro p hp
      by_cases hpk : p.1 = k
      · rw [hpk]; exact h3
      · have : get p.1 (set k v rest) = get p.1 rest := get_set_ne k p.1 v hpk rest
        have hk : p.1 ∈ keys (set k v rest) := List.mem_map.mpr ⟨p, hp, rfl⟩
        rw [mem_keys_iff_get, this, ← mem_keys_iff_get] at hk
        obtain ⟨q, hq, hqk⟩ := List.mem_map.mp hk
        rw [← hqk]; exact h.1 q hq

theorem nodup_keys_of_sorted : ∀ m : List (Bytes × α), Sorted m → (keys m).Nodup
  | [], _ => by simp [keys]
  | (k1, v1) :: rest, h => by
    rw [sorted_cons] at h
    simp only [keys, List.map_cons, List.nodup_cons]
    refine ⟨?_, nodup_keys_of_sorted rest h.2⟩
    intro hmem
    obtain ⟨q, hq, hqk⟩ := List.mem_map.mp hmem
    have := h.1 q hq
    rw [hqk, keyLt_irrefl] at this
    exact absurd this (by simp)

end Fields

/-! ## The loops of `PostDecrypt` and `PostEncrypt` -/

section Loops

variable {F : Type}

theorem get_eq_none_of_not_mem {α : Type} (k : Bytes) (m : List (Bytes × α))
    (h : k ∉ Fields.keys m) : Fields.get k m = none := by
  rw [Fields.mem_keys_iff_get] at h
  cases hg : Fields.get k m with
  | none => rfl
  | some v => rw [hg] at h; simp at h

theorem get_decryptAll (c : Cipher F) : ∀ (l acc : Fields F) (k : Bytes), (Fields.keys l).Nodup →
    Fields.get k (decryptAll c l acc) =
      match Fields.get k l with
      | some v => some (decryptField c v)
      | none => Fields.get k acc
  | [], acc, k, _ => by simp [decryptAll, Fields.get]
  | (k1, v1) :: rest, acc, k, hn => by
    simp only [Fields.keys, List.map_cons, List.nodup_cons] at hn
    rw [decryptAll, get_decryptAll c rest _ k hn.2]
    by_cases hk : k = k1
    · subst hk
      rw [get_eq_none_of_not_mem k rest hn.1]
      simp [Fields.get, Fields.get_set_self]
    · simp [Fields.get, hk, Fields.get_set_ne _ _ _ hk]

theorem sorted_decryptAll (c : Cipher F) : ∀ (l acc : Fields F), Fields.Sorted acc →
    Fields.Sorted (decryptAll c l acc)
  | [], _, h => h
  | (k1, v1) :: rest, acc, h => by
    rw [decryptAll]
    exact sorted_decryptAll c rest _ (Fields.sorted_set _ _ _ h)

theorem encryptAll_error (c : Cipher F) (rand : Bytes → Bytes) :
    ∀ (l acc : Fields F), (∃ k v e, (k, v) ∈ l ∧ c.Encrypt (rand k) v = .error e) →
      encryptAll c rand l acc = none
  | [], _, ⟨_, _, _, h, _⟩ => by simp at h
  | (k1, v1) :: rest, acc, ⟨k, v, e, hmem, he⟩ => by
    rw [encryptAll]
    cases h1 : c.Encrypt (rand k1) v1 with
    | error _ => rfl
    | ok s =>
      simp only
      apply encryptAll_error c rand rest
      rcases List.mem_cons.mp hmem with heq | hmem
      · simp only [Prod.mk.injEq] at heq
        rw [heq.1, heq.2, h1] at he
        exact absurd he (by simp)
      · exact ⟨k, v, e, hmem, he⟩

theorem encryptAll_ok (c : Cipher F) (rand : Bytes → Bytes) :
    ∀ (l acc : Fields F), (Fields.keys l).Nodup →
      (∀ k v, (k, v) ∈ l → ∃ s, c.Encrypt (rand k) v = .ok s) →
      ∃ r, encryptAll c rand l acc = some r ∧
        (Fields.Sorted acc → Fields.Sorted r) ∧
        ∀ k, Fields.get k r =
          match Fields.get k l with
          | some v =>
            match c.Encrypt (rand k) v with
            | .ok s => some (.str s)
            | .error _ => none
          | none => Fields.get k acc
  | [], acc, _, _ => ⟨acc, rfl, id, fun k => by simp [Fields.get]⟩
  | (k1, v1) :: rest, acc, hn, hall => by
    simp only [Fields.keys, List.map_cons, List.nodup_cons] at hn
    obtain ⟨s, hs⟩ := hall k1 v1 (List.mem_cons_self _ _)
    obtain ⟨r, hr, hsort, hget⟩ := encryptAll_ok c rand rest (Fields.set k1 (.str s) acc) hn.2
      (fun k v h => hall k v (List.mem_cons_of_mem _ h))
    refine ⟨r, by rw [encryptAll, hs]; exact hr,
      fun h => hsort (Fields.sorted_set _ _ _ h), fun k => ?_⟩
    rw [hget k]
    by_cases hk : k = k1
    · subst hk
      rw [get_eq_none_of_not_mem k rest hn.1]
      simp [Fields.get, Fields.get_set_self, hs]
    · simp [Fields.get, hk, Fields.get_set_ne _ _ _ hk]

end Loops

/-! ## The per-field policies of the handlers -/

/-- C3: the loop of `PostDecrypt` never fails, and for a map `m` it returns a
map with exactly the keys of `m`; the value at a key is the decrypted value when
the field is a string that the cipher decrypts, and the field itself when it is
not a string or decryption fails.  The value at a key depends on nothing but
the field at that key, and the handler answers with this map. -/
theorem decryptAll_per_field {F : Type} (c : Cipher F) (m : Fields F)
    (hm : (Fields.keys m).Nodup) :
    (∀ k, k ∈ Fields.keys (decryptAll c m []) ↔ k ∈ Fields.keys m) ∧
    (∀ k v, Fields.get k m = some v →
      Fields.get k (decryptAll c m []) = some
        (match v with
         | .str s =>
           match c.Decrypt s with
           | .ok dec => dec
           | .error _ => v
         | _ => v)) ∧
    (∀ (m2 : Fields F) k, (Fields.keys m2).Nodup → Fields.get k m2 = Fields.get k m →
      Fields.get k (decryptAll c m2 []) = Fields.get k (decryptAll c m [])) ∧
    (∀ (signer : Signer) (N : Strconv F) (body : Bytes),
      decodePayload N body = some (.obj m) →
      (NewCryptoAPI c signer).PostDecrypt N body = .ok (decryptAll c m [])) := by
  refine ⟨fun k => ?_, fun k v hv => ?_, fun m2 k hm2 h => ?_, fun signer N body hb => ?_⟩
  · rw [Fields.mem_keys_iff_get, Fields.mem_keys_iff_get, get_decryptAll c m [] k hm]
    cases Fields.get k m <;> simp [Fields.get]
  · rw [get_decryptAll c m [] k hm, hv]
    cases v with
    | str s => simp only [decryptField]; cases c.Decrypt s <;> rfl
    | _ => rfl
  · rw [get_decryptAll c m [] k hm, get_decryptAll c m2 [] k hm2, h]
  · simp [CryptoAPI.PostDecrypt, NewCryptoAPI, hb, Value.fields]

/-- C3 at the sample payload with the fallback codec: `age` is decoded to the
number 30 and `x`, which is not base64, is kept. -/
theorem decryptAll_per_field_witness :
    (Fields.keys samplePayload).Nodup ∧
    Fields.get (ascii "age")
      (decryptAll (NewBase64Codec.toCipher Strconv.integral) samplePayload []) = some (.num 30) ∧
    Fields.get (ascii "x")
      (decryptAll (NewBase64Codec.toCipher Strconv.integral) samplePayload [])
        = some (.str (ascii "not-valid-base64!!")) :=
  ⟨by decide,
   (decryptAll_per_field (NewBase64Codec.toCipher Strconv.integral) samplePayload
      (by decide)).2.1 (ascii "age") _ rfl,
   (decryptAll_per_field (NewBase64Codec.toCipher Strconv.integral) samplePayload
      (by decide)).2.1 (ascii "x") _ rfl⟩

/-- C5: the loop of `PostEncrypt` is all or nothing.  If the cipher fails on
the value of some field, the loop yields no map and the handler answers with
status 500, `Encryption failed`; if it succeeds on every field, the loop yields
a map with exactly the keys of `m` in which each value is the string the cipher
produced for it. -/
theorem encryptAll_all_or_nothing {F : Type} (c : Cipher F) (rand : Bytes → Bytes)
    (m : Fields F) (hm : (Fields.keys m).Nodup) :
    ((∃ k v e, (k, v) ∈ m ∧ c.Encrypt (rand k) v = .error e) →
      encryptAll c rand m [] = none ∧
      ∀ (signer : Signer) (N : Strconv F) (body : Bytes), decodePayload N body = some (.obj m) →
        (NewCryptoAPI c signer).PostEncrypt N rand body = .error 500 "Encryption failed") ∧
    ((∀ k v, (k, v) ∈ m → ∃ s, c.Encrypt (rand k) v = .ok s) →
      ∃ r, encryptAll c rand m [] = some r ∧
        (∀ k, k ∈ Fields.keys r ↔ k ∈ Fields.keys m) ∧
        (∀ k v, Fields.get k m = some v →
          ∃ s, c.Encrypt (rand k) v = .ok s ∧ Fields.get k r = some (.str s)) ∧
        ∀ (signer : Signer) (N : Strconv F) (body : Bytes),
          decodePayload N body = some (.obj m) →
          (NewCryptoAPI c signer).PostEncrypt N rand body = .ok r) := by
  constructor
  · intro h
    have h1 := encryptAll_error c rand m [] h
    exact ⟨h1, fun signer N body hb => by
      simp [CryptoAPI.PostEncrypt, NewCryptoAPI, hb, Value.fields, h1]⟩
  · intro h
    obtain ⟨r, hr, _, hget⟩ := encryptAll_ok c rand m [] hm h
    refine ⟨r, hr, fun k => ?_, fun k v hv => ?_, fun signer N body hb => ?_⟩
    · rw [Fields.mem_keys_iff_get, Fields.mem_keys_iff_get, hget k]
      cases hg : Fields.get k m with
      | none => simp [Fields.get]
      | some v =>
        obtain ⟨s, hs⟩ := h k v (Fields.mem_of_get m k v hg)
        simp [hs]
    · obtain ⟨s, hs⟩ := h k v (Fields.mem_of_get m k v hv)
      exact ⟨s, hs, by rw [hget k, hv]; simp [hs]⟩
    · simp [CryptoAPI.PostEncrypt, NewCryptoAPI, hb, Value.fields, hr]

/-- C5 at the sample payload with the fallback codec: the map has distinct
keys, and the loop fails with a cipher that rejects numbers. -/
theorem encryptAll_all_or_nothing_witness :
    (Fields.keys samplePayload).Nodup ∧
    encryptAll
      { Encrypt := fun _ v =>
          match v with
          | .num _ => .error .SerializationError
          | _ => .ok []
        Decrypt := fun _ => .error .DecodeError }
      (fun _ => []) samplePayload [] = none :=
  ⟨by decide,
   ((encryptAll_all_or_nothing _ (fun _ => []) samplePayload (by decide)).1
      ⟨ascii "n", .num 7, .SerializationError, by simp [samplePayload], rfl⟩).1⟩

/-! ## The signer -/

/-- C7: a signature verifies against what it signed.  `Sign` succeeds, and
`Verify` with the same key accepts its result without an error; so the
verification of a payload against the signature that the Sign handler
returned for it answers with status 204. -/
theorem verify_accepts_sign (H : Bytes → Bytes → Bytes) (key data : Bytes) :
    (∃ sig, (NewHMACSigner key).Sign H data = .ok sig ∧
      (NewHMACSigner key).Verify H data sig = .ok true) ∧
    ∀ {F : Type} (c : Cipher F) (N : Strconv F) (payload : Value F) (sig : Bytes),
      (NewCryptoAPI c ((NewHMACSigner key).toSigner H)).signPayload N payload = .signature sig →
      (NewCryptoAPI c ((NewHMACSigner key).toSigner H)).verifyInput N
        { Data := payload, Signature := sig } = .noContent := by
  constructor
  · exact ⟨_, rfl, by simp [HMACSigner.Verify, Hex.hex_decode_encode, hmacEqual]⟩
  · intro F c N payload sig h
    simp only [CryptoAPI.signPayload, CryptoAPI.verifyInput, NewCryptoAPI,
      HMACSigner.toSigner] at h ⊢
    cases hm : JSON.Marshal N payload with
    | none => rw [hm] at h; simp at h
    | some canon =>
      rw [hm] at h
      simp only [HMACSigner.Sign, Response.signature.injEq] at h
      subst h
      simp [HMACSigner.Verify, Hex.hex_decode_encode, hmacEqual]

/-- C8: `Verify` separates malformed input from mismatch.  Either the
signature is a valid hex string, `Verify` returns no error and its boolean says
whether the decoded bytes are the HMAC of the data under the held key; or the
signature is not valid hex and `Verify` returns the decoding error. -/
theorem verify_malformed_or_compared (H : Bytes → Bytes → Bytes) (key data sig : Bytes) :
    (Hex.IsValid sig ∧ ∃ mac, Hex.DecodeString sig = .ok mac ∧
      (NewHMACSigner key).Verify H data sig = .ok (decide (mac = H key data))) ∨
    (¬ Hex.IsValid sig ∧ ∃ e, Hex.DecodeString sig = .error e ∧
      (NewHMACSigner key).Verify H data sig = .error (.MalformedSignature e)) := by
  by_cases hv : Hex.IsValid sig
  · left
    obtain ⟨mac, hmac⟩ := (Hex.hex_decode_ok_iff sig).mpr hv
    refine ⟨hv, mac, hmac, ?_⟩
    simp only [HMACSigner.Verify, NewHMACSigner, hmac, hmacEqual]
    congr 1
    simp only [decide_eq_decide]
    exact eq_comm
  · right
    cases hd : Hex.DecodeString sig with
    | ok mac => exact absurd ((Hex.hex_decode_ok_iff sig).mp ⟨mac, hd⟩) hv
    | error e => exact ⟨hv, e, rfl, by simp [HMACSigner.Verify, hd]⟩

/-! ## Plain fields and foreign envelopes -/

section Plain

variable {F : Type}

theorem decryptAll_sorted (c : Cipher F) : ∀ (l acc : Fields F),
    (∀ p ∈ l, decryptField c p.2 = p.2) → Fields.Sorted (acc ++ l) →
    decryptAll c l acc = acc ++ l
  | [], acc, _, _ => by simp [decryptAll]
  | (k1, v1) :: rest, acc, hp, hs => by
    have h1 : decryptField c v1 = v1 := hp (k1, v1) (List.mem_cons_self _ _)
    have hb : Fields.AllBelow k1 acc := by
      intro p hpm
      clear hp h1
      induction acc with
      | nil => simp at hpm
      | cons q acc ih =>
        obtain ⟨kq, vq⟩ := q
        rw [List.cons_append, Fields.sorted_cons] at hs
        rcases List.mem_cons.mp hpm with rfl | hpm
        · exact hs.1 (k1, v1) (by simp)
        · exact ih hs.2 hpm
    rw [decryptAll, h1, Fields.set_of_allBelow k1 v1 acc hb,
      decryptAll_sorted c rest (acc ++ [(k1, v1)])
        (fun p hpm => hp p (List.mem_cons_of_mem _ hpm)) (by simpa using hs)]
    simp

end Plain


/-- C4, as stated, fails: the ordinary string `John` is standard base64, so
the loop of `PostDecrypt` with the fallback codec replaces it by the three
bytes it decodes to. -/
theorem plain_field_changed :
    decryptAll (NewBase64Codec.toCipher Strconv.integral)
        [(ascii "name", .str (ascii "John"))] []
      = [(ascii "name", .str [38, 136, 103])] ∧
    decryptAll (NewBase64Codec.toCipher Strconv.integral)
        [(ascii "name", .str (ascii "John"))] []
      ≠ [(ascii "name", .str (ascii "John"))] := by
  have h : decryptAll (NewBase64Codec.toCipher Strconv.integral)
      [(ascii "name", .str (ascii "John"))] [] = [(ascii "name", .str [38, 136, 103])] := rfl
  refine ⟨h, ?_⟩
  rw [h]
  intro hc
  simp only [List.cons.injEq, Prod.mk.injEq, Value.str.injEq, and_true, true_and] at hc
  exact absurd hc (by decide)

/-- C4, amended: a map whose values are numbers or strings that are not
standard base64 passes through the loop of `PostDecrypt` with the fallback
codec unchanged. -/
theorem plain_fields_pass {F : Type} (N : Strconv F) (m : Fields F) (hs : Fields.Sorted m)
    (hp : ∀ p ∈ m, isPlain p.2) : decryptAll (NewBase64Codec.toCipher N) m [] = m := by
  have := decryptAll_sorted (NewBase64Codec.toCipher N) m [] (fun p hpm => ?_) (by simpa using hs)
  · simpa using this
  · have h := hp p hpm
    cases hv : p.2 with
    | str s =>
      rw [hv] at h
      simp only [isPlain] at h
      simp [decryptField, Base64Codec.toCipher, Base64Codec.Decrypt, h]
    | _ => rfl

/-- C4, amended, at the payload of the test `all unencoded primitives`. -/
theorem plain_fields_pass_witness :
    Fields.Sorted plainPayload ∧ (∀ p ∈ plainPayload, isPlain p.2) ∧
    decryptAll (NewBase64Codec.toCipher Strconv.integral) plainPayload [] = plainPayload :=
  have hs : Fields.Sorted plainPayload := ⟨by decide, by decide, trivial⟩
  have hp : ∀ p ∈ plainPayload, isPlain p.2 := by
    intro p hpm
    simp only [plainPayload, List.mem_cons, List.mem_singleton, List.not_mem_nil, or_false] at hpm
    rcases hpm with rfl | rfl | rfl
    · trivial
    · show Base64.DecodeString _ = none
      decide
    · trivial
  ⟨hs, hp, plain_fields_pass Strconv.integral plainPayload hs hp⟩

/-! ## Envelopes across ciphers and tampering -/

namespace Base64

theorem length_encode_mod : ∀ bs : Bytes, (EncodeToString bs).length % 4 = 0
  | [] => by simp [EncodeToString]
  | [_] => by simp [EncodeToString]
  | [_, _] => by simp [EncodeToString]
  | _ :: _ :: _ :: rest => by
    have := length_encode_mod rest
    simp [EncodeToString]; omega

end Base64

/-- C10, as stated, fails: the fallback codec decrypts `MzA=` followed by a
line feed although no call of its `Encrypt` produces that string, and it
decrypts an envelope of the authenticated cipher (here with the stand-in
AEAD) without an error. -/
theorem base64_decrypt_accepts_foreign :
    (NewBase64Codec.Decrypt Strconv.integral (ascii "MzA=\n") = .ok (.num 30) ∧
      ∀ v, NewBase64Codec.Encrypt Strconv.integral v ≠ .ok (ascii "MzA=\n")) ∧
    (AESGCMCipher.Encrypt { aead := AEAD.checksum (ascii "0123456789abcdef") } Strconv.integral
        (ascii "abcdefghijkl") (.str (ascii "foo")) = .ok (ascii "YWJjZGVmZ2hpamtsImZvbyK4") ∧
      NewBase64Codec.Decrypt Strconv.integral (ascii "YWJjZGVmZ2hpamtsImZvbyK4")
        = .ok (.str (ascii "abcdefghijkl\"foo\"" ++ [184]))) := by
  refine ⟨⟨rfl, fun v hv => ?_⟩, rfl, rfl⟩
  simp only [Base64Codec.Encrypt] at hv
  cases hm : JSON.Marshal Strconv.integral v with
  | none => rw [hm] at hv; simp at hv
  | some data =>
    rw [hm] at hv
    simp only [Except.ok.injEq] at hv
    have h4 := Base64.length_encode_mod (stripQuotes data)
    rw [hv] at h4
    exact absurd h4 (by decide)

/-- C10, amended: the fallback codec decrypts exactly the strings that
`base64.StdEncoding` decodes, which include every envelope of the
authenticated cipher; the authenticated cipher decrypts a string only if it is
base64 for at least a nonce of bytes whose remainder the AEAD opens to a JSON
text, and it rejects as truncated every envelope of the fallback codec whose
encoded text is shorter than the nonce. -/
theorem envelope_acceptance {F : Type} (N : Strconv F) (c : AESGCMCipher) :
    (∀ s, (∃ v, NewBase64Codec.Decrypt N s = .ok v) ↔ (Base64.DecodeString s).isSome = true) ∧
    (∀ entropy v s, c.Encrypt N entropy v = .ok s → ∃ w, NewBase64Codec.Decrypt N s = .ok w) ∧
    (∀ s v, c.Decrypt N s = .ok v →
      ∃ raw plaintext, Base64.DecodeString s = some raw ∧ c.aead.NonceSize ≤ raw.length ∧
        c.aead.Open (raw.take c.aead.NonceSize) (raw.drop c.aead.NonceSize) = some plaintext ∧
        JSON.Unmarshal N plaintext = some v) ∧
    (∀ v data, JSON.Marshal N v = some data → (stripQuotes data).length < c.aead.NonceSize →
      NewBase64Codec.Encrypt N v = .ok (Base64.EncodeToString (stripQuotes data)) ∧
      c.Decrypt N (Base64.EncodeToString (stripQuotes data)) = .error .Truncated) := by
  have hdec : ∀ s, (∃ v, NewBase64Codec.Decrypt N s = .ok v) ↔
      (Base64.DecodeString s).isSome = true := by
    intro s
    simp only [Base64Codec.Decrypt]
    cases hd : Base64.DecodeString s with
    | none => simp
    | some decoded => cases hu : JSON.Unmarshal N decoded <;> simp [hu]
  refine ⟨hdec, fun entropy v s hs => ?_, fun s v hs => ?_, fun v data hm hlen => ?_⟩
  · rw [hdec]
    simp only [AESGCMCipher.Encrypt] at hs
    cases hm : JSON.Marshal N v with
    | none => rw [hm] at hs; simp at hs
    | some plaintext =>
      rw [hm] at hs
      simp only at hs
      split_ifs at hs
      simp only [Except.ok.injEq] at hs
      rw [← hs, Base64.b64_decode_encode]
      rfl
  · simp only [AESGCMCipher.Decrypt] at hs
    cases hd : Base64.DecodeString s with
    | none => rw [hd] at hs; simp at hs
    | some raw =>
      rw [hd] at hs
      simp only at hs
      split_ifs at hs with hlen
      cases ho : c.aead.Open (raw.take c.aead.NonceSize) (raw.drop c.aead.NonceSize) with
      | none => rw [ho] at hs; simp at hs
      | some plaintext =>
        rw [ho] at hs
        simp only at hs
        cases hu : JSON.Unmarshal N plaintext with
        | none => rw [hu] at hs; simp at hs
        | some w =>
          rw [hu] at hs
          simp only [Except.ok.injEq] at hs
          exact ⟨raw, plaintext, rfl, by omega, ho, by rw [hu, hs]⟩
  · constructor
    · simp [Base64Codec.Encrypt, hm]
    · simp [AESGCMCipher.Decrypt, Base64.b64_decode_encode, hlen]

/-- C9: tamper detection.  For an AEAD that notices every change of one byte
and an envelope that `Encrypt` produced, replacing any byte of the decoded
envelope by a different one and encoding the result again makes `Decrypt` fail
with `AuthenticationFailed`: it returns no value and does not reach the JSON
decoder. -/
theorem tamper_detected {F : Type} (c : AESGCMCipher) (N : Strconv F)
    (hauth : c.aead.DetectsTampering) (entropy : Bytes) (v : Value F) (e : Bytes)
    (henc : c.Encrypt N entropy v = .ok e) (pre post : Bytes) (b b2 : Byte)
    (hraw : Base64.DecodeString e = some (pre ++ b :: post)) (hb : b2 ≠ b) :
    c.Decrypt N (Base64.EncodeToString (pre ++ b2 :: post)) = .error .AuthenticationFailed := by
  simp only [AESGCMCipher.Encrypt] at henc
  cases hm : JSON.Marshal N v with
  | none => rw [hm] at henc; simp at henc
  | some plaintext =>
    rw [hm] at henc
    simp only at henc
    split_ifs at henc with hlen
    simp only [Except.ok.injEq] at henc
    rw [← henc, Base64.b64_decode_encode, Option.some.injEq] at hraw
    have hn : (entropy.take c.aead.NonceSize).length = c.aead.NonceSize := by
      rw [List.length_take]; omega
    have hopen := hauth _ plaintext pre post b b2 hn hraw hb
    have hl : (pre ++ b2 :: post).length = (pre ++ b :: post).length := by simp
    have hlen2 : c.aead.NonceSize ≤ (pre ++ b2 :: post).length := by
      rw [hl, ← hraw, List.length_append, hn]; omega
    simp only [AESGCMCipher.Decrypt, Base64.b64_decode_encode, hopen]
    rw [if_neg (by omega)]

/-! ## The stand-in AEAD -/

theorem checksum_opensSealed (key : Bytes) : (AEAD.checksum key).OpensSealed := by
  intro nonce plaintext _
  simp [AEAD.checksum]

theorem checksum_detectsTampering (key : Bytes) : (AEAD.checksum key).DetectsTampering := by
  intro nonce plaintext pre post b b2 hn hraw hb
  simp only [AEAD.checksum] at hn hraw ⊢
  rcases List.eq_nil_or_concat post with rfl | ⟨post1, t, rfl⟩
  · rw [← List.append_assoc] at hraw
    obtain ⟨h1, h2⟩ := List.append_inj' hraw rfl
    simp only [List.cons.injEq, and_true] at h2
    subst h1
    have ht : List.take 12 (nonce ++ plaintext ++ [b2]) = nonce := by
      rw [List.append_assoc, List.take_left' hn]
    have hd : List.drop 12 (nonce ++ plaintext ++ [b2]) = plaintext ++ [b2] := by
      rw [List.append_assoc, List.drop_left' hn]
    rw [ht, hd]
    simp only [List.getLast?_concat, List.dropLast_concat]
    rw [if_neg]
    rw [h2]
    exact hb
  · have hraw2 : (nonce ++ plaintext) ++ [(key ++ nonce ++ plaintext).sum]
        = (pre ++ b :: post1) ++ [t] := by simpa using hraw
    obtain ⟨h1, h2⟩ := List.append_inj' hraw2 rfl
    simp only [List.cons.injEq, and_true] at h2
    have hlen : 12 ≤ (pre ++ b2 :: post1).length := by
      have : (pre ++ b2 :: post1).length = (nonce ++ plaintext).length := by rw [h1]; simp
      rw [this, List.length_append]; omega
    have ht : List.take 12 (pre ++ b2 :: (post1 ++ [t])) = List.take 12 (pre ++ b2 :: post1) := by
      rw [← List.cons_append, ← List.append_assoc, List.take_append_of_le_length hlen]
    have hd : List.drop 12 (pre ++ b2 :: (post1 ++ [t]))
        = List.drop 12 (pre ++ b2 :: post1) ++ [t] := by
      rw [← List.cons_append, ← List.append_assoc, List.drop_append_of_le_length hlen]
    simp only [List.concat_eq_append]
    rw [ht, hd]
    simp only [List.getLast?_concat, List.dropLast_concat]
    rw [if_neg]
    rw [List.append_assoc key, List.take_append_drop, ← h2, List.append_assoc key, h1]
    simp only [List.sum_append, List.sum_cons]
    intro hc
    apply hb
    have := add_left_cancel (add_left_cancel hc)
    exact (add_right_cancel this).symm

/-- C9 with the stand-in AEAD: the envelope of the string `foo` under the
nonce `abcdefghijkl`, with its last byte changed from 184 to 71. -/
theorem tamper_detected_witness :
    (AEAD.checksum (ascii "0123456789abcdef")).DetectsTampering ∧
    AESGCMCipher.Encrypt { aead := AEAD.checksum (ascii "0123456789abcdef") } Strconv.integral
        (ascii "abcdefghijkl") (.str (ascii "foo")) = .ok (ascii "YWJjZGVmZ2hpamtsImZvbyK4") ∧
    Base64.DecodeString (ascii "YWJjZGVmZ2hpamtsImZvbyK4")
      = some (ascii "abcdefghijkl\"foo\"" ++ (184 : Byte) :: []) ∧
    (71 : Byte) ≠ 184 ∧
    AESGCMCipher.Decrypt { aead := AEAD.checksum (ascii "0123456789abcdef") } Strconv.integral
        (Base64.EncodeToString (ascii "abcdefghijkl\"foo\"" ++ (71 : Byte) :: []))
      = .error .AuthenticationFailed :=
  ⟨checksum_detectsTampering _, rfl, rfl, by decide,
   tamper_detected { aead := AEAD.checksum (ascii "0123456789abcdef") } Strconv.integral
     (checksum_detectsTampering _) (ascii "abcdefghijkl") (.str (ascii "foo")) _ rfl
     (ascii "abcdefghijkl\"foo\"") [] 184 71 rfl (by decide)⟩

/-! ## The order of map entries does not show in `Marshal` -/

namespace JSON

theorem insertByKey_comm {α : Type} (a b : Bytes × α) (hab : a.1 ≠ b.1) :
    ∀ s : List (Bytes × α), insertByKey a (insertByKey b s) = insertByKey b (insertByKey a s)
  | [] => by
    simp only [insertByKey]
    by_cases h1 : keyLt b.1 a.1 = true
    · have h2 : keyLt a.1 b.1 = false := keyLt_asymm _ _ h1
      simp [h1, h2, insertByKey]
    · have h2 : keyLt a.1 b.1 = true := keyLt_total _ _ (Ne.symm hab) (by simpa using h1)
      simp [h1, h2, insertByKey]
  | q :: rest => by
    have ih := insertByKey_comm a b hab rest
    simp only [insertByKey]
    by_cases hqa : keyLt q.1 a.1 = true <;> by_cases hqb : keyLt q.1 b.1 = true
    · simp [hqa, hqb, insertByKey, ih]
    · have hba : keyLt b.1 a.1 = true := by
        by_contra hc
        have : keyLt a.1 b.1 = true := keyLt_total _ _ (Ne.symm hab) (by simpa using hc)
        exact hqb (keyLt_trans _ _ _ hqa this)
      simp [hqa, hqb, insertByKey, hba]
    · have hab2 : keyLt a.1 b.1 = true := by
        by_contra hc
        have : keyLt b.1 a.1 = true := keyLt_total _ _ hab (by simpa using hc)
        exact hqa (keyLt_trans _ _ _ hqb this)
      simp [hqa, hqb, insertByKey, hab2]
    · by_cases h1 : keyLt b.1 a.1 = true
      · have h2 : keyLt a.1 b.1 = false := keyLt_asymm _ _ h1
        simp [hqa, hqb, insertByKey, h1, h2]
      · have h2 : keyLt a.1 b.1 = true := keyLt_total _ _ (Ne.symm hab) (by simpa using h1)
        simp [hqa, hqb, insertByKey, h1, h2]

theorem sortByKey_perm {α : Type} {l1 l2 : List (Bytes × α)} (h : l1.Perm l2) :
    (Fields.keys l1).Nodup → sortByKey l1 = sortByKey l2 := by
  induction h with
  | nil => intro _; rfl
  | cons x _ ih =>
    intro hn
    simp only [Fields.keys, List.map_cons, List.nodup_cons] at hn
    simp only [sortByKey, List.foldr_cons] at ih ⊢
    rw [ih hn.2]
  | swap x y l =>
    intro hn
    simp only [Fields.keys, List.map_cons, List.nodup_cons, List.mem_cons, not_or] at hn
    simp only [sortByKey, List.foldr_cons]
    exact insertByKey_comm y x hn.1.1 _
  | trans h1 _ ih1 ih2 =>
    intro hn
    rw [ih1 hn, ih2 ((h1.map Prod.fst).nodup_iff.mp hn)]

theorem encodeMembers_keys {F : Type} (N : Strconv F) :
    ∀ (m : Fields F) (ms : List (Bytes × Bytes)), encodeMembers N m = some ms →
      Fields.keys ms = Fields.keys m
  | [], ms, h => by simp [encodeMembers] at h; subst h; rfl
  | (k, x) :: rest, ms, h => by
    simp only [encodeMembers] at h
    cases he : encodeValue N x with
    | none => rw [he] at h; simp at h
    | some e =>
      cases hr : encodeMembers N rest with
      | none => rw [he, hr] at h; simp at h
      | some ms1 =>
        rw [he, hr] at h
        simp only [Option.some.injEq] at h
        subst h
        have ih := encodeMembers_keys N rest ms1 hr
        simp only [Fields.keys] at ih
        simp [Fields.keys, ih]

theorem encodeMembers_perm {F : Type} (N : Strconv F) {m1 m2 : Fields F} (h : m1.Perm m2) :
    (encodeMembers N m1 = none ∧ encodeMembers N m2 = none) ∨
    ∃ ms1 ms2, encodeMembers N m1 = some ms1 ∧ encodeMembers N m2 = some ms2 ∧ ms1.Perm ms2 := by
  induction h with
  | nil => exact Or.inr ⟨[], [], rfl, rfl, List.Perm.refl _⟩
  | cons p _ ih =>
    obtain ⟨k, x⟩ := p
    simp only [encodeMembers]
    cases he : encodeValue N x with
    | none => left; simp
    | some e =>
      rcases ih with ⟨h1, h2⟩ | ⟨ms1, ms2, h1, h2, hp⟩
      · left; simp [h1, h2]
      · right; exact ⟨(k, e) :: ms1, (k, e) :: ms2, by simp [h1], by simp [h2], hp.cons _⟩
  | swap p q l =>
    obtain ⟨k, x⟩ := p
    obtain ⟨k2, y⟩ := q
    simp only [encodeMembers]
    cases hx : encodeValue N x <;> cases hy : encodeValue N y <;>
      cases hl : encodeMembers N l <;> simp
    exact List.Perm.swap _ _ _
  | trans _ _ ih1 ih2 =>
    rcases ih1 with ⟨h1, h2⟩ | ⟨ms1, ms2, h1, h2, hp⟩
    · rcases ih2 with ⟨h3, h4⟩ | ⟨ms3, ms4, h3, h4, hp2⟩
      · exact Or.inl ⟨h1, h4⟩
      · rw [h2] at h3; simp at h3
    · rcases ih2 with ⟨h3, h4⟩ | ⟨ms3, ms4, h3, h4, hp2⟩
      · rw [h2] at h3; simp at h3
      · rw [h2] at h3
        simp only [Option.some.injEq] at h3
        subst h3
        exact Or.inr ⟨ms1, ms4, h1, h4, hp.trans hp2⟩

theorem encodeElems_congr {F : Type} (N : Strconv F) (x y : Value F)
    (h : encodeValue N x = encodeValue N y) (post : List (Value F)) :
    ∀ pre : List (Value F), encodeElems N (pre ++ x :: post) = encodeElems N (pre ++ y :: post)
  | [] => by simp only [List.nil_append, encodeElems, h]
  | p :: pre => by
    have ih := encodeElems_congr N x y h post pre
    rw [List.cons_append, List.cons_append, encodeElems, encodeElems, ih]

theorem encodeMembers_congr {F : Type} (N : Strconv F) (k : Bytes) (x y : Value F)
    (h : encodeValue N x = encodeValue N y) (post : Fields F) :
    ∀ pre : Fields F,
      encodeMembers N (pre ++ (k, x) :: post) = encodeMembers N (pre ++ (k, y) :: post)
  | [] => by simp only [List.nil_append, encodeMembers, h]
  | (k1, p) :: pre => by
    have ih := encodeMembers_congr N k x y h post pre
    rw [List.cons_append, List.cons_append, encodeMembers, encodeMembers, ih]

end JSON

section Distinct

variable {F : Type}

theorem distinctKeysFields_iff : ∀ m : Fields F,
    Value.DistinctKeysFields m ↔ ∀ p ∈ m, Value.DistinctKeys p.2
  | [] => by simp [Value.DistinctKeysFields]
  | (k, x) :: rest => by
    simp [Value.DistinctKeysFields, distinctKeysFields_iff rest]

theorem distinctKeysList_iff : ∀ xs : List (Value F),
    Value.DistinctKeysList xs ↔ ∀ x ∈ xs, Value.DistinctKeys x
  | [] => by simp [Value.DistinctKeysList]
  | x :: rest => by
    simp [Value.DistinctKeysList, distinctKeysList_iff rest]

theorem reorder_marshal (N : Strconv F) {v1 v2 : Value F} (h : Reorder v1 v2) :
    v1.DistinctKeys → v2.DistinctKeys ∧ JSON.encodeValue N v1 = JSON.encodeValue N v2 := by
  induction h with
  | refl v => exact fun hd => ⟨hd, rfl⟩
  | trans _ _ ih1 ih2 =>
    intro hd
    obtain ⟨hd2, e1⟩ := ih1 hd
    obtain ⟨hd3, e2⟩ := ih2 hd2
    exact ⟨hd3, e1.trans e2⟩
  | @perm m1 m2 hp =>
    intro hd
    simp only [Value.DistinctKeys, distinctKeysFields_iff] at hd ⊢
    refine ⟨⟨(hp.map Prod.fst).nodup_iff.mp hd.1, fun p hpm => hd.2 p (hp.mem_iff.mpr hpm)⟩, ?_⟩
    simp only [JSON.encodeValue]
    rcases JSON.encodeMembers_perm N hp with ⟨h1, h2⟩ | ⟨ms1, ms2, h1, h2, hpm⟩
    · rw [h1, h2]
    · rw [h1, h2]
      have hk : (Fields.keys ms1).Nodup := by rw [JSON.encodeMembers_keys N m1 ms1 h1]; exact hd.1
      simp only [JSON.sortByKey_perm hpm hk]
  | arr pre post _ ih =>
    intro hd
    simp only [Value.DistinctKeys, distinctKeysList_iff, List.mem_append, List.mem_cons] at hd ⊢
    obtain ⟨hy, e⟩ := ih (hd _ (Or.inr (Or.inl rfl)))
    refine ⟨fun z hz => ?_, ?_⟩
    · rcases hz with hz | rfl | hz
      · exact hd z (Or.inl hz)
      · exact hy
      · exact hd z (Or.inr (Or.inr hz))
    · simp only [JSON.encodeValue, JSON.encodeElems_congr N _ _ e post pre]
  | obj pre post k _ ih =>
    intro hd
    simp only [Value.DistinctKeys, distinctKeysFields_iff, List.mem_append, List.mem_cons] at hd ⊢
    obtain ⟨hy, e⟩ := ih (hd.2 _ (Or.inr (Or.inl rfl)))
    refine ⟨⟨?_, fun z hz => ?_⟩, ?_⟩
    · have := hd.1
      simpa [Fields.keys] using this
    · rcases hz with hz | rfl | hz
      · exact hd.2 z (Or.inl hz)
      · exact hy
      · exact hd.2 z (Or.inr (Or.inr hz))
    · simp only [JSON.encodeValue, JSON.encodeMembers_congr N k _ _ e post pre]

end Distinct

/-- C6: signatures do not depend on key order.  For two values that list the
same map entries in different orders, at any depth, `json.Marshal` writes the
same canonical bytes, so the Sign handler returns the same response for both
under every signer key. -/
theorem sign_order_independent {F : Type} (N : Strconv F) (H : Bytes → Bytes → Bytes)
    (key : Bytes) (c : Cipher F) (v1 v2 : Value F) (h : Reorder v1 v2) (hd : v1.DistinctKeys) :
    JSON.Marshal N v1 = JSON.Marshal N v2 ∧
    (NewCryptoAPI c ((NewHMACSigner key).toSigner H)).signPayload N v1
      = (NewCryptoAPI c ((NewHMACSigner key).toSigner H)).signPayload N v2 := by
  have e : JSON.Marshal N v1 = JSON.Marshal N v2 := (reorder_marshal N h hd).2
  exact ⟨e, by simp only [CryptoAPI.signPayload, e]⟩

/-- C6 at the two payloads of the test `TestSignVerifyFlow`, with the
stand-in keyed hash: both bodies decode to maps with the same entries and
receive the same signature. -/
theorem sign_order_independent_witness :
    Reorder signedPayload reorderedPayload ∧ signedPayload.DistinctKeys ∧
    JSON.Marshal Strconv.integral signedPayload = JSON.Marshal Strconv.integral reorderedPayload ∧
    (NewCryptoAPI (NewBase64Codec.toCipher Strconv.integral)
        ((NewHMACSigner (ascii "secret")).toSigner sumMAC)).PostSign Strconv.integral
        (ascii "\x7b\"message\":\"Hello World\",\"timestamp\":1616161616\x7d")
      = (NewCryptoAPI (NewBase64Codec.toCipher Strconv.integral)
        ((NewHMACSigner (ascii "secret")).toSigner sumMAC)).PostSign Strconv.integral
        (ascii "\x7b\"timestamp\":1616161616,\"message\":\"Hello World\"\x7d") :=
  have hr : Reorder signedPayload reorderedPayload := Reorder.perm (List.Perm.swap _ _ _)
  have hd : signedPayload.DistinctKeys := ⟨by decide, trivial, trivial, trivial⟩
  ⟨hr, hd,
   (sign_order_independent Strconv.integral sumMAC (ascii "secret")
      (NewBase64Codec.toCipher Strconv.integral) _ _ hr hd).1, rfl⟩

/-! ## Facts about `unicode/utf8` -/

namespace UTF8

theorem first_some (p0 : Byte) (sz lo hi : Nat) (h : first p0 = some (sz, lo, hi)) :
    (sz = 2 ∧ lo = 0x80 ∧ hi = 0xBF ∧ 0xC2 ≤ p0.val ∧ p0.val ≤ 0xDF) ∨
    (sz = 3 ∧ 0xE0 ≤ p0.val ∧ p0.val ≤ 0xEF ∧ 0x80 ≤ lo ∧ hi ≤ 0xBF ∧
      (p0.val = 0xE0 → lo = 0xA0) ∧ (p0.val = 0xED → hi = 0x9F) ∧
      (p0.val ≠ 0xE0 → lo = 0x80) ∧ (p0.val ≠ 0xED → hi = 0xBF)) ∨
    (sz = 4 ∧ 0xF0 ≤ p0.val ∧ p0.val ≤ 0xF4 ∧ 0x80 ≤ lo ∧ hi ≤ 0xBF ∧
      (p0.val = 0xF0 → lo = 0x90) ∧ (p0.val = 0xF4 → hi = 0x8F) ∧
      (p0.val ≠ 0xF0 → lo = 0x80) ∧ (p0.val ≠ 0xF4 → hi = 0xBF)) := by
  unfold first at h
  split_ifs at h <;> simp only [Option.some.injEq, Prod.mk.injEq, reduceCtorEq] at h <;>
    obtain ⟨rfl, rfl, rfl⟩ := h <;> omega

theorem first_of_seq2 (p0 b1 : Byte) (h : Seq2 p0 b1) : first p0 = some (2, 0x80, 0xBF) := by
  obtain ⟨h1, h2, _, _⟩ := h
  unfold first
  rw [if_neg (by omega), if_pos (by omega)]

theorem encodeRune_seq2 (p0 b1 : Byte) (h : Seq2 p0 b1) :
    EncodeRune (p0.val % 32 * 64 + b1.val % 64) = [p0, b1] := by
  obtain ⟨h1, h2, h3, h4⟩ := h
  unfold EncodeRune
  rw [if_neg (by omega), if_pos (by omega)]
  simp only [List.cons.injEq, and_true]
  constructor <;> apply Fin.ext <;> simp only [Fin.ofNat, Fin.val_mk] <;> omega

theorem encodeRune_seq3 (p0 b1 b2 : Byte) (h : Seq3 p0 b1 b2) :
    EncodeRune (p0.val % 16 * 4096 + b1.val % 64 * 64 + b2.val % 64) = [p0, b1, b2] := by
  obtain ⟨h1, h2, h3, h4, h5, h6, h7, h8⟩ := h
  unfold EncodeRune
  rw [if_neg (by omega), if_neg (by omega), if_neg (by omega), if_pos (by omega)]
  simp only [List.cons.injEq, and_true]
  refine ⟨?_, ?_, ?_⟩ <;> apply Fin.ext <;> simp only [Fin.ofNat, Fin.val_mk] <;> omega

theorem encodeRune_seq4 (p0 b1 b2 b3 : Byte) (h : Seq4 p0 b1 b2 b3) :
    EncodeRune (p0.val % 8 * 262144 + b1.val % 64 * 4096 + b2.val % 64 * 64 + b3.val % 64)
      = [p0, b1, b2, b3] := by
  obtain ⟨h1, h2, h3, h4, h5, h6, h7, h8, h9, h10⟩ := h
  unfold EncodeRune
  rw [if_neg (by omega), if_neg (by omega), if_neg (by omega), if_neg (by omega)]
  simp only [List.cons.injEq, and_true]
  refine ⟨?_, ?_, ?_, ?_⟩ <;> apply Fin.ext <;> simp only [Fin.ofNat, Fin.val_mk] <;> omega

theorem decodeRune_seq2 (p0 b1 : Byte) (more : Bytes) (h : Seq2 p0 b1) :
    DecodeRune (p0 :: b1 :: more) = (p0.val % 32 * 64 + b1.val % 64, 2) := by
  have hf := first_of_seq2 p0 b1 h
  obtain ⟨h1, h2, h3, h4⟩ := h
  simp only [DecodeRune, hf]
  rw [if_neg (by omega), if_neg (by omega), if_pos (by omega)]

theorem decodeRune_seq3 (p0 b1 b2 : Byte) (more : Bytes) (h : Seq3 p0 b1 b2) :
    DecodeRune (p0 :: b1 :: b2 :: more)
      = (p0.val % 16 * 4096 + b1.val % 64 * 64 + b2.val % 64, 3) := by
  obtain ⟨h1, h2, h3, h4, h5, h6, h7, h8⟩ := h
  have hc : isCont b2 = true := by simp [isCont]; omega
  rcases hf : first p0 with _ | ⟨sz, lo, hi⟩
  · unfold first at hf; split_ifs at hf <;> omega
  · rcases first_some p0 sz lo hi hf with h | h | h
    · omega
    · obtain ⟨rfl, -, -, -, -, g3, g4, g1, g2⟩ := h
      simp only [DecodeRune, hf, hc]
      rw [if_neg (by omega), if_neg, if_neg (by omega)]
      · simp
      · by_cases e1 : p0.val = 0xE0 <;> by_cases e2 : p0.val = 0xED <;>
          simp_all
    · omega

theorem decodeRune_seq4 (p0 b1 b2 b3 : Byte) (more : Bytes) (h : Seq4 p0 b1 b2 b3) :
    DecodeRune (p0 :: b1 :: b2 :: b3 :: more)
      = (p0.val % 8 * 262144 + b1.val % 64 * 4096 + b2.val % 64 * 64 + b3.val % 64, 4) := by
  obtain ⟨h1, h2, h3, h4, h5, h6, h7, h8, h9, h10⟩ := h
  have hc : isCont b2 = true := by simp [isCont]; omega
  have hc3 : isCont b3 = true := by simp [isCont]; omega
  have hp := p0.isLt
  rcases hf : first p0 with _ | ⟨sz, lo, hi⟩
  · unfold first at hf; split_ifs at hf <;> omega
  · rcases first_some p0 sz lo hi hf with h | h | h
    · omega
    · omega
    · obtain ⟨rfl, -, -, -, -, g3, g4, g1, g2⟩ := h
      simp only [DecodeRune, hf, hc, hc3]
      rw [if_neg (by omega), if_neg, if_neg (by omega)]
      · simp
      · by_cases e1 : p0.val = 0xF0 <;> by_cases e2 : p0.val = 0xF4 <;>
          simp_all

theorem decodeRune_cases (p0 : Byte) (t : Bytes) (c size : Nat) (h80 : 0x80 ≤ p0.val)
    (h : DecodeRune (p0 :: t) = (c, size)) (hv : ¬ (c = RuneError ∧ size = 1)) :
    (∃ b1 t1, t = b1 :: t1 ∧ Seq2 p0 b1 ∧ size = 2) ∨
    (∃ b1 b2 t2, t = b1 :: b2 :: t2 ∧ Seq3 p0 b1 b2 ∧ size = 3) ∨
    (∃ b1 b2 b3 t3, t = b1 :: b2 :: b3 :: t3 ∧ Seq4 p0 b1 b2 b3 ∧ size = 4) := by
  have hbad : ∀ {P : Prop}, (RuneError, 1) = (c, size) → P := by
    intro P e
    simp only [Prod.mk.injEq] at e
    exact absurd ⟨e.1.symm, e.2.symm⟩ hv
  have hcont : ∀ b : Byte, isCont b = true → 0x80 ≤ b.val ∧ b.val ≤ 0xBF := by
    intro b hb
    simpa [isCont] using hb
  simp only [DecodeRune, if_neg (show ¬ p0.val < 0x80 by omega)] at h
  rcases hf : first p0 with _ | ⟨sz, lo, hi⟩
  · rw [hf] at h; exact hbad h
  · rw [hf] at h
    simp only at h
    rcases t with _ | ⟨b1, t1⟩
    · exact hbad h
    · simp only at h
      by_cases hr : b1.val < lo ∨ hi < b1.val
      · rw [if_pos hr] at h; exact hbad h
      · rw [if_neg hr] at h
        rcases first_some p0 sz lo hi hf with g | g | g
        · obtain ⟨rfl, rfl, rfl, g1, g2⟩ := g
          rw [if_pos (le_refl 2)] at h
          simp only [Prod.mk.injEq] at h
          exact Or.inl ⟨b1, t1, rfl, ⟨g1, g2, by omega, by omega⟩, h.2.symm⟩
        · obtain ⟨rfl, g1, g2, g3, g4, g5, g6, -, -⟩ := g
          rw [if_neg (by omega)] at h
          rcases t1 with _ | ⟨b2, t2⟩
          · exact hbad h
          · simp only at h
            by_cases hc2 : isCont b2 = true
            · simp only [hc2, Bool.not_true, Bool.false_eq_true, if_false, le_refl, if_true,
                Prod.mk.injEq] at h
              have := hcont b2 hc2
              exact Or.inr (Or.inl ⟨b1, b2, t2, rfl, ⟨g1, g2, by omega, by omega,
                fun e => by have := g5 e; omega, fun e => by have := g6 e; omega,
                this.1, this.2⟩, h.2.symm⟩)
            · have hc2f : isCont b2 = false := by simpa using hc2
              simp only [hc2f, Bool.not_false, if_true] at h
              exact hbad h
        · obtain ⟨rfl, g1, g2, g3, g4, g5, g6, -, -⟩ := g
          rw [if_neg (by omega)] at h
          rcases t1 with _ | ⟨b2, _ | ⟨b3, t3⟩⟩
          · exact hbad h
          · simp only at h
            split_ifs at h <;> first | exact hbad h | omega
          · simp only at h
            by_cases hc2 : isCont b2 = true
            · by_cases hc3 : isCont b3 = true
              · simp only [hc2, hc3, Bool.not_true, Bool.false_eq_true, if_false,
                  Prod.mk.injEq] at h
                rw [if_neg (by omega)] at h
                have h2 := hcont b2 hc2
                have h3 := hcont b3 hc3
                exact Or.inr (Or.inr ⟨b1, b2, b3, t3, rfl, ⟨g1, g2, by omega, by omega,
                  fun e => by have := g5 e; omega, fun e => by have := g6 e; omega,
                  h2.1, h2.2, h3.1, h3.2⟩, by simp only [Prod.mk.injEq] at h; exact h.2.symm⟩)
              · have hc3f : isCont b3 = false := by simpa using hc3
                simp only [hc2, hc3f, Bool.not_true, Bool.false_eq_true, if_false,
                  Bool.not_false, if_true] at h
                rw [if_neg (by omega)] at h
                exact hbad h
            · have hc2f : isCont b2 = false := by simpa using hc2
              simp only [hc2f, Bool.not_false, if_true] at h
              exact hbad h

end UTF8

/-! ## Strings: `unquote` inverts `appendString` -/

namespace JSON

theorem unquoteLoop_plain (c : Byte) (fuel : Nat) (X : Bytes) (h1 : c.val ≠ 34) (h2 : c.val ≠ 92)
    (h3 : 0x20 ≤ c.val) (h4 : c.val < 0x80) :
    unquoteLoop (fuel + 1) (c :: X) =
      prepend [c] (unquoteLoop fuel X) := by
  rw [unquoteLoop.eq_def]
  simp only [h1, h2, if_false, if_neg (show ¬ c.val < 0x20 by omega), if_pos h4]

theorem unquoteLoop_escape (e b : Byte) (fuel : Nat) (X : Bytes) (h1 : e.val ≠ 117)
    (h2 : unescape e = some b) :
    unquoteLoop (fuel + 1) (92 :: e :: X) =
      prepend [b] (unquoteLoop fuel X) := by
  rw [unquoteLoop.eq_def]
  simp only [show ((92 : Byte) : Nat) = 92 from rfl, show (92 : Nat) ≠ 34 by decide, if_false,
    if_true, h1, h2]

theorem unquoteLoop_u (a b c d : Byte) (rr : Nat) (fuel : Nat) (X : Bytes)
    (h1 : hex4 (a :: b :: c :: d :: X) = some (rr, X)) (h2 : UTF8.IsSurrogate rr = false) :
    unquoteLoop (fuel + 1) (92 :: 117 :: a :: b :: c :: d :: X) =
      prepend (UTF8.EncodeRune rr) (unquoteLoop fuel X) := by
  rw [unquoteLoop.eq_def]
  simp only [show ((92 : Byte) : Nat) = 92 from rfl, show (92 : Nat) ≠ 34 by decide, if_false,
    if_true, show ((117 : Byte) : Nat) = 117 from rfl, h1, h2, Bool.false_eq_true]

theorem hex4_u00 (b : Byte) (X : Bytes) (hb : b.val < 0x80) :
    hex4 (48 :: 48 :: Hex.hextable (b.val / 16) :: Hex.hextable (b.val % 16) :: X)
      = some (b.val, X) := by
  have h1 : b.val / 16 < 16 := by omega
  have h2 : b.val % 16 < 16 := by omega
  simp only [hex4, Hex.fromHexChar_hextable _ h1, Hex.fromHexChar_hextable _ h2,
    show Hex.fromHexChar 48 = some 0 from rfl, Option.some.injEq, Prod.mk.injEq, and_true]
  omega

theorem unquoteLoop_escapeASCII (b : Byte) (hb : b.val < 0x80) (fuel : Nat) (X : Bytes) :
    unquoteLoop (fuel + 1) (escapeASCII b ++ X) =
      prepend [b] (unquoteLoop fuel X) := by
  unfold escapeASCII
  split_ifs with h1 h2 h3 h4 h5 h6 h7
  · exact unquoteLoop_plain b fuel X h1.2.1 h1.2.2.2.2.2 h1.1 hb
  · refine unquoteLoop_escape b b fuel X (by omega) ?_
    unfold unescape
    rw [if_pos (by omega)]
  · have : b = 8 := Fin.ext h3
    subst this
    exact unquoteLoop_escape 98 8 fuel X (by decide) rfl
  · have : b = 12 := Fin.ext h4
    subst this
    exact unquoteLoop_escape 102 12 fuel X (by decide) rfl
  · have : b = 10 := Fin.ext h5
    subst this
    exact unquoteLoop_escape 110 10 fuel X (by decide) rfl
  · have : b = 13 := Fin.ext h6
    subst this
    exact unquoteLoop_escape 114 13 fuel X (by decide) rfl
  · have : b = 9 := Fin.ext h7
    subst this
    exact unquoteLoop_escape 116 9 fuel X (by decide) rfl
  · have hs : UTF8.IsSurrogate b.val = false := by simp [UTF8.IsSurrogate]; omega
    have he : UTF8.EncodeRune b.val = [b] := by
      unfold UTF8.EncodeRune
      rw [if_pos (by omega)]
      simp only [List.cons.injEq, and_true]
      apply Fin.ext
      simp only [Fin.ofNat, Fin.val_mk]
      omega
    have := unquoteLoop_u 48 48 _ _ b.val fuel X (hex4_u00 b X hb) hs
    rw [he] at this
    exact this

end JSON

namespace UTF8

theorem decodeRune_multibyte (p0 : Byte) (t : Bytes) (c size : Nat) (h80 : 0x80 ≤ p0.val)
    (h : DecodeRune (p0 :: t) = (c, size)) (hv : ¬ (c = RuneError ∧ size = 1)) :
    ∃ pre post, t = pre ++ post ∧ pre.length + 1 = size ∧ EncodeRune c = p0 :: pre ∧
      IsSurrogate c = false ∧
      ∀ more, DecodeRune (p0 :: (pre ++ more)) = (c, size) := by
  rcases decodeRune_cases p0 t c size h80 h hv with ⟨b1, t1, rfl, hs, rfl⟩ |
    ⟨b1, b2, t2, rfl, hs, rfl⟩ | ⟨b1, b2, b3, t3, rfl, hs, rfl⟩
  · rw [decodeRune_seq2 p0 b1 t1 hs] at h
    simp only [Prod.mk.injEq, and_true] at h
    subst h
    refine ⟨[b1], t1, rfl, rfl, encodeRune_seq2 p0 b1 hs, ?_, fun more => decodeRune_seq2 p0 b1 _ hs⟩
    obtain ⟨h1, h2, h3, h4⟩ := hs
    simp only [IsSurrogate, decide_eq_false_iff_not, not_and, not_lt]
    omega
  · rw [decodeRune_seq3 p0 b1 b2 t2 hs] at h
    simp only [Prod.mk.injEq, and_true] at h
    subst h
    refine ⟨[b1, b2], t2, rfl, rfl, encodeRune_seq3 p0 b1 b2 hs, ?_,
      fun more => decodeRune_seq3 p0 b1 b2 _ hs⟩
    obtain ⟨h1, h2, h3, h4, h5, h6, h7, h8⟩ := hs
    simp only [IsSurrogate, decide_eq_false_iff_not, not_and, not_lt]
    omega
  · rw [decodeRune_seq4 p0 b1 b2 b3 t3 hs] at h
    simp only [Prod.mk.injEq, and_true] at h
    subst h
    refine ⟨[b1, b2, b3], t3, rfl, rfl, encodeRune_seq4 p0 b1 b2 b3 hs, ?_,
      fun more => decodeRune_seq4 p0 b1 b2 b3 _ hs⟩
    obtain ⟨h1, h2, h3, h4, h5, h6, h7, h8, h9, h10⟩ := hs
    simp only [IsSurrogate, decide_eq_false_iff_not, not_and, not_lt]
    omega

theorem decodeRune_ascii (p0 : Byte) (t : Bytes) (h : p0.val < 0x80) :
    DecodeRune (p0 :: t) = (p0.val, 1) := by
  simp only [DecodeRune, if_pos h]

end UTF8

namespace JSON

theorem hex4_u202 (c : Nat) (X : Bytes) (hc : c = 0x2028 ∨ c = 0x2029) :
    hex4 (50 :: 48 :: 50 :: Hex.hextable (c % 16) :: X) = some (c, X) := by
  rcases hc with rfl | rfl <;> rfl

theorem unquoteLoop_multibyte (p0 : Byte) (pre : Bytes) (c size : Nat) (fuel : Nat) (Y : Bytes)
    (h80 : 0x80 ≤ p0.val) (hd : UTF8.DecodeRune (p0 :: (pre ++ Y)) = (c, size))
    (hsz : pre.length + 1 = size) (he : UTF8.EncodeRune c = p0 :: pre) :
    unquoteLoop (fuel + 1) (p0 :: (pre ++ Y)) = prepend (p0 :: pre) (unquoteLoop fuel Y) := by
  rw [unquoteLoop.eq_def]
  simp only [hd, he]
  rw [if_neg (by omega), if_neg (by omega), if_neg (by omega), if_neg (by omega)]
  subst hsz
  simp

theorem unquoteLoop_quote (fuel : Nat) (rest : Bytes) :
    unquoteLoop (fuel + 1) (34 :: rest) = some ([], rest) := by
  rw [unquoteLoop.eq_def]
  simp only [show ((34 : Byte) : Nat) = 34 from rfl, if_true]

theorem length_escapeASCII (b : Byte) : 1 ≤ (escapeASCII b).length := by
  unfold escapeASCII
  split_ifs <;> simp

theorem unquoteLoop_appendStringLoop : ∀ (n : Nat) (s : Bytes), s.length ≤ n →
    UTF8.validLoop n s = true → ∀ (fuel : Nat) (rest : Bytes),
    (appendStringLoop n s).length < fuel →
    unquoteLoop fuel (appendStringLoop n s ++ 34 :: rest) = some (s, rest)
  | n, [], _, _, fuel, rest, hf => by
    obtain ⟨f, rfl⟩ : ∃ f, fuel = f + 1 := ⟨fuel - 1, by omega⟩
    cases n <;> simp only [appendStringLoop, List.nil_append, unquoteLoop_quote]
  | 0, _ :: _, hl, _, _, _, _ => by simp at hl
  | n + 1, b :: t, hl, hv, fuel, rest, hf => by
    obtain ⟨f, rfl⟩ : ∃ f, fuel = f + 1 := ⟨fuel - 1, by omega⟩
    simp only [List.length_cons] at hl
    by_cases hb : b.val < 0x80
    · have hd := UTF8.decodeRune_ascii b t hb
      simp only [UTF8.validLoop, hd, List.drop_succ_cons, List.drop_zero] at hv
      split_ifs at hv with hc
      rw [appendStringLoop, if_pos hb] at hf ⊢
      have hlen := length_escapeASCII b
      have ih := unquoteLoop_appendStringLoop n t (by omega) hv f rest
        (by rw [List.length_append] at hf; omega)
      rw [List.append_assoc, unquoteLoop_escapeASCII b hb, ih]
      rfl
    · rcases hdr : UTF8.DecodeRune (b :: t) with ⟨c, size⟩
      simp only [UTF8.validLoop, hdr] at hv
      split_ifs at hv with hc
      obtain ⟨pre, post, rfl, hsz, he, hsur, hmore⟩ :=
        UTF8.decodeRune_multibyte b t c size (by omega) hdr hc
      have hdrop : List.drop size (b :: (pre ++ post)) = post := by
        rw [← hsz, List.drop_succ_cons, List.drop_left]
      have htake : List.take size (b :: (pre ++ post)) = b :: pre := by
        rw [← hsz, List.take_succ_cons, List.take_left]
      rw [hdrop] at hv
      have hlp : post.length ≤ n := by simp at hl; omega
      rw [appendStringLoop, if_neg hb] at hf ⊢
      simp only [hdr, if_neg hc, hdrop, htake] at hf ⊢
      split_ifs at hf ⊢ with h28
      · have ih := unquoteLoop_appendStringLoop n post hlp hv f rest (by simp at hf; omega)
        have := unquoteLoop_u 50 48 50 (Hex.hextable (c % 16)) c f
          (appendStringLoop n post ++ 34 :: rest) (hex4_u202 c _ h28) hsur
        simp only [List.cons_append, List.nil_append, List.append_assoc] at this ⊢
        rw [this, ih, he]
        rfl
      · have ih := unquoteLoop_appendStringLoop n post hlp hv f rest (by simp at hf; omega)
        simp only [List.cons_append, List.append_assoc]
        rw [unquoteLoop_multibyte b pre c size f _ (by omega) (hmore _) hsz he, ih]
        rfl
termination_by n => n

theorem parseString_appendString (s rest : Bytes) (hv : UTF8.Valid s = true) :
    ∃ t, appendString s = 34 :: t ∧ parseString (t ++ rest) = some (s, rest) := by
  refine ⟨appendStringLoop s.length s ++ [34], rfl, ?_⟩
  unfold parseString
  rw [List.append_assoc]
  apply unquoteLoop_appendStringLoop s.length s (le_refl _) hv
  simp only [List.length_append]
  omega

end JSON

/-! ## Numbers: the scanner reads back what the formatter wrote -/

namespace JSON

theorem step_none_of_ends (c : Byte) (hc : c.val = 44 ∨ c.val = 93 ∨ c.val = 125)
    (st : NumState) : st.step c = none := by
  have : c = 44 ∨ c = 93 ∨ c = 125 := by
    rcases hc with h | h | h
    · exact Or.inl (Fin.ext h)
    · exact Or.inr (Or.inl (Fin.ext h))
    · exact Or.inr (Or.inr (Fin.ext h))
  rcases this with rfl | rfl | rfl <;> cases st <;> rfl

theorem scanNum_append : ∀ (lit : Bytes) (st : NumState) (rest : Bytes),
    scanNum st lit = some (lit, []) → EndsValue rest → scanNum st (lit ++ rest) = some (lit, rest)
  | [], st, rest, h, he => by
    simp only [scanNum] at h
    split_ifs at h with ha
    rcases he with rfl | ⟨c, r, rfl, hc⟩
    · simp [scanNum, ha]
    · simp [scanNum, step_none_of_ends c hc st, ha]
  | c :: lit, st, rest, h, he => by
    simp only [scanNum, List.cons_append] at h ⊢
    cases hs : st.step c with
    | none =>
      rw [hs] at h
      simp only at h
      split_ifs at h
      simp at h
    | some st1 =>
      rw [hs] at h
      simp only at h ⊢
      cases h1 : scanNum st1 lit with
      | none => rw [h1] at h; simp [prepend] at h
      | some p =>
        obtain ⟨l1, r1⟩ := p
        rw [h1] at h
        simp only [prepend, List.singleton_append, Option.some.injEq, Prod.mk.injEq,
          List.cons.injEq, true_and] at h
        rw [h.1, h.2] at h1
        show prepend [c] (scanNum st1 (lit ++ rest)) = _
        rw [scanNum_append lit st1 rest h1 he]
        rfl

theorem scanNumber_head (lit : Bytes) (h : scanNumber lit = some (lit, [])) :
    ∃ c t, lit = c :: t ∧ (c.val = 45 ∨ (48 ≤ c.val ∧ c.val ≤ 57)) := by
  rcases lit with _ | ⟨c, t⟩
  · simp [scanNumber, scanNum, NumState.accepting] at h
  · refine ⟨c, t, rfl, ?_⟩
    simp only [scanNumber, scanNum] at h
    cases hs : NumState.step .begin c with
    | none => rw [hs] at h; simp [NumState.accepting] at h
    | some st1 =>
      simp only [NumState.step, isDigit] at hs
      split_ifs at hs with h1 h2 h3
      · exact Or.inl h1
      · exact Or.inr (by omega)
      · simp only [Bool.decide_and, Bool.and_eq_true, decide_eq_true_eq] at h3
        exact Or.inr h3

theorem valueStart_facts (c : Byte) (h : ValueStart c) :
    isSpace c = false ∧ c.val ≠ 93 ∧ c.val ≠ 125 ∧ c.val ≠ 44 := by
  simp only [isSpace, ValueStart] at h ⊢
  refine ⟨?_, ?_, ?_, ?_⟩
  · simp only [Bool.decide_or, Bool.or_eq_false_iff, decide_eq_false_iff_not]
    omega
  all_goals omega

theorem skipSpace_cons (c : Byte) (r : Bytes) (h : isSpace c = false) :
    skipSpace (c :: r) = c :: r := by
  simp [skipSpace, h]

theorem expect_append : ∀ (lit rest : Bytes), expect lit (lit ++ rest) = some rest
  | [], rest => by cases rest <;> rfl
  | c :: lit, rest => by simp [expect, expect_append lit rest]

theorem encodeValue_head {F : Type} (N : Strconv F) (hN : N.Lawful) (v : Value F) (e : Bytes)
    (h : encodeValue N v = some e) : ∃ c t, e = c :: t ∧ ValueStart c := by
  cases v with
  | null =>
    simp only [encodeValue, Option.some.injEq] at h
    exact ⟨110, _, h.symm, Or.inl rfl⟩
  | bool b =>
    simp only [encodeValue, Option.some.injEq] at h
    cases b
    · exact ⟨102, _, h.symm, Or.inr (Or.inr (Or.inl rfl))⟩
    · exact ⟨116, _, h.symm, Or.inr (Or.inl rfl)⟩
  | num f =>
    simp only [encodeValue] at h
    split_ifs at h with hf
    simp only [Option.some.injEq] at h
    subst h
    obtain ⟨c, t, hct, hc⟩ := scanNumber_head _ (hN f hf).1
    refine ⟨c, t, hct, ?_⟩
    rcases hc with hc | hc
    · exact Or.inr (Or.inr (Or.inr (Or.inr (Or.inr (Or.inr (Or.inl hc))))))
    · exact Or.inr (Or.inr (Or.inr (Or.inr (Or.inr (Or.inr (Or.inr hc))))))
  | str s =>
    simp only [encodeValue, appendString, Option.some.injEq] at h
    exact ⟨34, _, h.symm, Or.inr (Or.inr (Or.inr (Or.inl rfl)))⟩
  | arr xs =>
    simp only [encodeValue] at h
    cases he : encodeElems N xs with
    | none => rw [he] at h; simp at h
    | some es =>
      rw [he] at h
      simp only [Option.some.injEq] at h
      exact ⟨91, _, h.symm, Or.inr (Or.inr (Or.inr (Or.inr (Or.inl rfl))))⟩
  | obj kvs =>
    simp only [encodeValue] at h
    cases he : encodeMembers N kvs with
    | none => rw [he] at h; simp at h
    | some ms =>
      rw [he] at h
      simp only [Option.some.injEq] at h
      exact ⟨123, _, h.symm, Or.inr (Or.inr (Or.inr (Or.inr (Or.inr (Or.inl rfl)))))⟩

end JSON

/-! ## Values: `Unmarshal` inverts `Marshal` -/

namespace JSON

theorem sorted_of_encodeMembers {F : Type} (N : Strconv F) :
    ∀ (kvs : Fields F) (ms : List (Bytes × Bytes)), encodeMembers N kvs = some ms →
      Fields.Sorted kvs → Fields.Sorted ms ∧ ms.length = kvs.length ∧
        ∀ k, (∀ p ∈ kvs, keyLt k p.1 = true) → ∀ p ∈ ms, keyLt k p.1 = true
  | [], ms, h, _ => by
    simp only [encodeMembers, Option.some.injEq] at h
    subst h
    exact ⟨trivial, rfl, fun _ _ p hp => by simp at hp⟩
  | (k, x) :: rest, ms, h, hs => by
    simp only [encodeMembers] at h
    cases he : encodeValue N x with
    | none => rw [he] at h; simp at h
    | some e =>
      cases hr : encodeMembers N rest with
      | none => rw [he, hr] at h; simp at h
      | some ms1 =>
        rw [he, hr] at h
        simp only [Option.some.injEq] at h
        subst h
        rw [Fields.sorted_cons] at hs
        obtain ⟨ih1, ih2, ih3⟩ := sorted_of_encodeMembers N rest ms1 hr hs.2
        refine ⟨?_, by simp [ih2], ?_⟩
        · rw [Fields.sorted_cons]
          exact ⟨ih3 k hs.1, ih1⟩
        · intro k2 hk2 p hp
          rcases List.mem_cons.mp hp with rfl | hp
          · exact hk2 (k, x) (List.mem_cons_self _ _)
          · exact ih3 k2 (fun q hq => hk2 q (List.mem_cons_of_mem _ hq)) p hp

theorem sortByKey_of_sorted {α : Type} : ∀ l : List (Bytes × α), Fields.Sorted l →
    sortByKey l = l
  | [], _ => rfl
  | [p], _ => rfl
  | (k1, v1) :: (k2, v2) :: rest, h => by
    have ih := sortByKey_of_sorted ((k2, v2) :: rest) h.2
    simp only [sortByKey, List.foldr_cons] at ih ⊢
    rw [ih]
    simp only [insertByKey, keyLt_asymm _ _ h.1, Bool.false_eq_true, if_false]

variable {F : Type}

theorem isSpace_false (c : Byte) (h : c.val ≠ 32 ∧ c.val ≠ 9 ∧ c.val ≠ 13 ∧ c.val ≠ 10) :
    isSpace c = false := by
  simp only [isSpace, Bool.decide_or, Bool.or_eq_false_iff, decide_eq_false_iff_not]
  tauto

theorem parseValue_keyword (N : Strconv F) (fuel depth : Nat) (c : Byte) (lit rest : Bytes)
    (v : Value F)
    (hc : (c.val = 116 ∧ lit = ascii "rue" ∧ v = .bool true) ∨
      (c.val = 102 ∧ lit = ascii "alse" ∧ v = .bool false) ∨
      (c.val = 110 ∧ lit = ascii "ull" ∧ v = .null)) :
    parseValue N (fuel + 1) depth (c :: (lit ++ rest)) = some (v, rest) := by
  rw [parseValue]
  rcases hc with ⟨h, rfl, rfl⟩ | ⟨h, rfl, rfl⟩ | ⟨h, rfl, rfl⟩ <;>
    · rw [skipSpace_cons c _ (isSpace_false c (by omega))]
      simp only [h, expect_append]
      rfl

theorem parseValue_str (N : Strconv F) (fuel depth : Nat) (q : Byte) (t s rest1 : Bytes)
    (hq : q.val = 34) (h : parseString t = some (s, rest1)) :
    parseValue N (fuel + 1) depth (q :: t) = some (.str s, rest1) := by
  rw [parseValue, skipSpace_cons q _ (isSpace_false q (by omega))]
  simp only [hq, h]
  rfl

theorem parseValue_num (N : Strconv F) (fuel depth : Nat) (c : Byte) (t lit rest1 : Bytes)
    (f : F) (hc : c.val = 45 ∨ (48 ≤ c.val ∧ c.val ≤ 57))
    (h1 : scanNumber (c :: t) = some (lit, rest1)) (h2 : N.ParseFloat lit = some f) :
    parseValue N (fuel + 1) depth (c :: t) = some (.num f, rest1) := by
  rw [parseValue, skipSpace_cons c t (isSpace_false c (by omega))]
  simp only
  rw [if_neg (by omega), if_neg (by omega), if_neg (by omega), if_neg (by omega),
    if_neg (by omega), if_neg (by omega), h1]
  simp only [h2]

theorem parseValue_arr_empty (N : Strconv F) (fuel depth : Nat) (o c : Byte) (rest : Bytes)
    (ho : o.val = 91) (hc : c.val = 93) (hd : depth < maxNestingDepth) :
    parseValue N (fuel + 1) depth (o :: c :: rest) = some (.arr [], rest) := by
  rw [parseValue, skipSpace_cons o _ (isSpace_false o (by omega))]
  simp only [ho, if_true, if_neg (Nat.not_le.mpr hd),
    skipSpace_cons c _ (isSpace_false c (by omega)), hc, Nat.reduceEqDiff, if_false]

theorem parseValue_arr (N : Strconv F) (fuel depth : Nat) (o d : Byte) (rest : Bytes)
    (ho : o.val = 91) (hd : depth < maxNestingDepth) (h1 : isSpace d = false)
    (h2 : d.val ≠ 93) :
    parseValue N (fuel + 1) depth (o :: d :: rest)
      = parseElems N fuel (depth + 1) [] (d :: rest) := by
  rw [parseValue, skipSpace_cons o _ (isSpace_false o (by omega))]
  simp only [ho, if_true, if_neg (Nat.not_le.mpr hd), skipSpace_cons d _ h1, h2,
    Nat.reduceEqDiff, if_false]

theorem parseValue_obj_empty (N : Strconv F) (fuel depth : Nat) (o c : Byte) (rest : Bytes)
    (ho : o.val = 123) (hc : c.val = 125) (hd : depth < maxNestingDepth) :
    parseValue N (fuel + 1) depth (o :: c :: rest) = some (.obj [], rest) := by
  rw [parseValue, skipSpace_cons o _ (isSpace_false o (by omega))]
  simp only [ho, if_true, if_neg (Nat.not_le.mpr hd),
    skipSpace_cons c _ (isSpace_false c (by omega)), hc]

theorem parseValue_obj (N : Strconv F) (fuel depth : Nat) (o q : Byte) (rest : Bytes)
    (ho : o.val = 123) (hq : q.val = 34) (hd : depth < maxNestingDepth) :
    parseValue N (fuel + 1) depth (o :: q :: rest)
      = parseMembers N fuel (depth + 1) [] (q :: rest) := by
  rw [parseValue, skipSpace_cons o _ (isSpace_false o (by omega))]
  simp only [ho, if_true, if_neg (Nat.not_le.mpr hd),
    skipSpace_cons q _ (isSpace_false q (by omega)), hq, Nat.reduceEqDiff, if_false]

end JSON

namespace Fields

theorem allBelow_of_sorted_append {α : Type} (k : Bytes) (v : α) (rest : List (Bytes × α)) :
    ∀ acc : List (Bytes × α), Sorted (acc ++ (k, v) :: rest) → AllBelow k acc
  | [], _ => fun p hp => by simp at hp
  | (kq, vq) :: acc, hs => by
    rw [List.cons_append, sorted_cons] at hs
    intro p hp
    rcases List.mem_cons.mp hp with rfl | hp
    · exact hs.1 (k, v) (by simp)
    · exact allBelow_of_sorted_append k v rest acc hs.2 p hp

end Fields

namespace JSON

variable {F : Type}

theorem parseElems_step (N : Strconv F) (fuel depth : Nat) (acc : List (Value F))
    (bs : Bytes) (v : Value F) (c : Byte) (rest1 : Bytes)
    (hv : parseValue N fuel depth bs = some (v, c :: rest1))
    (hc : c.val = 44 ∨ c.val = 93) :
    parseElems N (fuel + 1) depth acc bs =
      if c.val = 44 then parseElems N fuel depth (v :: acc) rest1
      else some (.arr (v :: acc).reverse, rest1) := by
  rw [parseElems]
  simp only [hv]
  rw [skipSpace_cons c _ (isSpace_false c (by omega))]
  simp only
  rcases hc with h | h
  · simp only [h, if_true]
  · simp only [h, Nat.reduceEqDiff, if_false, if_true]

theorem parseMembers_step (N : Strconv F) (fuel depth : Nat) (acc : Fields F) (q c d : Byte)
    (t k rest2 rest4 : Bytes) (v : Value F) (hq : q.val = 34)
    (hs : parseString t = some (k, c :: rest2)) (hc : c.val = 58)
    (hv : parseValue N fuel depth rest2 = some (v, d :: rest4))
    (hd : d.val = 44 ∨ d.val = 125) :
    parseMembers N (fuel + 1) depth acc (q :: t) =
      if d.val = 44 then parseMembers N fuel depth (Fields.set k v acc) rest4
      else some (.obj (Fields.set k v acc), rest4) := by
  rw [parseMembers, skipSpace_cons q _ (isSpace_false q (by omega))]
  simp only [hq, ne_eq, not_true_eq_false, if_false, hs]
  rw [skipSpace_cons c _ (isSpace_false c (by omega))]
  simp only [hc, ne_eq, not_true_eq_false, if_false, hv]
  rw [skipSpace_cons d _ (isSpace_false d (by omega))]
  simp only
  rcases hd with h | h
  · simp only [h, if_true]
  · simp only [h, Nat.reduceEqDiff, if_false, if_true]

theorem encodeElems_cons (N : Strconv F) (x : Value F) (xs : List (Value F)) (es : List Bytes)
    (h : encodeElems N (x :: xs) = some es) :
    ∃ e es1, encodeValue N x = some e ∧ encodeElems N xs = some es1 ∧ es = e :: es1 := by
  simp only [encodeElems] at h
  cases he : encodeValue N x with
  | none => rw [he] at h; simp at h
  | some e =>
    cases hr : encodeElems N xs with
    | none => rw [he, hr] at h; simp at h
    | some es1 =>
      rw [he, hr] at h
      simp only [Option.some.injEq] at h
      exact ⟨e, es1, rfl, rfl, h.symm⟩

theorem encodeMembers_cons (N : Strconv F) (k : Bytes) (x : Value F) (kvs : Fields F)
    (ms : List (Bytes × Bytes)) (h : encodeMembers N ((k, x) :: kvs) = some ms) :
    ∃ e ms1, encodeValue N x = some e ∧ encodeMembers N kvs = some ms1 ∧ ms = (k, e) :: ms1 := by
  simp only [encodeMembers] at h
  cases he : encodeValue N x with
  | none => rw [he] at h; simp at h
  | some e =>
    cases hr : encodeMembers N kvs with
    | none => rw [he, hr] at h; simp at h
    | some ms1 =>
      rw [he, hr] at h
      simp only [Option.some.injEq] at h
      exact ⟨e, ms1, rfl, rfl, h.symm⟩

theorem endsValue_cons (c : Byte) (r : Bytes) (h : c.val = 44 ∨ c.val = 93 ∨ c.val = 125) :
    EndsValue (c :: r) := Or.inr ⟨c, r, rfl, h⟩

end JSON

namespace JSON

variable {F : Type}

theorem joinComma_cons_cons (a b : Bytes) (l : List Bytes) :
    joinComma (a :: b :: l) = a ++ 44 :: joinComma (b :: l) := rfl

theorem joinComma_single (a : Bytes) : joinComma [a] = a := rfl

theorem length_joinComma_cons (a : Bytes) (l : List Bytes) :
    a.length ≤ (joinComma (a :: l)).length ∧
    (l ≠ [] → (joinComma l).length + a.length + 1 = (joinComma (a :: l)).length) := by
  cases l with
  | nil => simp [joinComma]
  | cons b l => simp [joinComma_cons_cons]; omega

mutual
theorem parseValue_encodeValue (N : Strconv F) (hN : N.Lawful) :
    ∀ (v : Value F) (e : Bytes) (fuel depth : Nat) (rest : Bytes),
      v.WellFormed N → encodeValue N v = some e → e.length < fuel →
      depth + v.depth ≤ maxNestingDepth → EndsValue rest →
      parseValue N fuel depth (e ++ rest) = some (v, rest)
  | .null, e, fuel, depth, rest, _, he, hf, _, _ => by
    obtain ⟨f, rfl⟩ : ∃ f, fuel = f + 1 := ⟨fuel - 1, by omega⟩
    simp only [encodeValue, Option.some.injEq] at he
    subst he
    exact parseValue_keyword N f depth 110 (ascii "ull") rest .null
      (Or.inr (Or.inr ⟨rfl, rfl, rfl⟩))
  | .bool b, e, fuel, depth, rest, _, he, hf, _, _ => by
    obtain ⟨f, rfl⟩ : ∃ f, fuel = f + 1 := ⟨fuel - 1, by omega⟩
    simp only [encodeValue, Option.some.injEq] at he
    subst he
    cases b
    · exact parseValue_keyword N f depth 102 (ascii "alse") rest (.bool false)
        (Or.inr (Or.inl ⟨rfl, rfl, rfl⟩))
    · exact parseValue_keyword N f depth 116 (ascii "rue") rest (.bool true)
        (Or.inl ⟨rfl, rfl, rfl⟩)
  | .num x, e, fuel, depth, rest, hwf, he, hf, _, hr => by
    obtain ⟨f, rfl⟩ : ∃ f, fuel = f + 1 := ⟨fuel - 1, by omega⟩
    simp only [Value.WellFormed] at hwf
    simp only [encodeValue, hwf, if_true, Option.some.injEq] at he
    subst he
    obtain ⟨h1, h2⟩ := hN x hwf
    obtain ⟨c, t, hct, hc⟩ := scanNumber_head _ h1
    have h3 := scanNum_append _ .begin rest h1 hr
    rw [hct] at h3 ⊢
    exact parseValue_num N f depth c (t ++ rest) _ rest x hc h3 (by rw [← hct]; exact h2)
  | .str s, e, fuel, depth, rest, hwf, he, hf, _, _ => by
    obtain ⟨f, rfl⟩ : ∃ f, fuel = f + 1 := ⟨fuel - 1, by omega⟩
    simp only [Value.WellFormed] at hwf
    simp only [encodeValue, Option.some.injEq] at he
    subst he
    obtain ⟨t, ht, hp⟩ := parseString_appendString s rest hwf
    rw [ht]
    exact parseValue_str N f depth 34 (t ++ rest) s rest rfl hp
  | .arr xs, e, fuel, depth, rest, hwf, he, hf, hd, _ => by
    obtain ⟨f, rfl⟩ : ∃ f, fuel = f + 1 := ⟨fuel - 1, by omega⟩
    have ih := parseElems_encodeElems N hN xs
    simp only [Value.WellFormed] at hwf
    simp only [Value.depth] at hd
    simp only [encodeValue] at he
    cases hes : encodeElems N xs with
    | none => rw [hes] at he; simp at he
    | some es =>
      rw [hes] at he
      simp only [Option.some.injEq] at he
      subst he
      simp only [List.length_cons, List.length_append, List.length_singleton] at hf
      cases xs with
      | nil =>
        simp only [encodeElems, Option.some.injEq] at hes
        subst hes
        exact parseValue_arr_empty N f depth 91 93 rest rfl rfl (by omega)
      | cons x xs1 =>
        obtain ⟨e1, es1, h1, h2, rfl⟩ := encodeElems_cons N x xs1 es hes
        obtain ⟨c, t, hct, hc⟩ := encodeValue_head N hN x e1 h1
        obtain ⟨hc1, hc2, -, -⟩ := valueStart_facts c hc
        have hj : ∃ r, joinComma (e1 :: es1) = c :: r := by
          cases es1 with
          | nil => exact ⟨t, by rw [joinComma_single, hct]⟩
          | cons e2 es2 => exact ⟨t ++ 44 :: joinComma (e2 :: es2), by
              rw [joinComma_cons_cons, hct]; rfl⟩
        obtain ⟨r, hjr⟩ := hj
        have := ih (e1 :: es1) f (depth + 1) [] rest (by simp) hwf hes (by omega) (by omega)
        simp only [List.cons_append, List.append_assoc, List.singleton_append, hjr,
          List.nil_append, List.reverse_nil] at this ⊢
        rw [parseValue_arr N f depth 91 c _ rfl (by omega) hc1 hc2, this]
  | .obj kvs, e, fuel, depth, rest, hwf, he, hf, hd, _ => by
    obtain ⟨f, rfl⟩ : ∃ f, fuel = f + 1 := ⟨fuel - 1, by omega⟩
    have ih := parseMembers_encodeMembers N hN kvs
    simp only [Value.WellFormed] at hwf
    simp only [Value.depth] at hd
    simp only [encodeValue] at he
    cases hms : encodeMembers N kvs with
    | none => rw [hms] at he; simp at he
    | some ms =>
      rw [hms] at he
      simp only [Option.some.injEq] at he
      subst he
      rw [sortByKey_of_sorted ms (sorted_of_encodeMembers N kvs ms hms hwf.1).1] at hf ⊢
      simp only [List.length_cons, List.length_append, List.length_singleton] at hf
      cases kvs with
      | nil =>
        simp only [encodeMembers, Option.some.injEq] at hms
        subst hms
        exact parseValue_obj_empty N f depth 123 125 rest rfl rfl (by omega)
      | cons p kvs1 =>
        obtain ⟨k, x⟩ := p
        obtain ⟨e1, ms1, h1, h2, rfl⟩ := encodeMembers_cons N k x kvs1 ms hms
        have hj : ∃ r, joinComma (((k, e1) :: ms1).map encodeMember) = 34 :: r := by
          cases ms1 with
          | nil => exact ⟨_, rfl⟩
          | cons m2 ms2 => exact ⟨_, rfl⟩
        obtain ⟨r, hjr⟩ := hj
        have := ih ((k, e1) :: ms1) f (depth + 1) [] rest (by simp) hwf.2 hms (by omega)
          (by omega) (by simpa using hwf.1)
        simp only [List.cons_append, List.append_assoc, List.singleton_append, hjr,
          List.nil_append] at this ⊢
        rw [parseValue_obj N f depth 123 34 _ rfl rfl (by omega), this]
theorem parseElems_encodeElems (N : Strconv F) (hN : N.Lawful) :
    ∀ (xs : List (Value F)) (es : List Bytes) (fuel depth : Nat) (acc : List (Value F))
      (rest : Bytes), xs ≠ [] → Value.WellFormedList N xs → encodeElems N xs = some es →
      (joinComma es).length + 1 < fuel → depth + Value.depthList xs ≤ maxNestingDepth →
      parseElems N fuel depth acc (joinComma es ++ 93 :: rest) = some (.arr (acc.reverse ++ xs), rest)
  | [], _, _, _, _, _, hne, _, _, _, _ => absurd rfl hne
  | x :: xs, es, fuel, depth, acc, rest, _, hwf, he, hf, hd => by
    obtain ⟨f, rfl⟩ : ∃ f, fuel = f + 1 := ⟨fuel - 1, by omega⟩
    have ihx := parseValue_encodeValue N hN x
    have ih := parseElems_encodeElems N hN xs
    obtain ⟨e1, es1, h1, h2, rfl⟩ := encodeElems_cons N x xs es he
    simp only [Value.WellFormedList] at hwf
    simp only [Value.depthList] at hd
    have hlen := length_joinComma_cons e1 es1
    cases xs with
    | nil =>
      simp only [encodeElems, Option.some.injEq] at h2
      subst h2
      rw [joinComma_single] at hf ⊢
      have hv := ihx e1 f depth (93 :: rest) hwf.1 h1 (by omega) (by omega)
        (endsValue_cons 93 rest (Or.inr (Or.inl rfl)))
      rw [parseElems_step N f depth acc _ x 93 rest hv (Or.inr rfl)]
      simp [show ((93 : Byte) : Nat) = 93 from rfl]
    | cons y ys =>
      obtain ⟨e2, es2, -, -, rfl⟩ := encodeElems_cons N y ys es1 h2
      rw [joinComma_cons_cons] at hf ⊢
      have hl2 := hlen.2 (by simp)
      rw [joinComma_cons_cons] at hl2
      simp only [List.length_append, List.length_cons] at hf hl2
      have hv := ihx e1 f depth (44 :: (joinComma (e2 :: es2) ++ 93 :: rest)) hwf.1 h1
        (by omega) (by omega) (endsValue_cons 44 _ (Or.inl rfl))
      rw [List.append_assoc, List.cons_append,
        parseElems_step N f depth acc _ x 44 _ hv (Or.inl rfl)]
      simp only [show ((44 : Byte) : Nat) = 44 from rfl, if_true]
      rw [ih (e2 :: es2) f depth (x :: acc) rest (by simp) hwf.2 h2 (by omega) (by omega)]
      simp
theorem parseMembers_encodeMembers (N : Strconv F) (hN : N.Lawful) :
    ∀ (kvs : Fields F) (ms : List (Bytes × Bytes)) (fuel depth : Nat) (acc : Fields F)
      (rest : Bytes), kvs ≠ [] → Value.WellFormedFields N kvs → encodeMembers N kvs = some ms →
      (joinComma (ms.map encodeMember)).length + 1 < fuel →
      depth + Value.depthFields kvs ≤ maxNestingDepth → Fields.Sorted (acc ++ kvs) →
      parseMembers N fuel depth acc (joinComma (ms.map encodeMember) ++ 125 :: rest)
        = some (.obj (acc ++ kvs), rest)
  | [], _, _, _, _, _, hne, _, _, _, _, _ => absurd rfl hne
  | (k, x) :: kvs, ms, fuel, depth, acc, rest, _, hwf, he, hf, hd, hs => by
    obtain ⟨f, rfl⟩ : ∃ f, fuel = f + 1 := ⟨fuel - 1, by omega⟩
    have ihx := parseValue_encodeValue N hN x
    have ih := parseMembers_encodeMembers N hN kvs
    obtain ⟨e1, ms1, h1, h2, rfl⟩ := encodeMembers_cons N k x kvs ms he
    simp only [Value.WellFormedFields] at hwf
    simp only [Value.depthFields] at hd
    have hset : Fields.set k x acc = acc ++ [(k, x)] :=
      Fields.set_of_allBelow k x acc (Fields.allBelow_of_sorted_append k x kvs acc hs)
    simp only [List.map_cons] at hf ⊢
    have hlen := length_joinComma_cons (encodeMember (k, e1)) (ms1.map encodeMember)
    have hem : (encodeMember (k, e1)).length = (appendString k).length + 1 + e1.length := by
      simp [encodeMember]
      omega
    cases kvs with
    | nil =>
      simp only [encodeMembers, Option.some.injEq] at h2
      subst h2
      simp only [List.map_nil, joinComma_single] at hf ⊢
      obtain ⟨t, ht, hp⟩ := parseString_appendString k (58 :: (e1 ++ 125 :: rest)) hwf.1
      have hv := ihx e1 f depth (125 :: rest) hwf.2.1 h1 (by omega) (by omega)
        (endsValue_cons 125 rest (Or.inr (Or.inr rfl)))
      have hin : encodeMember (k, e1) ++ 125 :: rest = 34 :: (t ++ 58 :: (e1 ++ 125 :: rest)) := by
        simp [encodeMember, ht]
      rw [hin, parseMembers_step N f depth acc 34 58 125 _ k _ rest x rfl hp rfl hv (Or.inr rfl)]
      simp [hset, show ((125 : Byte) : Nat) = 125 from rfl]
    | cons p kvs1 =>
      obtain ⟨k2, y⟩ := p
      obtain ⟨e2, ms2, -, -, rfl⟩ := encodeMembers_cons N k2 y kvs1 ms1 h2
      simp only [List.map_cons] at hf hlen ⊢
      rw [joinComma_cons_cons] at hf ⊢
      have hl2 := hlen.2 (by simp)
      rw [joinComma_cons_cons] at hl2
      simp only [List.length_append, List.length_cons] at hf hl2
      obtain ⟨t, ht, hp⟩ := parseString_appendString k
        (58 :: (e1 ++ 44 :: (joinComma (encodeMember (k2, e2) :: ms2.map encodeMember)
          ++ 125 :: rest))) hwf.1
      have hv := ihx e1 f depth
        (44 :: (joinComma (encodeMember (k2, e2) :: ms2.map encodeMember) ++ 125 :: rest))
        hwf.2.1 h1 (by omega) (by omega) (endsValue_cons 44 _ (Or.inl rfl))
      have hin : (encodeMember (k, e1) ++
          44 :: joinComma (encodeMember (k2, e2) :: ms2.map encodeMember)) ++ 125 :: rest
          = 34 :: (t ++ 58 :: (e1 ++ 44 :: (joinComma (encodeMember (k2, e2) ::
              ms2.map encodeMember) ++ 125 :: rest))) := by
        simp [encodeMember, ht]
      rw [hin, parseMembers_step N f depth acc 34 58 44 _ k _ _ x rfl hp rfl hv (Or.inl rfl)]
      simp only [show ((44 : Byte) : Nat) = 44 from rfl, if_true, hset]
      have := ih ((k2, e2) :: ms2) f depth (acc ++ [(k, x)]) rest (by simp) hwf.2.2 h2
        (by simp only [List.map_cons]; omega) (by omega) (by simpa using hs)
      simp only [List.map_cons] at this
      rw [this]
      simp
end

end JSON

/-! ## The integral `Strconv` is lawful -/

section Integral

theorem val_digit (n : Nat) (h : n < 10) : ((Fin.ofNat (48 + n) : Byte) : Nat) = 48 + n := by
  simp only [Fin.ofNat, Fin.val_mk]
  omega

theorem natDigits_shape : ∀ (fuel n : Nat) (acc : Bytes), n < fuel →
    ∃ d ds, natDigits fuel n acc = d :: (ds ++ acc) ∧ (∀ x ∈ ds, JSON.isDigit x = true) ∧
      (n = 0 → d.val = 48 ∧ ds = []) ∧ (n ≠ 0 → 49 ≤ d.val ∧ d.val ≤ 57)
  | 0, _, _, h => by omega
  | fuel + 1, n, acc, h => by
    rw [natDigits]
    by_cases h10 : n < 10
    · rw [if_pos h10]
      refine ⟨_, [], rfl, by simp, fun h0 => ⟨by rw [val_digit n h10, h0], rfl⟩, fun h0 => ?_⟩
      rw [val_digit n h10]
      omega
    · rw [if_neg h10]
      obtain ⟨d, ds, h1, h2, h3, h4⟩ :=
        natDigits_shape fuel (n / 10) (Fin.ofNat (48 + n % 10) :: acc) (by omega)
      refine ⟨d, ds ++ [Fin.ofNat (48 + n % 10)], by rw [h1]; simp, ?_, fun h0 => by omega,
        fun _ => h4 (by omega)⟩
      intro x hx
      rcases List.mem_append.mp hx with hx | hx
      · exact h2 x hx
      · simp only [List.mem_singleton] at hx
        subst hx
        simp only [JSON.isDigit, val_digit _ (Nat.mod_lt n (by decide : 10 > 0)),
          Bool.decide_and, Bool.and_eq_true, decide_eq_true_eq]
        omega

theorem parseDigits_natDigits : ∀ (fuel n : Nat) (acc : Bytes), n < fuel →
    ∃ m, ∀ a, parseDigits a (natDigits fuel n acc) = parseDigits (a * m + n) acc
  | 0, _, _, h => by omega
  | fuel + 1, n, acc, h => by
    rw [natDigits]
    by_cases h10 : n < 10
    · rw [if_pos h10]
      refine ⟨10, fun a => ?_⟩
      simp only [parseDigits, JSON.isDigit, val_digit n h10, Bool.decide_and, Bool.and_eq_true,
        decide_eq_true_eq]
      rw [if_pos (by omega)]
      congr 1
      omega
    · rw [if_neg h10]
      obtain ⟨m, hm⟩ :=
        parseDigits_natDigits fuel (n / 10) (Fin.ofNat (48 + n % 10) :: acc) (by omega)
      refine ⟨m * 10, fun a => ?_⟩
      rw [hm a]
      have hv := val_digit (n % 10) (Nat.mod_lt n (by decide : 10 > 0))
      simp only [parseDigits, JSON.isDigit, hv, Bool.decide_and, Bool.and_eq_true,
        decide_eq_true_eq]
      rw [if_pos (by omega)]
      congr 1
      have := Nat.div_add_mod n 10
      rw [Nat.add_mul, ← Nat.mul_assoc]
      omega

theorem scanNum_int_digits : ∀ ds : Bytes, (∀ x ∈ ds, JSON.isDigit x = true) →
    JSON.scanNum .int ds = some (ds, [])
  | [], _ => rfl
  | c :: ds, h => by
    have hc := h c (List.mem_cons_self _ _)
    rw [JSON.scanNum]
    simp only [JSON.NumState.step, hc, if_true]
    rw [scanNum_int_digits ds (fun x hx => h x (List.mem_cons_of_mem _ hx))]
    rfl

theorem scanNum_natDigits (st : JSON.NumState) (hst : st = .begin ∨ st = .neg) (n : Nat) :
    JSON.scanNum st (natDigits (n + 1) n []) = some (natDigits (n + 1) n [], []) := by
  obtain ⟨d, ds, h1, h2, h3, h4⟩ := natDigits_shape (n + 1) n [] (by omega)
  rw [h1, List.append_nil]
  rw [JSON.scanNum]
  by_cases h0 : n = 0
  · obtain ⟨hd, rfl⟩ := h3 h0
    have hstep : st.step d = some .zero := by
      rcases hst with rfl | rfl <;> simp [JSON.NumState.step, hd]
    simp only [hstep]
    rfl
  · have hd := h4 h0
    have hdig : JSON.isDigit d = true := by
      simp only [JSON.isDigit, Bool.decide_and, Bool.and_eq_true, decide_eq_true_eq]
      omega
    have hstep : st.step d = some .int := by
      rcases hst with rfl | rfl <;> simp only [JSON.NumState.step, hdig, if_true] <;>
        rw [if_neg (by omega)] <;> try rw [if_neg (by omega)]
    simp only [hstep]
    rw [scanNum_int_digits ds h2]
    rfl

theorem integral_lawful : Strconv.integral.Lawful := by
  intro i _
  simp only [Strconv.integral]
  obtain ⟨d, ds, h1, h2, h3, h4⟩ := natDigits_shape (i.natAbs + 1) i.natAbs [] (by omega)
  obtain ⟨m, hm⟩ := parseDigits_natDigits (i.natAbs + 1) i.natAbs [] (by omega)
  have hp : parseDigits 0 (natDigits (i.natAbs + 1) i.natAbs []) = some i.natAbs := by
    rw [hm 0]; simp [parseDigits]
  have hd45 : d.val ≠ 45 := by
    by_cases h0 : i.natAbs = 0
    · rw [(h3 h0).1]; decide
    · have := h4 h0; omega
  by_cases hneg : i < 0
  · rw [if_pos hneg]
    constructor
    · rw [JSON.scanNumber, JSON.scanNum]
      simp only [JSON.NumState.step, show ((45 : Byte) : Nat) = 45 from rfl, if_true]
      rw [scanNum_natDigits .neg (Or.inr rfl)]
      rfl
    · simp only [show ((45 : Byte) : Nat) = 45 from rfl, if_true]
      rw [h1] at hp ⊢
      simp only [hp, Option.some.injEq, Int.ofNat_eq_coe]
      omega
  · rw [if_neg hneg]
    constructor
    · exact scanNum_natDigits .begin (Or.inl rfl) _
    · rw [h1] at hp ⊢
      simp only [if_neg hd45, hp, Option.some.injEq, Int.ofNat_eq_coe]
      omega

end Integral

/-! ## Round trips -/

namespace JSON

variable {F : Type}

mutual
theorem encodeValue_some (N : Strconv F) :
    ∀ v : Value F, v.WellFormed N → ∃ e, encodeValue N v = some e
  | .null, _ => ⟨_, rfl⟩
  | .bool _, _ => ⟨_, rfl⟩
  | .num x, h => by
    simp only [Value.WellFormed] at h
    simp only [encodeValue, h, if_true]
    exact ⟨_, rfl⟩
  | .str _, _ => ⟨_, rfl⟩
  | .arr xs, h => by
    simp only [Value.WellFormed] at h
    obtain ⟨es, hes⟩ := encodeElems_some N xs h
    simp only [encodeValue, hes]
    exact ⟨_, rfl⟩
  | .obj kvs, h => by
    simp only [Value.WellFormed] at h
    obtain ⟨ms, hms⟩ := encodeMembers_some N kvs h.2
    simp only [encodeValue, hms]
    exact ⟨_, rfl⟩
theorem encodeElems_some (N : Strconv F) :
    ∀ xs : List (Value F), Value.WellFormedList N xs → ∃ es, encodeElems N xs = some es
  | [], _ => ⟨_, rfl⟩
  | x :: xs, h => by
    simp only [Value.WellFormedList] at h
    obtain ⟨e, he⟩ := encodeValue_some N x h.1
    obtain ⟨es, hes⟩ := encodeElems_some N xs h.2
    simp only [encodeElems, he, hes]
    exact ⟨_, rfl⟩
theorem encodeMembers_some (N : Strconv F) :
    ∀ kvs : Fields F, Value.WellFormedFields N kvs → ∃ ms, encodeMembers N kvs = some ms
  | [], _ => ⟨_, rfl⟩
  | (k, x) :: kvs, h => by
    simp only [Value.WellFormedFields] at h
    obtain ⟨e, he⟩ := encodeValue_some N x h.2.1
    obtain ⟨ms, hms⟩ := encodeMembers_some N kvs h.2.2
    simp only [encodeMembers, he, hms]
    exact ⟨_, rfl⟩
end

/-- `Unmarshal` inverts `Marshal` on well-formed values. -/
theorem unmarshal_marshal (N : Strconv F) (hN : N.Lawful) (v : Value F) (hwf : v.WellFormed N)
    (hd : v.depth ≤ maxNestingDepth) :
    ∃ data, Marshal N v = some data ∧ Unmarshal N data = some v := by
  obtain ⟨e, he⟩ := encodeValue_some N v hwf
  refine ⟨e, he, ?_⟩
  have := parseValue_encodeValue N hN v e (e.length + 1) 0 [] hwf he (by omega) (by omega)
    (Or.inl rfl)
  rw [List.append_nil] at this
  simp only [Unmarshal, this, skipSpace, if_true]

theorem encodeValue_head_ne_quote (N : Strconv F) (hN : N.Lawful) (v : Value F) (e : Bytes)
    (h : encodeValue N v = some e) (hs : ∀ s, v ≠ .str s) : e.head? ≠ some 34 := by
  cases v with
  | null => simp only [encodeValue, Option.some.injEq] at h; subst h; decide
  | bool b => simp only [encodeValue, Option.some.injEq] at h; subst h; cases b <;> decide
  | num f =>
    simp only [encodeValue] at h
    split_ifs at h with hf
    simp only [Option.some.injEq] at h
    subst h
    obtain ⟨c, t, hct, hc⟩ := scanNumber_head _ (hN f hf).1
    rw [hct]
    simp only [List.head?_cons, ne_eq, Option.some.injEq]
    intro hc2
    rw [hc2] at hc
    revert hc
    decide
  | str s => exact absurd rfl (hs s)
  | arr xs =>
    simp only [encodeValue] at h
    cases he : encodeElems N xs with
    | none => rw [he] at h; simp at h
    | some es =>
      rw [he] at h
      simp only [Option.some.injEq] at h
      subst h
      simp only [List.head?_cons, ne_eq, Option.some.injEq]
      decide
  | obj kvs =>
    simp only [encodeValue] at h
    cases he : encodeMembers N kvs with
    | none => rw [he] at h; simp at h
    | some ms =>
      rw [he] at h
      simp only [Option.some.injEq] at h
      subst h
      simp only [List.head?_cons, ne_eq, Option.some.injEq]
      decide

end JSON

theorem stripQuotes_of_head (data : Bytes) (h : data.head? ≠ some 34) : stripQuotes data = data := by
  unfold stripQuotes
  rw [if_neg]
  intro hc
  exact h hc.2.1

theorem stripQuotes_quoted (s : Bytes) : stripQuotes (34 :: (s ++ [34])) = s := by
  unfold stripQuotes
  rw [if_pos]
  · simp
  · refine ⟨by simp, rfl, ?_⟩
    rw [← List.cons_append, List.getLast?_concat]

/-- C1, as stated, fails: the string `30` is encoded to `MzA=`, the same text
as the number 30, and is decoded as a number. -/
theorem base64_round_trip_fails :
    NewBase64Codec.Encrypt Strconv.integral (.str (ascii "30")) = .ok (ascii "MzA=") ∧
    NewBase64Codec.Decrypt Strconv.integral (ascii "MzA=") = .ok (.num 30) ∧
    (Value.num 30 : Value Int) ≠ .str (ascii "30") :=
  ⟨rfl, rfl, by intro h; cases h⟩

/-- C1, amended: for a lawful `strconv`, the fallback codec round-trips
every well-formed value nested no deeper than the decoder's limit of 10000
that is not a string, and every string whose JSON literal is the string itself
between quotes (nothing is escaped) and which is not itself a JSON text:
`Encrypt` succeeds and `Decrypt` of its result returns the value. -/
theorem base64_round_trip {F : Type} (N : Strconv F) (hN : N.Lawful) (v : Value F)
    (hwf : v.WellFormed N) (hd : v.depth ≤ JSON.maxNestingDepth)
    (hs : ∀ s, v = .str s → JSON.appendString s = 34 :: (s ++ [34]) ∧ JSON.Unmarshal N s = none) :
    ∃ s, NewBase64Codec.Encrypt N v = .ok s ∧ NewBase64Codec.Decrypt N s = .ok v := by
  by_cases hstr : ∃ s, v = .str s
  · obtain ⟨s, rfl⟩ := hstr
    obtain ⟨h1, h2⟩ := hs s rfl
    refine ⟨Base64.EncodeToString s, ?_, ?_⟩
    · simp only [Base64Codec.Encrypt, JSON.Marshal, JSON.encodeValue, h1, stripQuotes_quoted]
    · simp only [Base64Codec.Decrypt, Base64.b64_decode_encode, h2]
  · obtain ⟨data, h1, h2⟩ := JSON.unmarshal_marshal N hN v hwf hd
    have hq := JSON.encodeValue_head_ne_quote N hN v data h1 (fun s h => hstr ⟨s, h⟩)
    refine ⟨Base64.EncodeToString data, ?_, ?_⟩
    · simp only [Base64Codec.Encrypt, h1, stripQuotes_of_head data hq]
    · simp only [Base64Codec.Decrypt, Base64.b64_decode_encode, h2]

/-- C1, amended, at the object `{"foo": "bar", "num": 42}` and at the string
`hello world!`. -/
theorem base64_round_trip_witness :
    Strconv.integral.Lawful ∧ sampleObject.WellFormed Strconv.integral ∧
    sampleObject.depth ≤ JSON.maxNestingDepth ∧
    (∃ s, NewBase64Codec.Encrypt Strconv.integral sampleObject = .ok s ∧
      NewBase64Codec.Decrypt Strconv.integral s = .ok sampleObject) ∧
    JSON.appendString (ascii "hello world!") = 34 :: (ascii "hello world!" ++ [34]) ∧
    JSON.Unmarshal Strconv.integral (ascii "hello world!") = none ∧
    ∃ s, NewBase64Codec.Encrypt Strconv.integral (.str (ascii "hello world!")) = .ok s ∧
      NewBase64Codec.Decrypt Strconv.integral s = .ok (.str (ascii "hello world!")) :=
  have hwf : sampleObject.WellFormed Strconv.integral :=
    ⟨⟨by decide, trivial⟩, by decide, (by decide : UTF8.Valid (ascii "bar") = true),
      by decide, rfl, trivial⟩
  have hd : sampleObject.depth ≤ JSON.maxNestingDepth := by decide
  ⟨integral_lawful, hwf, hd,
   base64_round_trip Strconv.integral integral_lawful sampleObject hwf hd
     (fun s h => by cases h),
   rfl, rfl,
   base64_round_trip Strconv.integral integral_lawful (.str (ascii "hello world!"))
     (by decide : UTF8.Valid (ascii "hello world!") = true) (by decide)
     (fun s h => by cases h; exact ⟨rfl, rfl⟩)⟩

/-- C2: the authenticated cipher round-trips.  For a key of 16, 24 or 32
bytes, an AEAD whose `Open` inverts `Seal`, a lawful `strconv`, a well-formed
value and random bytes enough for a nonce, the constructor succeeds, `Encrypt`
succeeds, and `Decrypt` of its result under the same key returns the value. -/
theorem aesgcm_round_trip {F : Type} (gcm : Bytes → AEAD) (key : Bytes)
    (hk : key.length = 16 ∨ key.length = 24 ∨ key.length = 32) (hopen : (gcm key).OpensSealed)
    (N : Strconv F) (hN : N.Lawful) (v : Value F) (hwf : v.WellFormed N)
    (hd : v.depth ≤ JSON.maxNestingDepth) (entropy : Bytes)
    (he : (gcm key).NonceSize ≤ entropy.length) :
    ∃ c, NewAESGCMCipher gcm key = .ok c ∧
      ∃ s, c.Encrypt N entropy v = .ok s ∧ c.Decrypt N s = .ok v := by
  refine ⟨{ aead := gcm key }, by simp only [NewAESGCMCipher, hk, if_true], ?_⟩
  obtain ⟨data, h1, h2⟩ := JSON.unmarshal_marshal N hN v hwf hd
  have hn : (entropy.take (gcm key).NonceSize).length = (gcm key).NonceSize := by
    rw [List.length_take]; omega
  refine ⟨_, by simp only [AESGCMCipher.Encrypt, h1, if_neg (Nat.not_lt.mpr he)]; rfl, ?_⟩
  simp only [AESGCMCipher.Decrypt, Base64.b64_decode_encode]
  rw [if_neg (by rw [List.length_append, hn]; omega), List.take_left' hn, List.drop_left' hn,
    hopen _ _ hn]
  simp only [h2]

/-- C2 at the object `{"foo": "bar", "num": 42}` with the stand-in AEAD, a
key of 16 bytes and the nonce `abcdefghijkl`. -/
theorem aesgcm_round_trip_witness :
    ((ascii "0123456789abcdef").length = 16 ∨ (ascii "0123456789abcdef").length = 24 ∨
      (ascii "0123456789abcdef").length = 32) ∧
    (AEAD.checksum (ascii "0123456789abcdef")).OpensSealed ∧ Strconv.integral.Lawful ∧
    sampleObject.WellFormed Strconv.integral ∧ sampleObject.depth ≤ JSON.maxNestingDepth ∧
    (AEAD.checksum (ascii "0123456789abcdef")).NonceSize ≤ (ascii "abcdefghijkl").length ∧
    ∃ c, NewAESGCMCipher AEAD.checksum (ascii "0123456789abcdef") = .ok c ∧
      ∃ s, c.Encrypt Strconv.integral (ascii "abcdefghijkl") sampleObject = .ok s ∧
        c.Decrypt Strconv.integral s = .ok sampleObject :=
  have hwf : sampleObject.WellFormed Strconv.integral :=
    ⟨⟨by decide, trivial⟩, by decide, (by decide : UTF8.Valid (ascii "bar") = true),
      by decide, rfl, trivial⟩
  have hd : sampleObject.depth ≤ JSON.maxNestingDepth := by decide
  ⟨by decide, checksum_opensSealed _, integral_lawful, hwf, hd, by decide,
   aesgcm_round_trip AEAD.checksum (ascii "0123456789abcdef") (by decide)
     (checksum_opensSealed _) Strconv.integral integral_lawful sampleObject hwf hd
     (ascii "abcdefghijkl") (by decide)⟩

/-! ## Further instances -/

/-- C7 at the payload of the test `TestSignVerifyFlow`, with the stand-in
keyed hash: the Sign handler returns the signature `c2`, and verification
of the payload against it answers with status 204. -/
theorem verify_accepts_sign_witness :
    (NewCryptoAPI (NewBase64Codec.toCipher Strconv.integral)
        ((NewHMACSigner (ascii "secret")).toSigner sumMAC)).signPayload Strconv.integral
        signedPayload = .signature (ascii "c2") ∧
    (NewCryptoAPI (NewBase64Codec.toCipher Strconv.integral)
        ((NewHMACSigner (ascii "secret")).toSigner sumMAC)).verifyInput Strconv.integral
        { Data := signedPayload, Signature := ascii "c2" } = .noContent :=
  ⟨rfl, (verify_accepts_sign sumMAC (ascii "secret") []).2
    (NewBase64Codec.toCipher Strconv.integral) Strconv.integral signedPayload (ascii "c2") rfl⟩

/-- C10, amended, at the string `foo`: the fallback codec encodes it to
`Zm9v`, three bytes of text, which the authenticated cipher with a nonce of
twelve bytes rejects as truncated. -/
theorem envelope_acceptance_witness :
    JSON.Marshal Strconv.integral (.str (ascii "foo")) = some (ascii "\"foo\"") ∧
    (stripQuotes (ascii "\"foo\"")).length < (AEAD.checksum (ascii "0123456789abcdef")).NonceSize ∧
    NewBase64Codec.Encrypt Strconv.integral (.str (ascii "foo")) = .ok (ascii "Zm9v") ∧
    AESGCMCipher.Decrypt { aead := AEAD.checksum (ascii "0123456789abcdef") } Strconv.integral
      (ascii "Zm9v") = .error .Truncated :=
  ⟨rfl, by decide,
   (envelope_acceptance Strconv.integral { aead := AEAD.checksum (ascii "0123456789abcdef") }).2.2.2
     (.str (ascii "foo")) (ascii "\"foo\"") rfl (by decide)⟩

/-! ## Valid base64 and the decoder -/

namespace Base64

theorem decodeMap_isSome (c : Byte) : (decodeMap c).isSome = isAlphabet c := by
  unfold decodeMap isAlphabet
  split_ifs <;> simp_all

theorem decodeMap_eq_none (c : Byte) : decodeMap c = none ↔ isAlphabet c = false := by
  rw [← decodeMap_isSome]; cases decodeMap c <;> simp

theorem decodeMap_of_alphabet (c : Byte) (h : isAlphabet c = true) : ∃ out, decodeMap c = some out := by
  rw [← decodeMap_isSome] at h
  exact Option.isSome_iff_exists.mp h

theorem not_alphabet_of_newline (c : Byte) (h : isNewline c = true) : isAlphabet c = false := by
  simp only [isNewline, isAlphabet, decide_eq_true_eq, Bool.decide_or, Bool.decide_and,
    Bool.or_eq_true, Bool.and_eq_true] at h ⊢
  simp only [Bool.or_eq_false_iff, Bool.and_eq_false_iff, decide_eq_false_iff_not]
  omega

theorem skipNewlines_strip (x : Bytes) : skipNewlines (stripNewlines x) = stripNewlines x := by
  induction x with
  | nil => rfl
  | cons c x ih =>
    by_cases h : isNewline c = true
    · simp only [stripNewlines, List.filter_cons, h, Bool.not_true, Bool.false_eq_true, if_false]
      exact ih
    · have h2 : isNewline c = false := by simpa using h
      simp only [stripNewlines, List.filter_cons, h2, Bool.not_false, if_true, skipNewlines,
        Bool.false_eq_true, if_false]

theorem strip_skipNewlines (x : Bytes) : stripNewlines (skipNewlines x) = stripNewlines x := by
  induction x with
  | nil => rfl
  | cons c x ih =>
    by_cases h : isNewline c = true
    · simp only [skipNewlines, h, if_true, stripNewlines, List.filter_cons, Bool.not_true,
        Bool.false_eq_true, if_false]
      exact ih
    · have h2 : isNewline c = false := by simpa using h
      simp only [skipNewlines, h2, Bool.false_eq_true, if_false]

theorem skipNewlines_cons_head (x : Bytes) (d : Byte) (r : Bytes) (h : skipNewlines x = d :: r) :
    isNewline d = false := by
  induction x with
  | nil => simp [skipNewlines] at h
  | cons c x ih =>
    by_cases hc : isNewline c = true
    · simp only [skipNewlines, hc, if_true] at h
      exact ih h
    · have h2 : isNewline c = false := by simpa using hc
      simp only [skipNewlines, h2, Bool.false_eq_true, if_false, List.cons.injEq] at h
      rw [← h.1]; exact h2

theorem skipNewlines_eq_nil (x : Bytes) : skipNewlines x = [] ↔ stripNewlines x = [] := by
  constructor
  · intro h
    rw [← strip_skipNewlines, h]; rfl
  · intro h
    cases hs : skipNewlines x with
    | nil => rfl
    | cons d r =>
      have hd := skipNewlines_cons_head x d r hs
      have := strip_skipNewlines x
      rw [hs, h] at this
      simp [stripNewlines, List.filter_cons, hd] at this

end Base64

namespace Base64

theorem strip_cons_newline (c : Byte) (x : Bytes) (h : isNewline c = true) :
    stripNewlines (c :: x) = stripNewlines x := by
  simp [stripNewlines, List.filter_cons, h]

theorem strip_cons_other (c : Byte) (x : Bytes) (h : isNewline c = false) :
    stripNewlines (c :: x) = c :: stripNewlines x := by
  simp [stripNewlines, List.filter_cons, h]

/-- Reading a quantum from the text without line breaks gives the same
sextets, and leaves the rest without its line breaks. -/
theorem decodeQuantum_strip : ∀ (s : Bytes) (dbuf : List Nat),
    decodeQuantum dbuf (stripNewlines s)
      = (decodeQuantum dbuf s).map (fun p => (p.1, stripNewlines p.2))
  | [], dbuf => by
    simp only [stripNewlines, List.filter_nil, decodeQuantum]
    split_ifs <;> rfl
  | c :: rest, dbuf => by
    by_cases hn : isNewline c = true
    · have hm : decodeMap c = none := (decodeMap_eq_none c).mpr (not_alphabet_of_newline c hn)
      rw [strip_cons_newline c rest hn, decodeQuantum_strip rest dbuf]
      conv_rhs => rw [decodeQuantum]
      simp only [hm, hn, if_true]
    · have hn2 : isNewline c = false := by simpa using hn
      rw [strip_cons_other c rest hn2]
      rw [decodeQuantum]
      conv_rhs => rw [decodeQuantum]
      cases hm : decodeMap c with
      | some out =>
        simp only
        split_ifs
        · rfl
        · exact decodeQuantum_strip rest (dbuf ++ [out])
      | none =>
        simp only [hn2, Bool.false_eq_true, if_false]
        by_cases hp : c ≠ padChar
        · simp only [if_pos hp, Option.map_none']
        · simp only [if_neg hp]
          by_cases h2 : dbuf.length < 2
          · simp only [if_pos h2, Option.map_none']
          · simp only [if_neg h2]
            by_cases h3 : dbuf.length = 2
            · simp only [if_pos h3, skipNewlines_strip]
              cases hs : skipNewlines rest with
              | nil =>
                rw [(skipNewlines_eq_nil rest).mp hs]
                rfl
              | cons d rest2 =>
                have hd := skipNewlines_cons_head rest d rest2 hs
                have e : stripNewlines rest = d :: stripNewlines rest2 := by
                  rw [← strip_skipNewlines rest, hs, strip_cons_other d rest2 hd]
                rw [e]
                simp only
                by_cases hdp : d ≠ padChar
                · simp only [if_pos hdp, Option.map_none']
                · simp only [if_neg hdp, skipNewlines_strip]
                  by_cases he : skipNewlines rest2 = []
                  · simp only [if_pos he, if_pos ((skipNewlines_eq_nil rest2).mp he), Option.map_some']
                    rfl
                  · have he2 : stripNewlines rest2 ≠ [] :=
                      fun h => he ((skipNewlines_eq_nil rest2).mpr h)
                    simp only [if_neg he, if_neg he2, Option.map_none']
            · simp only [if_neg h3, skipNewlines_strip]
              by_cases he : skipNewlines rest = []
              · simp only [if_pos he, if_pos ((skipNewlines_eq_nil rest).mp he), Option.map_some']
                rfl
              · have he2 : stripNewlines rest ≠ [] :=
                  fun h => he ((skipNewlines_eq_nil rest).mpr h)
                simp only [if_neg he, if_neg he2, Option.map_none']

theorem decodeQuantum_length : ∀ (s : Bytes) (dbuf q : List Nat) (r : Bytes),
    decodeQuantum dbuf s = some (q, r) → r.length + q.length ≤ s.length + dbuf.length
  | [], dbuf, q, r, h => by
    simp only [decodeQuantum] at h
    split_ifs at h with h0
    simp only [Option.some.injEq, Prod.mk.injEq] at h
    rw [← h.1, ← h.2]; simp only [List.length_append, List.length_cons, List.length_nil]; omega
  | c :: rest, dbuf, q, r, h => by
    rw [decodeQuantum] at h
    cases hm : decodeMap c with
    | some out =>
      rw [hm] at h
      simp only at h
      split_ifs at h with h3
      · simp only [Option.some.injEq, Prod.mk.injEq] at h
        rw [← h.1, ← h.2]; simp only [List.length_append, List.length_cons, List.length_nil]; omega
      · have := decodeQuantum_length rest _ q r h
        simp only [List.length_append, List.length_singleton, List.length_cons, List.length_nil] at this ⊢
        omega
    | none =>
      rw [hm] at h
      simp only at h
      split_ifs at h with h1 h2 h3 h4 h5
      · have := decodeQuantum_length rest _ q r h
        simp only [List.length_cons]; omega
      · cases hs : skipNewlines rest with
        | nil => rw [hs] at h; simp at h
        | cons d rest2 =>
          rw [hs] at h
          simp only at h
          split_ifs at h
          simp only [Option.some.injEq, Prod.mk.injEq] at h
          rw [← h.1, ← h.2]; simp only [List.length_append, List.length_cons, List.length_nil]; omega
      · simp only [Option.some.injEq, Prod.mk.injEq] at h
        rw [← h.1, ← h.2]; simp only [List.length_append, List.length_cons, List.length_nil]; omega

end Base64

namespace Base64

theorem isAlphabet_padChar : isAlphabet padChar = false := by decide

theorem isNewline_padChar : isNewline padChar = false := by decide

theorem skipNewlines_cons_other (c : Byte) (x : Bytes) (h : isNewline c = false) :
    skipNewlines (c :: x) = c :: x := by
  simp [skipNewlines, h]

theorem decodeQuantum_alphabet (dbuf : List Nat) (c : Byte) (rest : Bytes) (out : Nat)
    (hm : decodeMap c = some out) :
    decodeQuantum dbuf (c :: rest)
      = if dbuf.length = 3 then some (dbuf ++ [out], rest)
        else decodeQuantum (dbuf ++ [out]) rest := by
  rw [decodeQuantum, hm]

theorem decodeQuantum_other (dbuf : List Nat) (c : Byte) (rest : Bytes)
    (ha : isAlphabet c = false) (hn : isNewline c = false) (hp : c ≠ padChar) :
    decodeQuantum dbuf (c :: rest) = none := by
  rw [decodeQuantum, (decodeMap_eq_none c).mpr ha]
  simp only [hn, Bool.false_eq_true, if_false, if_pos hp]

theorem decodeQuantum_early (dbuf : List Nat) (c : Byte) (rest : Bytes)
    (ha : isAlphabet c = false) (hn : isNewline c = false) (hl : dbuf.length < 2) :
    decodeQuantum dbuf (c :: rest) = none := by
  rw [decodeQuantum, (decodeMap_eq_none c).mpr ha]
  simp only [hn, Bool.false_eq_true, if_false, if_pos hl]
  split_ifs <;> rfl

theorem decodeQuantum_pad2_nil (dbuf : List Nat) (hl : dbuf.length = 2) :
    decodeQuantum dbuf [padChar] = none := by
  rw [decodeQuantum, (decodeMap_eq_none padChar).mpr isAlphabet_padChar]
  simp [isNewline_padChar, hl, skipNewlines]

theorem decodeQuantum_pad2 (dbuf : List Nat) (d : Byte) (rest : Bytes)
    (hl : dbuf.length = 2) (hn : isNewline d = false) :
    decodeQuantum dbuf (padChar :: d :: rest)
      = if d ≠ padChar then none
        else if skipNewlines rest = [] then some (dbuf, []) else none := by
  rw [decodeQuantum, (decodeMap_eq_none padChar).mpr isAlphabet_padChar]
  simp [isNewline_padChar, hl, skipNewlines_cons_other d rest hn]

theorem decodeQuantum_pad3 (dbuf : List Nat) (rest : Bytes) (hl : dbuf.length = 3) :
    decodeQuantum dbuf (padChar :: rest)
      = if skipNewlines rest = [] then some (dbuf, []) else none := by
  rw [decodeQuantum, (decodeMap_eq_none padChar).mpr isAlphabet_padChar]
  simp [isNewline_padChar, hl]

theorem decodeQuantum_nil (dbuf : List Nat) (hl : dbuf.length ≠ 0) :
    decodeQuantum dbuf [] = none := by
  simp [decodeQuantum, hl]

theorem skipNewlines_nil_iff (x : Bytes) (hx : ∀ c ∈ x, isNewline c = false) :
    skipNewlines x = [] ↔ x = [] := by
  cases x with
  | nil => simp [skipNewlines]
  | cons c r =>
    rw [skipNewlines_cons_other c r (hx c (List.mem_cons_self c r))]

/-- One quantum of a text without line breaks: the text is used up, or the
quantum is corrupt and the text is not made of valid groups, or a quantum was
read and the text is valid exactly when what follows is. -/
theorem decodeQuantum_validGroups (t : Bytes) (ht : ∀ c ∈ t, isNewline c = false) :
    (t = [] ∧ decodeQuantum [] t = some ([], [])) ∨
    (decodeQuantum [] t = none ∧ validGroups t = false) ∨
    (∃ q r, q ≠ [] ∧ decodeQuantum [] t = some (q, r) ∧ validGroups t = validGroups r) := by
  match t, ht with
  | [], _ => exact Or.inl ⟨rfl, rfl⟩
  | a :: t1, ht =>
    have hna : isNewline a = false := ht a (by simp)
    by_cases ha : isAlphabet a = true
    swap
    · have ha : isAlphabet a = false := by simpa using ha
      refine Or.inr (Or.inl ⟨decodeQuantum_early [] a t1 ha hna (by simp), ?_⟩)
      match t1 with
      | [] => rfl
      | [_] => rfl
      | [_, _] => rfl
      | b :: c :: d :: rest => simp [validGroups, ha, isAlphabet_padChar]
    obtain ⟨va, hva⟩ := decodeMap_of_alphabet a ha
    rw [decodeQuantum_alphabet [] a t1 va hva, if_neg (by simp)]
    match t1, ht with
    | [], _ => exact Or.inr (Or.inl ⟨decodeQuantum_nil _ (by simp), rfl⟩)
    | b :: t2, ht =>
      have hnb : isNewline b = false := ht b (by simp)
      by_cases hb : isAlphabet b = true
      swap
      · have hb : isAlphabet b = false := by simpa using hb
        refine Or.inr (Or.inl ⟨decodeQuantum_early _ b t2 hb hnb (by simp), ?_⟩)
        match t2 with
        | [] => rfl
        | [_] => rfl
        | c :: d :: rest => simp [validGroups, hb]
      obtain ⟨vb, hvb⟩ := decodeMap_of_alphabet b hb
      rw [decodeQuantum_alphabet _ b t2 vb hvb, if_neg (by simp)]
      match t2, ht with
      | [], _ => exact Or.inr (Or.inl ⟨decodeQuantum_nil _ (by simp), rfl⟩)
      | c :: t3, ht =>
        have hnc : isNewline c = false := ht c (by simp)
        by_cases hc : isAlphabet c = true
        · obtain ⟨vc, hvc⟩ := decodeMap_of_alphabet c hc
          rw [decodeQuantum_alphabet _ c t3 vc hvc, if_neg (by simp)]
          match t3, ht with
          | [], _ => exact Or.inr (Or.inl ⟨decodeQuantum_nil _ (by simp), rfl⟩)
          | d :: rest, ht =>
            have hnd : isNewline d = false := ht d (by simp)
            have hrest : ∀ x ∈ rest, isNewline x = false := fun x hx => ht x (by simp [hx])
            by_cases hd : isAlphabet d = true
            · obtain ⟨vd, hvd⟩ := decodeMap_of_alphabet d hd
              rw [decodeQuantum_alphabet _ d rest vd hvd, if_pos (by simp)]
              exact Or.inr (Or.inr ⟨_, rest, by simp, rfl, by simp [validGroups, ha, hb, hc, hd]⟩)
            · have hd : isAlphabet d = false := by simpa using hd
              by_cases hdp : d = padChar
              · subst hdp
                rw [decodeQuantum_pad3 _ rest (by simp)]
                simp only [skipNewlines_nil_iff rest hrest]
                by_cases hr : rest = []
                · subst hr
                  exact Or.inr (Or.inr ⟨[va, vb, vc], [], by simp, by simp,
                    by simp [validGroups, ha, hb, hc, hd]⟩)
                · exact Or.inr (Or.inl ⟨by simp [hr], by simp [validGroups, hd, hr]⟩)
              · exact Or.inr (Or.inl ⟨decodeQuantum_other _ d rest hd hnd hdp,
                  by simp [validGroups, hd, hdp]⟩)
        · have hc : isAlphabet c = false := by simpa using hc
          by_cases hcp : c = padChar
          swap
          · refine Or.inr (Or.inl ⟨decodeQuantum_other _ c t3 hc hnc hcp, ?_⟩)
            match t3 with
            | [] => rfl
            | d :: rest => simp [validGroups, hc, hcp]
          subst hcp
          match t3, ht with
          | [], _ => exact Or.inr (Or.inl ⟨decodeQuantum_pad2_nil _ (by simp), rfl⟩)
          | d :: rest, ht =>
            have hnd : isNewline d = false := ht d (by simp)
            have hrest : ∀ x ∈ rest, isNewline x = false := fun x hx => ht x (by simp [hx])
            rw [decodeQuantum_pad2 _ d rest (by simp) hnd]
            simp only [skipNewlines_nil_iff rest hrest]
            by_cases hdp : d = padChar
            · subst hdp
              by_cases hr : rest = []
              · subst hr
                exact Or.inr (Or.inr ⟨[va, vb], [], by simp, by simp,
                  by simp [validGroups, ha, hb, isAlphabet_padChar]⟩)
              · exact Or.inr (Or.inl ⟨by simp [hr],
                  by simp [validGroups, isAlphabet_padChar, hr]⟩)
            · exact Or.inr (Or.inl ⟨by simp [hdp], by simp [validGroups, hc, hdp]⟩)

theorem stripNewlines_free (s : Bytes) : ∀ c ∈ stripNewlines s, isNewline c = false := by
  intro c hc
  simpa using (List.mem_filter.mp hc).2

/-- The decoder accepts exactly the texts that are valid groups once the line
breaks are taken out. -/
theorem decodeLoop_isSome : ∀ (fuel : Nat) (s : Bytes), s.length < fuel →
    (decodeLoop fuel s).isSome = validGroups (stripNewlines s)
  | 0, _, h => absurd h (Nat.not_lt_zero _)
  | fuel + 1, s, h => by
    have hstrip := decodeQuantum_strip s []
    rw [decodeLoop]
    rcases decodeQuantum_validGroups (stripNewlines s) (stripNewlines_free s) with
      ⟨h0, h1⟩ | ⟨h1, h2⟩ | ⟨q, r, hq, h1, h2⟩
    · rw [h1] at hstrip
      cases hs : decodeQuantum [] s with
      | none => rw [hs] at hstrip; simp at hstrip
      | some p =>
        obtain ⟨q, r⟩ := p
        rw [hs] at hstrip
        simp only [Option.map_some', Option.some.injEq, Prod.mk.injEq] at hstrip
        rw [← hstrip.1, h0]
        rfl
    · rw [h1] at hstrip
      cases hs : decodeQuantum [] s with
      | none => rw [h2]; rfl
      | some p => rw [hs] at hstrip; simp at hstrip
    · rw [h1] at hstrip
      cases hs : decodeQuantum [] s with
      | none => rw [hs] at hstrip; simp at hstrip
      | some p =>
        obtain ⟨q2, r2⟩ := p
        rw [hs] at hstrip
        simp only [Option.map_some', Option.some.injEq, Prod.mk.injEq] at hstrip
        obtain ⟨e1, e2⟩ := hstrip
        subst e1
        have hlen := decodeQuantum_length s [] q r2 hs
        have hq1 : 0 < q.length := List.length_pos.mpr hq
        simp only [List.length_nil] at hlen
        have ih := decodeLoop_isSome fuel r2 (by omega)
        rw [h2, e2, ← ih]
        cases q with
        | nil => exact absurd rfl hq
        | cons x xs =>
          simp only
          cases decodeLoop fuel r2 <;> rfl

/-- The decoder succeeds exactly on valid standard base64. -/
theorem decodeString_isSome_iff (s : Bytes) : (DecodeString s).isSome = true ↔ IsValid s := by
  rw [DecodeString, decodeLoop_isSome _ s (Nat.lt_succ_self _)]
  rfl

theorem decodeString_eq_none_iff (s : Bytes) : DecodeString s = none ↔ ¬ IsValid s := by
  rw [← decodeString_isSome_iff]
  cases DecodeString s <;> simp

end Base64

/-! ## Decoding errors, escaped strings and the Sign endpoint -/

/-- C11: `Base64Codec.Decrypt` is try-JSON-else-string.  For every string
either it is not valid standard base64 and `Decrypt` fails with `DecodeError`,
or it is valid, the decoder gives its bytes, and `Decrypt` succeeds: with the
parsed value when the bytes are a JSON text, with the bytes as a string value
when they are not.  The text `MzA=` gives the number that `strconv` reads from
`30`, not a string. -/
theorem base64_decrypt_try_json {F : Type} (N : Strconv F) (s : Bytes) :
    ((¬ Base64.IsValid s ∧ NewBase64Codec.Decrypt N s = .error .DecodeError) ∨
     (Base64.IsValid s ∧ ∃ decoded, Base64.DecodeString s = some decoded ∧
        ((∃ v, JSON.Unmarshal N decoded = some v ∧ NewBase64Codec.Decrypt N s = .ok v) ∨
         (JSON.Unmarshal N decoded = none ∧
            NewBase64Codec.Decrypt N s = .ok (.str decoded))))) ∧
    (∀ x, N.ParseFloat (ascii "30") = some x →
      NewBase64Codec.Decrypt N (ascii "MzA=") = .ok (.num x)) := by
  constructor
  · cases hd : Base64.DecodeString s with
    | none =>
      exact Or.inl ⟨(Base64.decodeString_eq_none_iff s).mp hd, by
        simp only [Base64Codec.Decrypt, hd]⟩
    | some decoded =>
      have hv : Base64.IsValid s := (Base64.decodeString_isSome_iff s).mp (by rw [hd]; rfl)
      refine Or.inr ⟨hv, decoded, rfl, ?_⟩
      cases hu : JSON.Unmarshal N decoded with
      | none => exact Or.inr ⟨rfl, by simp only [Base64Codec.Decrypt, hd, hu]⟩
      | some v => exact Or.inl ⟨v, rfl, by simp only [Base64Codec.Decrypt, hd, hu]⟩
  · intro x hx
    have hd : Base64.DecodeString (ascii "MzA=") = some (ascii "30") := by decide
    have hs : JSON.scanNumber (ascii "30") = some (ascii "30", []) := by decide
    have hu : JSON.Unmarshal N (ascii "30") = some (.num x) := by
      have hp : JSON.parseValue N 3 0 (ascii "30") = some (.num x, []) := by
        rw [JSON.parseValue]
        have h1 : JSON.skipSpace (ascii "30") = (51 : Byte) :: ascii "0" := by decide
        rw [h1]
        simp only
        rw [if_neg (by decide), if_neg (by decide), if_neg (by decide), if_neg (by decide),
          if_neg (by decide), if_neg (by decide)]
        have h2 : JSON.scanNumber ((51 : Byte) :: ascii "0") = some (ascii "30", []) := by decide
        rw [h2]
        simp only [hx]
      simp only [JSON.Unmarshal]
      rw [show (ascii "30").length + 1 = 3 from by decide, hp]
      rfl
    simp only [Base64Codec.Decrypt, hd, hu]

/-- C11 at the text `MzA=` of the decrypt test: it is valid base64 for the
bytes `30`, which parse as JSON, and `Decrypt` returns the number 30; and at
the text `Zm9v`, whose bytes `foo` are not JSON and come back as a string. -/
theorem base64_decrypt_try_json_witness :
    Base64.IsValid (ascii "MzA=") ∧
    NewBase64Codec.Decrypt Strconv.integral (ascii "MzA=") = .ok (.num 30) ∧
    NewBase64Codec.Decrypt Strconv.integral (ascii "Zm9v") = .ok (.str (ascii "foo")) ∧
    ¬ Base64.IsValid (ascii "MzA") ∧
    NewBase64Codec.Decrypt Strconv.integral (ascii "MzA") = .error .DecodeError :=
  ⟨(by decide : Base64.validGroups (Base64.stripNewlines (ascii "MzA=")) = true),
   (base64_decrypt_try_json Strconv.integral (ascii "MzA=")).2 30 rfl, rfl,
   (by decide : ¬ Base64.validGroups (Base64.stripNewlines (ascii "MzA")) = true), rfl⟩

/-- C12, at the string `a"b`: `json.Marshal` writes the literal `"a\"b"`,
`Encrypt` strips the two outer quotes only and encodes the four bytes `a\"b`
to `YVwiYg==`, where the raw bytes `a"b` encode to `YSJi`; `Decrypt` of the
result returns the string `a\"b`, with the backslash.  The string `John Doe`,
which needs no escape, is encoded to `Sm9obiBEb2U=` as the claim says. -/
theorem base64_encrypt_keeps_escapes {F : Type} (N : Strconv F) :
    JSON.Marshal N (.str (ascii "a\"b")) = some (ascii "\"a\\\"b\"") ∧
    NewBase64Codec.Encrypt N (.str (ascii "a\"b")) = .ok (ascii "YVwiYg==") ∧
    Base64.EncodeToString (ascii "a\"b") = ascii "YSJi" ∧
    NewBase64Codec.Encrypt N (.str (ascii "a\"b"))
      ≠ .ok (Base64.EncodeToString (ascii "a\"b")) ∧
    NewBase64Codec.Decrypt N (ascii "YVwiYg==") = .ok (.str (ascii "a\\\"b")) ∧
    NewBase64Codec.Encrypt N (.str (ascii "John Doe")) = .ok (ascii "Sm9obiBEb2U=") ∧
    Base64.EncodeToString (ascii "John Doe") = ascii "Sm9obiBEb2U=" := by
  have h1 : JSON.Marshal N (.str (ascii "a\"b")) = some (ascii "\"a\\\"b\"") := rfl
  have h2 : NewBase64Codec.Encrypt N (.str (ascii "a\"b")) = .ok (ascii "YVwiYg==") := rfl
  refine ⟨h1, h2, by decide, ?_, rfl, rfl, by decide⟩
  rw [h2]
  intro h
  exact absurd (Except.ok.inj h) (by decide)

/-- C13: short input is rejected before opening.  For a key of 16, 24 or 32
bytes the constructor succeeds, and for every string: if it is not valid
base64, `Decrypt` fails with `DecodeError`; if it is valid and decodes to fewer
bytes than the nonce length, `Decrypt` fails with `Truncated`; otherwise the
decoded bytes hold a whole nonce, the split into nonce and remainder is within
bounds, and `Decrypt` fails with neither of the two errors. -/
theorem aesgcm_short_input {F : Type} (gcm : Bytes → AEAD) (key : Bytes)
    (hk : key.length = 16 ∨ key.length = 24 ∨ key.length = 32) (N : Strconv F) (s : Bytes) :
    ∃ c, NewAESGCMCipher gcm key = .ok c ∧
      ((¬ Base64.IsValid s ∧ c.Decrypt N s = .error .DecodeError) ∨
       (Base64.IsValid s ∧ ∃ raw, Base64.DecodeString s = some raw ∧
          ((raw.length < c.aead.NonceSize ∧ c.Decrypt N s = .error .Truncated) ∨
           (c.aead.NonceSize ≤ raw.length ∧
            (raw.take c.aead.NonceSize).length = c.aead.NonceSize ∧
            raw.take c.aead.NonceSize ++ raw.drop c.aead.NonceSize = raw ∧
            c.Decrypt N s ≠ .error .Truncated ∧ c.Decrypt N s ≠ .error .DecodeError)))) := by
  refine ⟨{ aead := gcm key }, by simp only [NewAESGCMCipher, hk, if_true], ?_⟩
  cases hd : Base64.DecodeString s with
  | none =>
    exact Or.inl ⟨(Base64.decodeString_eq_none_iff s).mp hd, by
      simp only [AESGCMCipher.Decrypt, hd]⟩
  | some raw =>
    have hv : Base64.IsValid s := (Base64.decodeString_isSome_iff s).mp (by rw [hd]; rfl)
    refine Or.inr ⟨hv, raw, rfl, ?_⟩
    by_cases hlen : raw.length < (gcm key).NonceSize
    · exact Or.inl ⟨hlen, by simp only [AESGCMCipher.Decrypt, hd, if_pos hlen]⟩
    · have hle : (gcm key).NonceSize ≤ raw.length := Nat.not_lt.mp hlen
      refine Or.inr ⟨hle, List.length_take_of_le hle, List.take_append_drop _ _, ?_, ?_⟩
      · simp only [AESGCMCipher.Decrypt, hd, if_neg hlen]
        cases (gcm key).Open (raw.take (gcm key).NonceSize) (raw.drop (gcm key).NonceSize) with
        | none => simp
        | some plaintext => cases hu : JSON.Unmarshal N plaintext <;> simp [hu]
      · simp only [AESGCMCipher.Decrypt, hd, if_neg hlen]
        cases (gcm key).Open (raw.take (gcm key).NonceSize) (raw.drop (gcm key).NonceSize) with
        | none => simp
        | some plaintext => cases hu : JSON.Unmarshal N plaintext <;> simp [hu]

/-- C13 at the two inputs of the test `TestAESCipher_DecryptErrors`, with the
stand-in AEAD and a key of 16 bytes: `c2hvcnQ=` is base64 for the five bytes
`short`, fewer than the nonce of twelve, and is rejected as truncated;
`!!!notbase64` is not valid base64 and is rejected by the decoder. -/
theorem aesgcm_short_input_witness :
    ((ascii "0123456789abcdef").length = 16 ∨ (ascii "0123456789abcdef").length = 24 ∨
      (ascii "0123456789abcdef").length = 32) ∧
    Base64.IsValid (ascii "c2hvcnQ=") ∧
    Base64.DecodeString (ascii "c2hvcnQ=") = some (ascii "short") ∧
    AESGCMCipher.Decrypt { aead := AEAD.checksum (ascii "0123456789abcdef") } Strconv.integral
      (ascii "c2hvcnQ=") = .error .Truncated ∧
    ¬ Base64.IsValid (ascii "!!!notbase64") ∧
    AESGCMCipher.Decrypt { aead := AEAD.checksum (ascii "0123456789abcdef") } Strconv.integral
      (ascii "!!!notbase64") = .error .DecodeError ∧
    ∃ c, NewAESGCMCipher AEAD.checksum (ascii "0123456789abcdef") = .ok c ∧
      ((¬ Base64.IsValid (ascii "c2hvcnQ=") ∧
          c.Decrypt Strconv.integral (ascii "c2hvcnQ=") = .error .DecodeError) ∨
       (Base64.IsValid (ascii "c2hvcnQ=") ∧
        ∃ raw, Base64.DecodeString (ascii "c2hvcnQ=") = some raw ∧
          ((raw.length < c.aead.NonceSize ∧
              c.Decrypt Strconv.integral (ascii "c2hvcnQ=") = .error .Truncated) ∨
           (c.aead.NonceSize ≤ raw.length ∧
            (raw.take c.aead.NonceSize).length = c.aead.NonceSize ∧
            raw.take c.aead.NonceSize ++ raw.drop c.aead.NonceSize = raw ∧
            c.Decrypt Strconv.integral (ascii "c2hvcnQ=") ≠ .error .Truncated ∧
            c.Decrypt Strconv.integral (ascii "c2hvcnQ=") ≠ .error .DecodeError)))) :=
  ⟨by decide,
   (by decide : Base64.validGroups (Base64.stripNewlines (ascii "c2hvcnQ=")) = true),
   by decide, rfl,
   (by decide : ¬ Base64.validGroups (Base64.stripNewlines (ascii "!!!notbase64")) = true), rfl,
   aesgcm_short_input AEAD.checksum (ascii "0123456789abcdef") (by decide) Strconv.integral
     (ascii "c2hvcnQ=")⟩

/-- C14, as stated, fails: the handler decodes the body into a map, so an
array, a string, a number and a boolean, all well-formed values, are answered
with status 400 and no signature. -/
theorem sign_rejects_non_object :
    ((Value.arr [.num 1] : Value Int).WellFormed Strconv.integral ∧
      JSON.Marshal Strconv.integral (.arr [.num 1]) = some (ascii "[1]") ∧
      (NewCryptoAPI (NewBase64Codec.toCipher Strconv.integral)
        ((NewHMACSigner (ascii "secret")).toSigner sumMAC)).PostSign Strconv.integral
        (ascii "[1]") = .error 400 "Invalid JSON payload") ∧
    ((Value.str (ascii "hello") : Value Int).WellFormed Strconv.integral ∧
      JSON.Marshal Strconv.integral (.str (ascii "hello")) = some (ascii "\"hello\"") ∧
      (NewCryptoAPI (NewBase64Codec.toCipher Strconv.integral)
        ((NewHMACSigner (ascii "secret")).toSigner sumMAC)).PostSign Strconv.integral
        (ascii "\"hello\"") = .error 400 "Invalid JSON payload") ∧
    ((Value.num 42 : Value Int).WellFormed Strconv.integral ∧
      JSON.Marshal Strconv.integral (.num 42) = some (ascii "42") ∧
      (NewCryptoAPI (NewBase64Codec.toCipher Strconv.integral)
        ((NewHMACSigner (ascii "secret")).toSigner sumMAC)).PostSign Strconv.integral
        (ascii "42") = .error 400 "Invalid JSON payload") ∧
    ((Value.bool true : Value Int).WellFormed Strconv.integral ∧
      JSON.Marshal Strconv.integral (.bool true) = some (ascii "true") ∧
      (NewCryptoAPI (NewBase64Codec.toCipher Strconv.integral)
        ((NewHMACSigner (ascii "secret")).toSigner sumMAC)).PostSign Strconv.integral
        (ascii "true") = .error 400 "Invalid JSON payload") :=
  ⟨⟨⟨rfl, trivial⟩, rfl, rfl⟩,
   ⟨(by decide : UTF8.Valid (ascii "hello") = true), rfl, rfl⟩,
   ⟨rfl, rfl, rfl⟩, ⟨trivial, rfl, rfl⟩⟩

/-- C14, amended: the Sign endpoint accepts a map.  For a lawful `strconv` and
every well-formed value nested no deeper than the decoder's limit of 10000,
`json.Marshal` gives canonical bytes without failure.  If the value is an
object or `null`, the canonical bytes sent as the request body decode to the
value, and every body that decodes to the value is answered with the hex
signature of the canonical bytes.  If the value is an array, a string, a number
or a boolean, its canonical bytes sent as the body are answered with status
400; so is every body whose first JSON value is an array, a string, a number or
a boolean. -/
theorem sign_accepts_object {F : Type} (N : Strconv F) (hN : N.Lawful)
    (H : Bytes → Bytes → Bytes) (key : Bytes) (c : Cipher F) (v : Value F)
    (hwf : v.WellFormed N) (hd : v.depth ≤ JSON.maxNestingDepth) :
    ∃ canon, JSON.Marshal N v = some canon ∧
      ((v = .null ∨ ∃ kvs, v = .obj kvs) →
        decodePayload N canon = some v ∧
        (NewCryptoAPI c ((NewHMACSigner key).toSigner H)).PostSign N canon
          = .signature (Hex.EncodeToString (H key canon)) ∧
        ∀ body, decodePayload N body = some v →
          (NewCryptoAPI c ((NewHMACSigner key).toSigner H)).PostSign N body
            = .signature (Hex.EncodeToString (H key canon))) ∧
      (((∃ xs, v = .arr xs) ∨ (∃ s, v = .str s) ∨ (∃ f, v = .num f) ∨ (∃ b, v = .bool b)) →
        (NewCryptoAPI c ((NewHMACSigner key).toSigner H)).PostSign N canon
          = .error 400 "Invalid JSON payload") ∧
      (∀ (body : Bytes) (w : Value F) (rest : Bytes),
        JSON.parseValue N (body.length + 1) 0 body = some (w, rest) →
        ((∃ xs, w = .arr xs) ∨ (∃ s, w = .str s) ∨ (∃ f, w = .num f) ∨ (∃ b, w = .bool b)) →
        (NewCryptoAPI c ((NewHMACSigner key).toSigner H)).PostSign N body
          = .error 400 "Invalid JSON payload") := by
  obtain ⟨e, he⟩ := JSON.encodeValue_some N v hwf
  have hp := JSON.parseValue_encodeValue N hN v e (e.length + 1) 0 [] hwf he (by omega)
    (by omega) (Or.inl rfl)
  rw [List.append_nil] at hp
  have hrej : ∀ (body : Bytes) (w : Value F) (rest : Bytes),
      JSON.parseValue N (body.length + 1) 0 body = some (w, rest) →
      ((∃ xs, w = .arr xs) ∨ (∃ s, w = .str s) ∨ (∃ f, w = .num f) ∨ (∃ b, w = .bool b)) →
      (NewCryptoAPI c ((NewHMACSigner key).toSigner H)).PostSign N body
        = .error 400 "Invalid JSON payload" := by
    intro body w rest hw hk
    rcases hk with ⟨xs, rfl⟩ | ⟨s, rfl⟩ | ⟨f, rfl⟩ | ⟨b, rfl⟩ <;>
      simp only [CryptoAPI.PostSign, decodePayload, hw]
  refine ⟨e, he, fun hobj => ?_, fun hk => hrej e v [] hp hk, hrej⟩
  have hdec : decodePayload N e = some v := by
    rcases hobj with rfl | ⟨kvs, rfl⟩
    · simp only [decodePayload, hp]
    · simp only [decodePayload, hp]
  have hsign : ∀ body, decodePayload N body = some v →
      (NewCryptoAPI c ((NewHMACSigner key).toSigner H)).PostSign N body
        = .signature (Hex.EncodeToString (H key e)) := by
    intro body hb
    have hm : JSON.Marshal N v = some e := he
    simp only [CryptoAPI.PostSign, hb, CryptoAPI.signPayload, hm, NewCryptoAPI,
      HMACSigner.toSigner, HMACSigner.Sign, NewHMACSigner]
  exact ⟨hdec, hsign e hdec, hsign⟩

/-- C14, amended, at the payload of the test `TestSignVerifyFlow` with the
stand-in keyed hash: the object is within the nesting limit and is signed,
whatever the order of the keys in the body. -/
theorem sign_accepts_object_witness :
    Strconv.integral.Lawful ∧
    (signedPayload = .null ∨ ∃ kvs, signedPayload = .obj kvs) ∧
    signedPayload.WellFormed Strconv.integral ∧
    signedPayload.depth ≤ JSON.maxNestingDepth ∧
    (NewCryptoAPI (NewBase64Codec.toCipher Strconv.integral)
        ((NewHMACSigner (ascii "secret")).toSigner sumMAC)).PostSign Strconv.integral
        (ascii "\x7b\"timestamp\":1616161616,\"message\":\"Hello World\"\x7d")
      = .signature (ascii "c2") ∧
    ∃ canon, JSON.Marshal Strconv.integral signedPayload = some canon ∧
      decodePayload Strconv.integral canon = some signedPayload ∧
      (NewCryptoAPI (NewBase64Codec.toCipher Strconv.integral)
        ((NewHMACSigner (ascii "secret")).toSigner sumMAC)).PostSign Strconv.integral canon
        = .signature (Hex.EncodeToString (sumMAC (ascii "secret") canon)) ∧
      ∀ body, decodePayload Strconv.integral body = some signedPayload →
        (NewCryptoAPI (NewBase64Codec.toCipher Strconv.integral)
          ((NewHMACSigner (ascii "secret")).toSigner sumMAC)).PostSign Strconv.integral body
          = .signature (Hex.EncodeToString (sumMAC (ascii "secret") canon)) :=
  have hwf : signedPayload.WellFormed Strconv.integral :=
    ⟨⟨by decide, trivial⟩, by decide, (by decide : UTF8.Valid (ascii "Hello World") = true),
      by decide, rfl, trivial⟩
  have hd : signedPayload.depth ≤ JSON.maxNestingDepth := by decide
  have hobj : signedPayload = .null ∨ ∃ kvs, signedPayload = .obj kvs := Or.inr ⟨_, rfl⟩
  ⟨integral_lawful, hobj, hwf, hd, rfl,
   (sign_accepts_object Strconv.integral integral_lawful sumMAC (ascii "secret")
     (NewBase64Codec.toCipher Strconv.integral) signedPayload hwf hd).imp
     (fun _ h => ⟨h.1, h.2.1 hobj⟩)⟩

end CryptoEnvelope
